import Mathlib

/-!
# mikunyan.cpp : dithering and mosaic composition

A shallow embedding of `src/mikunyan.cpp`.

* `cv::Mat` is a record of its dimensions and an accessor `data r c` (row, column).
  The loops of the code read and write cells through `at(i, j)` with `i < rows` and
  `j < cols` only; the statements below speak about the cells inside these bounds.
* `uchar` cells are natural numbers; the only values the code writes are 0 and 255.
* The `CV_32F` working image of the error diffusion is embedded with its rounding:
  `diffuseCellWith fl` is the loop body in which every product, quotient, difference and sum
  is rounded by `fl`, and `fl = roundBinary32` (IEEE 754 binary32, round to nearest, ties to
  even, one rounding per operation) is the arithmetic of the code. `diffuseCell` is the same
  body in exact rational arithmetic (`fl = id`). `applyErrorDiffusionDitheringF32` runs the
  rounded body, `applyErrorDiffusionDithering` the exact one. What is proved of the exact run
  on binarization, value bounds, grids of 0 and 255 and forward-only propagation is proved of
  the binary32 run as well (`applyErrorDiffusionDitheringF32_binarized`,
  `binary32_values_bounded`, `applyErrorDiffusionDitheringF32_of_binarized`,
  `applyErrorDiffusionDitheringF32_forward_only`); the two runs differ in the amounts handed
  on and in the values read (`roundingGrid`, `roundingRow`).
* `int` parameters of `processFrame` are integers; `/` on them is C++ truncating
  division, and a zero divisor is reported as a fault.
* `cv::resize` followed by `cv::cvtColor` is an external collaborator and enters
  `processFrame` as the parameter `reduce`.
* `main` is a function of what it receives from outside (`RunEnv`): arguments, standard
  input, and the results of opening the video, the images and the writer.
-/

namespace Mikunyan

/-! ## Data model -/

/-- Matrix header: `rows`, `cols` and the cell accessor (row first, column second). -/
structure Mat (α : Type) where
  rows : Nat
  cols : Nat
  data : Nat → Nat → α

/-- In-place write `m.at(i, j) = v`. -/
def Mat.set {α : Type} (m : Mat α) (i j : Nat) (v : α) : Mat α :=
  { m with data := fun r c => if r = i ∧ c = j then v else m.data r c }

/-- Element-wise conversion `m.convertTo(dst, type)`: same dimensions, each cell cast by `f`. -/
def Mat.convertTo {α β : Type} (f : α → β) (m : Mat α) : Mat β :=
  { rows := m.rows, cols := m.cols, data := fun r c => f (m.data r c) }

/-- Build a matrix from a list of rows (used for concrete inputs); missing cells read `d`. -/
def Mat.ofRows {α : Type} (d : α) (l : List (List α)) : Mat α :=
  { rows := l.length, cols := (l.headD []).length, data := fun r c => (l.getD r []).getD c d }

/-- The cells of a `rows x cols` matrix in row-major (scan) order. -/
def scanOrder (rows cols : Nat) : List (Nat × Nat) :=
  List.range rows ×ˢ List.range cols

/-- The nested loops over a grid: `forCells rows cols body s` is
`for (i = 0; i < rows; ++i) for (j = 0; j < cols; ++j) s = body s i j`. -/
def forCells {σ : Type} (rows cols : Nat) (body : σ → Nat → Nat → σ) (s : σ) : σ :=
  (List.range rows).foldl (fun acc i => (List.range cols).foldl (fun acc j => body acc i j) acc) s

/-! ## Ordered dithering -/

/-- The table `ditherMatrix[4][4]`. -/
def ditherMatrix : List (List Nat) :=
  [[ 0,  8,  2, 10],
   [12,  4, 14,  6],
   [ 3, 11,  1,  9],
   [15,  7, 13,  5]]

/-- The entry `ditherMatrix[r][c]`. -/
def ditherMatrixAt (r c : Nat) : Nat := (ditherMatrix.getD r []).getD c 0

/-- Body of the loop of `applyOrderedDithering`. -/
def orderedDitherCell (matrixSize scale : Nat) (grayImage : Mat Nat) (i j : Nat) : Mat Nat :=
  let threshold := ditherMatrixAt (i % matrixSize) (j % matrixSize) * scale
  grayImage.set i j (if grayImage.data i j > threshold then 255 else 0)

/-- The function `void applyOrderedDithering(cv::Mat& grayImage)`; the result is the matrix
after the call. -/
def applyOrderedDithering (grayImage : Mat Nat) : Mat Nat :=
  let rows := grayImage.rows
  let cols := grayImage.cols
  let matrixSize := 4
  let scale := 256 / (matrixSize * matrixSize + 1)
  forCells rows cols (orderedDitherCell matrixSize scale) grayImage

/-- Reference definition of ordered dithering, from the specification: the value of cell
`(r, c)` holding `v` becomes 255 if `v > DitherMatrix[r mod 4][c mod 4] * 15`, else 0. -/
def orderedDitherRef (v r c : Nat) : Nat :=
  if v > ditherMatrixAt (r % 4) (c % 4) * 15 then 255 else 0

/-! ## Error-diffusion dithering -/

/-- Rounding of `cvRound`: to the nearest integer, ties to the even one. -/
def cvRound (x : ℚ) : Int :=
  let f := ⌊x⌋
  let d := x - f
  if d < 1 / 2 then f else if 1 / 2 < d then f + 1 else if f % 2 = 0 then f else f + 1

/-- The cast `saturate_cast<uchar>` applied by `convertTo(.., CV_8U)`: round, then clamp to 0..255. -/
def saturate_cast_uchar (x : ℚ) : Nat :=
  let r := cvRound x
  if r < 0 then 0 else if 255 < r then 255 else r.toNat

/-- The value `newPixel` chosen for a working value `oldPixel`. -/
def quantize (oldPixel : ℚ) : ℚ := if oldPixel > 127 then 255 else 0

/-- The value `quantError = oldPixel - newPixel`. -/
def quantErrorOf (oldPixel : ℚ) : ℚ := oldPixel - quantize oldPixel

/-- The statement `m.at(i, j) += d`. -/
def Mat.addAt (m : Mat ℚ) (i j : Nat) (d : ℚ) : Mat ℚ := m.set i j (m.data i j + d)

/-- Body of the loop of `applyErrorDiffusionDithering` for cell `(i, j)` in exact rational
arithmetic: the float operations of the code without their rounding (`diffuseCellWith` has the
rounding). -/
def diffuseCell (rows cols : Nat) (errorImage : Mat ℚ) (i j : Nat) : Mat ℚ :=
  let oldPixel := errorImage.data i j
  let newPixel := quantize oldPixel
  let e0 := errorImage.set i j newPixel
  let quantError := oldPixel - newPixel
  let e1 := if j + 1 < cols then e0.addAt i (j + 1) (quantError * 7 / 16) else e0
  if i + 1 < rows then
    let e2 := if j > 0 then e1.addAt (i + 1) (j - 1) (quantError * 3 / 16) else e1
    let e3 := e2.addAt (i + 1) j (quantError * 5 / 16)
    if j + 1 < cols then e3.addAt (i + 1) (j + 1) (quantError * 1 / 16) else e3
  else e1

/-- The two nested loops of `applyErrorDiffusionDithering` on the working image. -/
def diffuseAll (rows cols : Nat) (errorImage : Mat ℚ) : Mat ℚ :=
  forCells rows cols (diffuseCell rows cols) errorImage

/-- The function `void applyErrorDiffusionDithering(cv::Mat& grayImage)`; the result is the
matrix after the call. -/
def applyErrorDiffusionDithering (grayImage : Mat Nat) : Mat Nat :=
  let rows := grayImage.rows
  let cols := grayImage.cols
  let errorImage : Mat ℚ := grayImage.convertTo (fun v : Nat => (v : ℚ))
  (diffuseAll rows cols errorImage).convertTo saturate_cast_uchar

/-- Fold of the loop body of `applyErrorDiffusionDithering` over a list of cells. -/
def diffuseList (rows cols : Nat) (l : List (Nat × Nat)) (m : Mat ℚ) : Mat ℚ :=
  l.foldl (fun acc p => diffuseCell rows cols acc p.1 p.2) m

/-- The cells that the loops have processed when they reach cell `(i, j)`: the part of the
scan order that comes before `(i, j)`. -/
def cellsBefore (rows cols i j : Nat) : List (Nat × Nat) :=
  (scanOrder rows cols).takeWhile (fun p => decide (p ≠ (i, j)))

/-- The working image at the moment the loops of `applyErrorDiffusionDithering` reach cell
`(i, j)`: the loop body has run on every cell of `cellsBefore`, on no other. -/
def stateBefore (grayImage : Mat Nat) (i j : Nat) : Mat ℚ :=
  diffuseList grayImage.rows grayImage.cols (cellsBefore grayImage.rows grayImage.cols i j)
    (grayImage.convertTo (fun v : Nat => (v : ℚ)))

/-- The value `oldPixel` read when the loops reach cell `(i, j)`. -/
def oldPixelAt (grayImage : Mat Nat) (i j : Nat) : ℚ := (stateBefore grayImage i j).data i j

/-- The value `quantError` computed when the loops reach cell `(i, j)`. -/
def quantErrorAt (grayImage : Mat Nat) (i j : Nat) : ℚ := quantErrorOf (oldPixelAt grayImage i j)

/-- Total amount added to the cells other than `(i, j)` itself by one execution of the loop
body at `(i, j)` on the working image `m`: the sum, over the grid, of value after minus value
before. The only cells the body adds to are the neighbours of `(i, j)`. -/
def propagatedError (rows cols : Nat) (m : Mat ℚ) (i j : Nat) : ℚ :=
  ((scanOrder rows cols).map (fun p =>
    if p = (i, j) then 0 else (diffuseCell rows cols m i j).data p.1 p.2 - m.data p.1 p.2)).sum

/-- Every cell of the grid is 0 or 255. -/
def Binarized (g : Mat Nat) : Prop :=
  ∀ r, r < g.rows → ∀ c, c < g.cols → g.data r c = 0 ∨ g.data r c = 255

instance (g : Mat Nat) : Decidable (Binarized g) := by
  unfold Binarized
  infer_instance

/-- Every cell of the grid is an 8-bit value. -/
def EightBit (g : Mat Nat) : Prop :=
  ∀ r, r < g.rows → ∀ c, c < g.cols → g.data r c ≤ 255

instance (g : Mat Nat) : Decidable (EightBit g) := by
  unfold EightBit
  infer_instance

/-- Two grids are the same grid: same dimensions and the same value in every cell. -/
def SameGrid (a b : Mat Nat) : Prop :=
  a.rows = b.rows ∧ a.cols = b.cols ∧ ∀ r, r < a.rows → ∀ c, c < a.cols → a.data r c = b.data r c

instance (a b : Mat Nat) : Decidable (SameGrid a b) := by
  unfold SameGrid
  infer_instance

/-! ## Frame composition -/

/-- A colour pixel: three 8-bit channels. -/
abbrev Vec3b := Nat × Nat × Nat

/-- The rectangle `cv::Rect(x, y, width, height)`. -/
structure Rect where
  x : Int
  y : Int
  width : Int
  height : Int

/-- The frame `cv::Mat::zeros(size, type)`. -/
def Mat.zeros (rows cols : Nat) : Mat Vec3b :=
  { rows := rows, cols := cols, data := fun _ _ => (0, 0, 0) }

/-- The call `src.copyTo(roi)` with `roi = dst(rect)`: when `src` has the size of the
rectangle its pixels are copied into that region of `dst`; otherwise `copyTo` reallocates the
local header `roi` and `dst` keeps its pixels. -/
def copyToRoi (src dst : Mat Vec3b) (rect : Rect) : Mat Vec3b :=
  if (src.rows : Int) = rect.height ∧ (src.cols : Int) = rect.width then
    { dst with data := fun y x =>
        if rect.y ≤ (y : Int) ∧ (y : Int) < rect.y + rect.height ∧
            rect.x ≤ (x : Int) ∧ (x : Int) < rect.x + rect.width then
          src.data ((y : Int) - rect.y).toNat ((x : Int) - rect.x).toNat
        else dst.data y x }
  else dst

/-- Which of the two tiles a cell receives. -/
inductive Tile where
  | black
  | white
  deriving DecidableEq, Repr

/-- The test `pixel < threshhold` of the composition loop. -/
def selectTile (pixel : Nat) (threshhold : Int) : Tile :=
  if (pixel : Int) < threshhold then Tile.black else Tile.white

/-- The image of a tile. -/
def tileImage (blackImg whiteImg : Mat Vec3b) : Tile → Mat Vec3b
  | Tile.black => blackImg
  | Tile.white => whiteImg

/-- The rectangle `cv::Rect(j * blockSize, i * blockSize, blockSize, blockSize)` of cell `(i, j)`. -/
def blockRect (blockSize : Int) (i j : Nat) : Rect :=
  { x := j * blockSize, y := i * blockSize, width := blockSize, height := blockSize }

/-- Body of the composition loop of `processFrame` for grid cell `(i, j)`. -/
def stampCell (resized : Mat Nat) (blockSize threshhold : Int) (blackImg whiteImg : Mat Vec3b)
    (outputFrame : Mat Vec3b) (i j : Nat) : Mat Vec3b :=
  let pixel := resized.data i j
  let roi := blockRect blockSize i j
  copyToRoi (tileImage blackImg whiteImg (selectTile pixel threshhold)) outputFrame roi

/-- The dithering step of `processFrame`. -/
def ditherStage (ditherMode : Int) (resized : Mat Nat) : Mat Nat :=
  if ditherMode = 1 then applyOrderedDithering resized
  else if ditherMode = 2 then applyErrorDiffusionDithering resized
  else resized

/-- Faults of `processFrame`. -/
inductive Fault where
  | divisionByZero
  deriving DecidableEq, Repr

/-- The grid read by the composition loop of `processFrame`: the frame reduced to
`cols x rows` by `reduce` (`cv::resize` then `cv::cvtColor`), then dithered. -/
def gridOf (reduce : Mat Vec3b → Int → Int → Mat Nat) (frame : Mat Vec3b) (blockSize : Int)
    (ditherMode : Int) : Mat Nat :=
  let rows : Int := Int.tdiv frame.rows blockSize
  let cols : Int := Int.tdiv frame.cols blockSize
  ditherStage ditherMode (reduce frame cols rows)

/-- The function
`void processFrame(frame, outputFrame, blockSize, threshhold, blackImg, whiteImg, ditherMode)`;
the result is `outputFrame` after the call. -/
def processFrame (reduce : Mat Vec3b → Int → Int → Mat Nat) (frame : Mat Vec3b)
    (blockSize threshhold : Int) (blackImg whiteImg : Mat Vec3b) (ditherMode : Int) :
    Except Fault (Mat Vec3b) :=
  if blockSize = 0 then Except.error Fault.divisionByZero
  else
    let rows : Int := Int.tdiv frame.rows blockSize
    let cols : Int := Int.tdiv frame.cols blockSize
    let resized := reduce frame cols rows
    let resized := ditherStage ditherMode resized
    let outputFrame := Mat.zeros frame.rows frame.cols
    Except.ok (forCells rows.toNat cols.toNat
      (stampCell resized blockSize threshhold blackImg whiteImg) outputFrame)

/-- The composition loop of `processFrame` with a counter of the `copyTo` calls it makes. -/
def composeCounting (resized : Mat Nat) (rows cols : Nat) (blockSize threshhold : Int)
    (blackImg whiteImg : Mat Vec3b) (outputFrame : Mat Vec3b) : Mat Vec3b × Nat :=
  forCells rows cols
    (fun s i j => (stampCell resized blockSize threshhold blackImg whiteImg s.1 i j, s.2 + 1))
    (outputFrame, 0)

/-- Fold of the body of the composition loop over a list of grid cells. -/
def stampList (resized : Mat Nat) (blockSize threshhold : Int) (blackImg whiteImg : Mat Vec3b)
    (l : List (Nat × Nat)) (outputFrame : Mat Vec3b) : Mat Vec3b :=
  l.foldl (fun acc p => stampCell resized blockSize threshhold blackImg whiteImg acc p.1 p.2)
    outputFrame

/-- Pixel `(y, x)` lies in the block of grid cell `(i, j)`. -/
def InBlock (b i j y x : Nat) : Prop :=
  i * b ≤ y ∧ y < (i + 1) * b ∧ j * b ≤ x ∧ x < (j + 1) * b

/-! ## Auxiliary notions for the error-diffusion proofs -/

/-- Cell `a` comes strictly before cell `b` in row-major order. -/
def Before (a b : Nat × Nat) : Prop := a.1 < b.1 ∨ (a.1 = b.1 ∧ a.2 < b.2)

/-- Fraction of the quantization error of cell `(i, j)` that the loop body adds to cell
`(r, c)`: 7/16 to the right, 3/16 below-left, 5/16 below, 1/16 below-right, each only when the
corresponding guard of the body holds. -/
def weight (rows cols i j r c : Nat) : ℚ :=
  (if r = i ∧ c = j + 1 ∧ j + 1 < cols then 7 / 16 else 0) +
  (if r = i + 1 ∧ c + 1 = j ∧ i + 1 < rows then 3 / 16 else 0) +
  (if r = i + 1 ∧ c = j ∧ i + 1 < rows then 5 / 16 else 0) +
  (if r = i + 1 ∧ c = j + 1 ∧ i + 1 < rows ∧ j + 1 < cols then 1 / 16 else 0)

/-- Sum of the fractions that the cells of `l` send to cell `(r, c)`. -/
def weightFrom (rows cols : Nat) (l : List (Nat × Nat)) (r c : Nat) : ℚ :=
  (l.map (fun s => weight rows cols s.1 s.2 r c)).sum

/-! ## Concrete inputs -/

/-- A 2 x 3 grid of 8-bit values. -/
def sampleGrid : Mat Nat := Mat.ofRows 0 [[10, 200, 130], [100, 50, 255]]

/-- A 2 x 3 grid whose cells are 0 or 255. -/
def sampleBinaryGrid : Mat Nat := Mat.ofRows 0 [[0, 255, 255], [255, 0, 0]]

/-- A 2 x 2 grid whose first cell holds 16. -/
def cornerGrid : Mat Nat := Mat.ofRows 0 [[16, 0], [0, 0]]

/-- An image of one colour. -/
def solidImage (rows cols : Nat) (colour : Vec3b) : Mat Vec3b :=
  { rows := rows, cols := cols, data := fun _ _ => colour }

/-- A stand-in for `cv::resize` and `cv::cvtColor`: the grid of the requested size whose cell
`(r, c)` is the first channel of the frame pixel `(r, c)`. -/
def sampleReduce (frame : Mat Vec3b) (cols rows : Int) : Mat Nat :=
  { rows := rows.toNat, cols := cols.toNat, data := fun r c => (frame.data r c).1 }

/-- A 5 x 4 frame whose first channel is `60 * row + 10 * column`. -/
def sampleFrame : Mat Vec3b :=
  { rows := 5, cols := 4, data := fun r c => (60 * r + 10 * c, 0, 0) }

/-! ## Tone of a block -/

/-- Number of cells equal to 255 in the 4 x 4 block of `m` whose top-left cell is `(4k, 4l)`. -/
def whiteCount (m : Mat Nat) (k l : Nat) : Nat :=
  ((scanOrder 4 4).filter (fun p => decide (m.data (4 * k + p.1) (4 * l + p.2) = 255))).length

/-- Number of entries `d` of the dither matrix with `d * 15 < v`. -/
def toneLevel (v : Nat) : Nat :=
  ((scanOrder 4 4).filter (fun p => decide (v > ditherMatrixAt p.1 p.2 * 15))).length

/-- A 4 x 8 grid of the single tone `v`. -/
def solidGrid (v : Nat) : Mat Nat := { rows := 4, cols := 8, data := fun _ _ => v }

/-! ## The composition loop with checked accesses -/

/-- Faults of the memory accesses of the composition loop. -/
inductive BoundsFault where
  | gridIndexOutOfRange
  | roiOutOfRange
  deriving DecidableEq, Repr

/-- The condition that `cv::Mat::operator()(const Rect&)` asserts: the rectangle lies inside the
matrix. -/
def rectInside (rect : Rect) (m : Mat Vec3b) : Prop :=
  0 ≤ rect.x ∧ 0 ≤ rect.width ∧ rect.x + rect.width ≤ (m.cols : Int) ∧
  0 ≤ rect.y ∧ 0 ≤ rect.height ∧ rect.y + rect.height ≤ (m.rows : Int)

instance (rect : Rect) (m : Mat Vec3b) : Decidable (rectInside rect m) := by
  unfold rectInside
  infer_instance

/-- Body of the composition loop of `processFrame` with its two accesses checked: the read
`resized.at<uchar>(i, j)` must lie inside `resized`, and the rectangle of `outputFrame(...)`
inside `outputFrame`. -/
def stampCellChecked (resized : Mat Nat) (blockSize threshhold : Int)
    (blackImg whiteImg : Mat Vec3b) (outputFrame : Mat Vec3b) (i j : Nat) :
    Except BoundsFault (Mat Vec3b) :=
  if i < resized.rows ∧ j < resized.cols then
    if rectInside (blockRect blockSize i j) outputFrame then
      Except.ok (stampCell resized blockSize threshhold blackImg whiteImg outputFrame i j)
    else Except.error BoundsFault.roiOutOfRange
  else Except.error BoundsFault.gridIndexOutOfRange

/-- The composition loop of `processFrame` run with the checked body. -/
def composeChecked (resized : Mat Nat) (rows cols : Nat) (blockSize threshhold : Int)
    (blackImg whiteImg : Mat Vec3b) (outputFrame : Mat Vec3b) : Except BoundsFault (Mat Vec3b) :=
  (List.range rows).foldlM (fun acc i => (List.range cols).foldlM
    (fun acc j => stampCellChecked resized blockSize threshhold blackImg whiteImg acc i j) acc)
    outputFrame

/-! ## Row-major order and the gather form -/

/-- Cell `a` is cell `b` or comes before it in row-major order. -/
def UpTo (a b : Nat × Nat) : Prop := a = b ∨ Before a b

instance (a b : Nat × Nat) : Decidable (Before a b) := by
  unfold Before
  infer_instance

instance (a b : Nat × Nat) : Decidable (UpTo a b) := by
  unfold UpTo
  infer_instance

/-- A 2 x 3 grid that agrees with `sampleGrid` on the first row and on cell `(1, 0)`. -/
def sampleGridVariant : Mat Nat := Mat.ofRows 0 [[10, 200, 130], [100, 7, 9]]

/-- The quantization error `e(a, b)` of the gather form: the `quantError` of cell `(a, b)` when
the indices lie inside the grid, 0 otherwise. -/
def errorAt (g : Mat Nat) (a b : Int) : ℚ :=
  if 0 ≤ a ∧ a < g.rows ∧ 0 ≤ b ∧ b < g.cols then quantErrorAt g a.toNat b.toNat else 0

/-- Gather form of one row of the error diffusion, from the specification: the value of cell
`(i, j)` is its input plus 7/16 of the error of the cell to its left and 1/16, 5/16, 3/16 of
the errors `prevErr` of the cells above-left, above and above-right. -/
def gatherRow (g : Mat Nat) (i : Nat) (prevErr : Int → ℚ) : Nat → ℚ
  | 0 => (g.data i 0 : ℚ) + 1 / 16 * prevErr (-1) + 5 / 16 * prevErr 0 + 3 / 16 * prevErr 1
  | j + 1 => (g.data i (j + 1) : ℚ) + 7 / 16 * quantErrorOf (gatherRow g i prevErr j) +
      1 / 16 * prevErr j + 5 / 16 * prevErr (j + 1) + 3 / 16 * prevErr (j + 2)

/-- Gather form of the error diffusion, from the specification: `v(i, j)` computed row by row,
with `e(a, b) = v(a, b) - q(v(a, b))` and errors of cells outside the grid equal to 0. -/
def gatherValue (g : Mat Nat) : Nat → Nat → ℚ
  | 0 => gatherRow g 0 (fun _ => 0)
  | i + 1 => gatherRow g (i + 1)
      (fun b => if 0 ≤ b ∧ b < g.cols then quantErrorOf (gatherValue g i b.toNat) else 0)

/-! ## The program entry -/

/-- What `main` receives from outside: the number of arguments, the results of
`std::stoi(argv[2])` and `std::stoi(argv[3])` (`none` when `std::stoi` throws), the number read
from `std::cin`, whether the capture and the writer open, the two images read by `cv::imread`,
and the frames that `cap.read` delivers. -/
structure RunEnv where
  argc : Nat
  blockSizeArg : Option Int
  threshholdArg : Option Int
  ditherModeInput : Int
  capOpened : Bool
  blackImg : Mat Vec3b
  whiteImg : Mat Vec3b
  writerOpened : Bool
  frames : List (Mat Vec3b)

/-- How a run of `main` ends: it returns an exit code after writing some frames, an exception of
`std::stoi` escapes, or `processFrame` faults. -/
inductive RunResult where
  | exit (code : Int) (written : List (Mat Vec3b))
  | uncaughtException
  | fault (f : Fault)

/-- The test `m.empty()`. -/
def Mat.empty {α : Type} (m : Mat α) : Bool := decide (m.rows = 0 ∨ m.cols = 0)

/-- The loop `while (cap.read(frame)) { processFrame(...); videoWriter.write(outputFrame); }`:
the written frames, or the fault of the first call of `processFrame` that faults. -/
def processAll (reduce : Mat Vec3b → Int → Int → Mat Nat) (blockSize threshhold : Int)
    (blackImg whiteImg : Mat Vec3b) (ditherMode : Int) :
    List (Mat Vec3b) → Except Fault (List (Mat Vec3b))
  | [] => Except.ok []
  | frame :: rest =>
    match processFrame reduce frame blockSize threshhold blackImg whiteImg ditherMode with
    | Except.error f => Except.error f
    | Except.ok out =>
      match processAll reduce blockSize threshhold blackImg whiteImg ditherMode rest with
      | Except.error f => Except.error f
      | Except.ok outs => Except.ok (out :: outs)

/-- The function `int main(int argc, char** argv)`. -/
def main (reduce : Mat Vec3b → Int → Int → Mat Nat) (env : RunEnv) : RunResult :=
  if env.argc < 7 then RunResult.exit (-1) []
  else
    match env.blockSizeArg with
    | none => RunResult.uncaughtException
    | some blockSize =>
      match env.threshholdArg with
      | none => RunResult.uncaughtException
      | some threshhold =>
        let ditherMode := env.ditherModeInput
        if !env.capOpened then RunResult.exit (-1) []
        else if env.blackImg.empty || env.whiteImg.empty then RunResult.exit (-1) []
        else if !env.writerOpened then RunResult.exit (-1) []
        else
          match processAll reduce blockSize threshhold env.blackImg env.whiteImg ditherMode
              env.frames with
          | Except.error f => RunResult.fault f
          | Except.ok outs => RunResult.exit 0 outs

/-- A run with block size 0: seven arguments, `"0"` as block size, `"128"` as threshold, dither
mode 0, a video of one 5 x 4 frame that opens, two 2 x 2 tiles that load, a writer that opens. -/
def zeroBlockRun : RunEnv :=
  { argc := 7, blockSizeArg := some 0, threshholdArg := some 128, ditherModeInput := 0,
    capOpened := true, blackImg := solidImage 2 2 (0, 0, 0),
    whiteImg := solidImage 2 2 (255, 255, 255), writerOpened := true, frames := [sampleFrame] }

/-! ## Error-diffusion dithering in binary32 arithmetic -/

/-- Rounding of a rational value to the nearest binary32 number, ties to the even significand:
24 significant bits, smallest normal exponent -126 (below it the spacing stays `2 ^ (-149)`).
The exponent has no upper limit here: overflow to infinity, which starts at `2 ^ 128`, is not
represented. -/
def roundBinary32 (x : ℚ) : ℚ :=
  if x = 0 then 0
  else
    let e := max (Int.log 2 |x|) (-126)
    let quantum : ℚ := (2 : ℚ) ^ (e - 23)
    (cvRound (x / quantum) : ℚ) * quantum

/-- The amount `quantError * k / 16.0f` of the loop body: the product and the quotient are each
rounded by `fl`. -/
def shareOf (fl : ℚ → ℚ) (quantError k : ℚ) : ℚ := fl (fl (quantError * k) / 16)

/-- The statement `m.at(i, j) += d` with the sum rounded by `fl`. -/
def Mat.addAtWith (fl : ℚ → ℚ) (m : Mat ℚ) (i j : Nat) (d : ℚ) : Mat ℚ :=
  m.set i j (fl (m.data i j + d))

/-- Body of the loop of `applyErrorDiffusionDithering` for cell `(i, j)` with every arithmetic
result rounded by `fl`; `fl = roundBinary32` is the `CV_32F` arithmetic of the code, `fl = id`
the exact arithmetic of `diffuseCell`. -/
def diffuseCellWith (fl : ℚ → ℚ) (rows cols : Nat) (errorImage : Mat ℚ) (i j : Nat) : Mat ℚ :=
  let oldPixel := errorImage.data i j
  let newPixel := quantize oldPixel
  let e0 := errorImage.set i j newPixel
  let quantError := fl (oldPixel - newPixel)
  let e1 := if j + 1 < cols then e0.addAtWith fl i (j + 1) (fl (fl (quantError * 7) / 16)) else e0
  if i + 1 < rows then
    let e2 := if j > 0 then e1.addAtWith fl (i + 1) (j - 1) (fl (fl (quantError * 3) / 16)) else e1
    let e3 := e2.addAtWith fl (i + 1) j (fl (fl (quantError * 5) / 16))
    if j + 1 < cols then e3.addAtWith fl (i + 1) (j + 1) (fl (fl (quantError * 1) / 16)) else e3
  else e1

/-- The two nested loops of `applyErrorDiffusionDithering` with arithmetic rounded by `fl`. -/
def diffuseAllWith (fl : ℚ → ℚ) (rows cols : Nat) (errorImage : Mat ℚ) : Mat ℚ :=
  forCells rows cols (diffuseCellWith fl rows cols) errorImage

/-- The function `void applyErrorDiffusionDithering(cv::Mat& grayImage)` with the `CV_32F`
working image held in binary32. -/
def applyErrorDiffusionDitheringF32 (grayImage : Mat Nat) : Mat Nat :=
  let rows := grayImage.rows
  let cols := grayImage.cols
  let errorImage : Mat ℚ := grayImage.convertTo (fun v : Nat => (v : ℚ))
  (diffuseAllWith roundBinary32 rows cols errorImage).convertTo saturate_cast_uchar

/-- Fold of the rounded loop body over a list of cells. -/
def diffuseListWith (fl : ℚ → ℚ) (rows cols : Nat) (l : List (Nat × Nat)) (m : Mat ℚ) : Mat ℚ :=
  l.foldl (fun acc p => diffuseCellWith fl rows cols acc p.1 p.2) m

/-- The rounded working image at the moment the loops reach cell `(i, j)`. -/
def stateBeforeWith (fl : ℚ → ℚ) (grayImage : Mat Nat) (i j : Nat) : Mat ℚ :=
  diffuseListWith fl grayImage.rows grayImage.cols (cellsBefore grayImage.rows grayImage.cols i j)
    (grayImage.convertTo (fun v : Nat => (v : ℚ)))

/-- The value `oldPixel` read when the loops reach cell `(i, j)`, arithmetic rounded by `fl`. -/
def oldPixelAtWith (fl : ℚ → ℚ) (grayImage : Mat Nat) (i j : Nat) : ℚ :=
  (stateBeforeWith fl grayImage i j).data i j

/-- The value `quantError` computed when the loops reach cell `(i, j)`, arithmetic rounded by
`fl`. -/
def quantErrorAtWith (fl : ℚ → ℚ) (grayImage : Mat Nat) (i j : Nat) : ℚ :=
  fl (oldPixelAtWith fl grayImage i j - quantize (oldPixelAtWith fl grayImage i j))

/-- Effect on a cell `(r, c)` holding `x` of processing the cell `s` whose error is `E s`: the
share `16 * weight` sixteenths is added and the sum rounded, when `s` sends to `(r, c)`. -/
def receive (fl : ℚ → ℚ) (rows cols : Nat) (E : Nat → Nat → ℚ) (r c : Nat) (x : ℚ)
    (s : Nat × Nat) : ℚ :=
  if weight rows cols s.1 s.2 r c = 0 then x
  else fl (x + shareOf fl (E s.1 s.2) (16 * weight rows cols s.1 s.2 r c))

/-- The cells that send error to `(i, j)`, in scan order: above-left, above, above-right, left. -/
def sourcesOf (cols i j : Nat) : List (Nat × Nat) :=
  (if 0 < i ∧ 0 < j then [(i - 1, j - 1)] else []) ++ (if 0 < i then [(i - 1, j)] else []) ++
  (if 0 < i ∧ j + 1 < cols then [(i - 1, j + 1)] else []) ++ (if 0 < j then [(i, j - 1)] else [])

/-- One term of the gather form with rounding: when the source cell exists, its share `k / 16`
of the error `e` is added to `x` and the sum rounded. -/
def gatherStep (fl : ℚ → ℚ) (present : Prop) [Decidable present] (e k x : ℚ) : ℚ :=
  if present then fl (x + shareOf fl e k) else x

/-- The working image right after the loop body of `applyErrorDiffusionDithering` has run on
cell `(i, j)`. -/
def stateAfterWith (fl : ℚ → ℚ) (grayImage : Mat Nat) (i j : Nat) : Mat ℚ :=
  diffuseCellWith fl grayImage.rows grayImage.cols (stateBeforeWith fl grayImage i j) i j

/-- A grid of one row on which rounding decides the last cell. -/
def roundingRow : Mat Nat := Mat.ofRows 0 [[14, 94, 88, 113, 77, 82]]

/-- A grid of two rows on which the shares of cell `(0, 4)` are rounded. -/
def roundingGrid : Mat Nat := Mat.ofRows 0 [[87, 86, 116, 6, 102, 0], [0, 0, 0, 0, 0, 0]]

/-! ## Loops -/

section Loops

theorem forCells_eq_foldl {σ : Type} (rows cols : Nat) (body : σ → Nat → Nat → σ) (s : σ) :
    forCells rows cols body s = (scanOrder rows cols).foldl (fun acc p => body acc p.1 p.2) s := by
  unfold forCells scanOrder
  generalize List.range rows = l
  induction l generalizing s with
  | nil => rfl
  | cons a l ih =>
    rw [List.product_cons, List.foldl_append, List.foldl_map, List.foldl_cons, ih]

theorem mem_scanOrder {rows cols : Nat} {p : Nat × Nat} :
    p ∈ scanOrder rows cols ↔ p.1 < rows ∧ p.2 < cols := by
  obtain ⟨a, b⟩ := p
  simp [scanOrder]

theorem nodup_scanOrder (rows cols : Nat) : (scanOrder rows cols).Nodup :=
  List.Nodup.product (List.nodup_range rows) (List.nodup_range cols)

theorem length_scanOrder (rows cols : Nat) : (scanOrder rows cols).length = rows * cols := by
  simp [scanOrder, List.length_product]

end Loops

/-! ## Matrix accessors and the body of the error diffusion -/

theorem Mat.set_rows {α : Type} (m : Mat α) (i j : Nat) (v : α) : (m.set i j v).rows = m.rows := rfl
theorem Mat.set_cols {α : Type} (m : Mat α) (i j : Nat) (v : α) : (m.set i j v).cols = m.cols := rfl
theorem Mat.set_data {α : Type} (m : Mat α) (i j : Nat) (v : α) (r c : Nat) :
    (m.set i j v).data r c = if r = i ∧ c = j then v else m.data r c := rfl
theorem Mat.addAt_rows (m : Mat ℚ) (i j : Nat) (d : ℚ) : (m.addAt i j d).rows = m.rows := rfl
theorem Mat.addAt_cols (m : Mat ℚ) (i j : Nat) (d : ℚ) : (m.addAt i j d).cols = m.cols := rfl
theorem Mat.addAt_data (m : Mat ℚ) (i j : Nat) (d : ℚ) (r c : Nat) :
    (m.addAt i j d).data r c = m.data r c + if r = i ∧ c = j then d else 0 := by
  unfold Mat.addAt
  rw [Mat.set_data]
  split_ifs with h
  · rw [h.1, h.2]
  · simp

theorem Mat.ext_data {α : Type} {a b : Mat α} (hr : a.rows = b.rows) (hc : a.cols = b.cols)
    (hd : ∀ r c, a.data r c = b.data r c) : a = b := by
  obtain ⟨ar, ac, ad⟩ := a
  obtain ⟨br, bc, bd⟩ := b
  simp only at hr hc hd
  subst hr hc
  have : ad = bd := funext fun r => funext fun c => hd r c
  rw [this]

theorem diffuseCell_rows (rows cols : Nat) (m : Mat ℚ) (i j : Nat) :
    (diffuseCell rows cols m i j).rows = m.rows := by
  by_cases h1 : j + 1 < cols <;> by_cases h2 : i + 1 < rows <;> by_cases h3 : j > 0 <;>
    simp only [diffuseCell, h1, h2, h3, if_true, if_false, Mat.addAt_rows, Mat.set_rows]

theorem diffuseCell_cols (rows cols : Nat) (m : Mat ℚ) (i j : Nat) :
    (diffuseCell rows cols m i j).cols = m.cols := by
  by_cases h1 : j + 1 < cols <;> by_cases h2 : i + 1 < rows <;> by_cases h3 : j > 0 <;>
    simp only [diffuseCell, h1, h2, h3, if_true, if_false, Mat.addAt_cols, Mat.set_cols]

theorem diffuseCell_data (rows cols : Nat) (m : Mat ℚ) (i j r c : Nat) :
    (diffuseCell rows cols m i j).data r c =
      if r = i ∧ c = j then quantize (m.data i j)
      else m.data r c + weight rows cols i j r c * quantErrorOf (m.data i j) := by
  by_cases h1 : j + 1 < cols <;> by_cases h2 : i + 1 < rows <;> by_cases h3 : j > 0 <;>
    simp only [diffuseCell, weight, quantErrorOf, h1, h2, h3, if_true, if_false,
      and_true, and_false, Mat.addAt_data, Mat.set_data] <;>
    split_ifs <;> first | omega | ring

theorem weight_nonneg (rows cols i j r c : Nat) : 0 ≤ weight rows cols i j r c := by
  unfold weight
  split_ifs <;> norm_num

theorem weight_eq_zero_of_not_after {rows cols i j r c : Nat}
    (h : ¬ Before (i, j) (r, c)) : weight rows cols i j r c = 0 := by
  unfold Before at h
  simp only at h
  unfold weight
  split_ifs <;> first | omega | norm_num

theorem weight_target_in_grid {rows cols i j r c : Nat} (hi : i < rows) (hj : j < cols)
    (h : weight rows cols i j r c ≠ 0) : r < rows ∧ c < cols := by
  unfold weight at h
  split_ifs at h <;> first | omega | (exfalso; exact h (by norm_num))

theorem quantize_binary (x : ℚ) : quantize x = 0 ∨ quantize x = 255 := by
  unfold quantize
  split_ifs
  · right; rfl
  · left; rfl

theorem quantErrorOf_bounds {x : ℚ} (h1 : -128 ≤ x) (h2 : x ≤ 382) :
    -128 ≤ quantErrorOf x ∧ quantErrorOf x ≤ 127 := by
  unfold quantErrorOf quantize
  split_ifs with h
  · constructor <;> linarith
  · constructor <;> linarith

theorem quantErrorOf_binary {x : ℚ} (h : x = 0 ∨ x = 255) : quantErrorOf x = 0 := by
  rcases h with h | h <;> subst h <;> norm_num [quantErrorOf, quantize]

theorem quantize_of_binary {x : ℚ} (h : x = 0 ∨ x = 255) : quantize x = x := by
  rcases h with h | h <;> subst h <;> norm_num [quantize]

theorem diffuseCell_before (rows cols : Nat) (m : Mat ℚ) {i j r c : Nat}
    (h : Before (r, c) (i, j)) : (diffuseCell rows cols m i j).data r c = m.data r c := by
  have hne : ¬ (r = i ∧ c = j) := by
    unfold Before at h; simp only at h; omega
  have hw : weight rows cols i j r c = 0 := by
    apply weight_eq_zero_of_not_after
    unfold Before at h ⊢; simp only at h ⊢; omega
  rw [diffuseCell_data, if_neg hne, hw]; ring

theorem diffuseCell_fixed (rows cols : Nat) (m : Mat ℚ) {i j : Nat}
    (h : m.data i j = 0 ∨ m.data i j = 255) : diffuseCell rows cols m i j = m := by
  apply Mat.ext_data (diffuseCell_rows _ _ _ _ _) (diffuseCell_cols _ _ _ _ _)
  intro r c
  rw [diffuseCell_data, quantErrorOf_binary h, quantize_of_binary h]
  split_ifs with e
  · rw [e.1, e.2]
  · ring


/-! ### Scan order -/

theorem pairwise_before_product (l₁ l₂ : List Nat) (h₁ : l₁.Pairwise (· < ·))
    (h₂ : l₂.Pairwise (· < ·)) : (l₁ ×ˢ l₂).Pairwise Before := by
  induction l₁ with
  | nil => simp
  | cons a l ih =>
    rw [List.pairwise_cons] at h₁
    rw [List.product_cons, List.pairwise_append]
    refine ⟨?_, ih h₁.2, ?_⟩
    · rw [List.pairwise_map]
      exact h₂.imp (fun {x y} hxy => Or.inr ⟨rfl, hxy⟩)
    · intro x hx y hy
      obtain ⟨b, _, rfl⟩ := List.mem_map.1 hx
      obtain ⟨y1, y2⟩ := y
      exact Or.inl (h₁.1 y1 (List.mem_product.1 hy).1)

theorem pairwise_before_scanOrder (rows cols : Nat) : (scanOrder rows cols).Pairwise Before :=
  pairwise_before_product _ _ (List.pairwise_lt_range rows) (List.pairwise_lt_range cols)

theorem diffuseList_rows (rows cols : Nat) (l : List (Nat × Nat)) (m : Mat ℚ) :
    (diffuseList rows cols l m).rows = m.rows := by
  unfold diffuseList
  induction l generalizing m with
  | nil => rfl
  | cons p l ih => rw [List.foldl_cons, ih, diffuseCell_rows]

theorem diffuseList_cols (rows cols : Nat) (l : List (Nat × Nat)) (m : Mat ℚ) :
    (diffuseList rows cols l m).cols = m.cols := by
  unfold diffuseList
  induction l generalizing m with
  | nil => rfl
  | cons p l ih => rw [List.foldl_cons, ih, diffuseCell_cols]

theorem diffuseList_append (rows cols : Nat) (l₁ l₂ : List (Nat × Nat)) (m : Mat ℚ) :
    diffuseList rows cols (l₁ ++ l₂) m = diffuseList rows cols l₂ (diffuseList rows cols l₁ m) := by
  unfold diffuseList
  rw [List.foldl_append]

theorem diffuseList_snoc (rows cols : Nat) (l : List (Nat × Nat)) (p : Nat × Nat) (m : Mat ℚ) :
    diffuseList rows cols (l ++ [p]) m = diffuseCell rows cols (diffuseList rows cols l m) p.1 p.2 := by
  rw [diffuseList_append]; rfl

theorem diffuseAll_eq_diffuseList (rows cols : Nat) (m : Mat ℚ) :
    diffuseAll rows cols m = diffuseList rows cols (scanOrder rows cols) m := by
  unfold diffuseAll diffuseList
  exact forCells_eq_foldl _ _ _ _

/-- Cells processed in scan order end up 0 or 255. -/
theorem diffuseList_binary (rows cols : Nat) (l : List (Nat × Nat)) (hl : l.Pairwise Before)
    (m : Mat ℚ) : ∀ p ∈ l, (diffuseList rows cols l m).data p.1 p.2 = 0 ∨
      (diffuseList rows cols l m).data p.1 p.2 = 255 := by
  induction l using List.reverseRecOn with
  | nil => simp
  | append_singleton l q ih =>
    rw [List.pairwise_append] at hl
    obtain ⟨hl1, -, hl3⟩ := hl
    intro p hp
    rw [diffuseList_snoc]
    rcases List.mem_append.1 hp with hp | hp
    · have hb : Before (p.1, p.2) (q.1, q.2) := hl3 p hp q (List.mem_singleton_self q)
      rw [diffuseCell_before _ _ _ hb]
      exact ih hl1 p hp
    · rw [List.mem_singleton.1 hp, diffuseCell_data, if_pos ⟨rfl, rfl⟩]
      exact quantize_binary _

theorem diffuseList_fixed (rows cols : Nat) (l : List (Nat × Nat)) (m : Mat ℚ)
    (h : ∀ p ∈ l, m.data p.1 p.2 = 0 ∨ m.data p.1 p.2 = 255) : diffuseList rows cols l m = m := by
  unfold diffuseList
  induction l with
  | nil => rfl
  | cons p l ih =>
    rw [List.foldl_cons, diffuseCell_fixed _ _ _ (h p (List.mem_cons_self _ _))]
    exact ih (fun q hq => h q (List.mem_cons_of_mem _ hq))


/-! ### Weights -/

theorem sum_indicator_zero {α : Type} (l : List α) (P : α → Prop) [DecidablePred P] (w : ℚ)
    (h : ∀ a ∈ l, ¬ P a) : (l.map (fun a => if P a then w else 0)).sum = 0 := by
  induction l with
  | nil => rfl
  | cons a l ih =>
    rw [List.map_cons, List.sum_cons, if_neg (h a (List.mem_cons_self _ _)),
      ih (fun b hb => h b (List.mem_cons_of_mem _ hb)), add_zero]

theorem sum_indicator_le {α : Type} (l : List α) (hl : l.Nodup) (P : α → Prop) [DecidablePred P]
    (hP : ∀ a b, P a → P b → a = b) (w : ℚ) (hw : 0 ≤ w) :
    (l.map (fun a => if P a then w else 0)).sum ≤ w := by
  induction l with
  | nil => simpa using hw
  | cons a l ih =>
    rw [List.nodup_cons] at hl
    rw [List.map_cons, List.sum_cons]
    by_cases ha : P a
    · rw [if_pos ha, sum_indicator_zero l P w, add_zero]
      intro b hb hPb
      exact hl.1 (hP a b ha hPb ▸ hb)
    · rw [if_neg ha, zero_add]
      exact ih hl.2

theorem weightFrom_nonneg (rows cols : Nat) (l : List (Nat × Nat)) (r c : Nat) :
    0 ≤ weightFrom rows cols l r c := by
  unfold weightFrom
  apply List.sum_nonneg
  intro x hx
  obtain ⟨s, _, rfl⟩ := List.mem_map.1 hx
  exact weight_nonneg _ _ _ _ _ _

theorem weightFrom_le_one (rows cols : Nat) (l : List (Nat × Nat)) (hl : l.Nodup) (r c : Nat) :
    weightFrom rows cols l r c ≤ 1 := by
  unfold weightFrom weight
  rw [List.sum_map_add, List.sum_map_add, List.sum_map_add]
  have h1 := sum_indicator_le l hl (fun s : Nat × Nat => r = s.1 ∧ c = s.2 + 1 ∧ s.2 + 1 < cols)
    (fun a b ha hb => Prod.ext (by omega) (by omega)) (7 / 16) (by norm_num)
  have h2 := sum_indicator_le l hl (fun s : Nat × Nat => r = s.1 + 1 ∧ c + 1 = s.2 ∧ s.1 + 1 < rows)
    (fun a b ha hb => Prod.ext (by omega) (by omega)) (3 / 16) (by norm_num)
  have h3 := sum_indicator_le l hl (fun s : Nat × Nat => r = s.1 + 1 ∧ c = s.2 ∧ s.1 + 1 < rows)
    (fun a b ha hb => Prod.ext (by omega) (by omega)) (5 / 16) (by norm_num)
  have h4 := sum_indicator_le l hl
    (fun s : Nat × Nat => r = s.1 + 1 ∧ c = s.2 + 1 ∧ s.1 + 1 < rows ∧ s.2 + 1 < cols)
    (fun a b ha hb => Prod.ext (by omega) (by omega)) (1 / 16) (by norm_num)
  linarith

theorem weightFrom_snoc (rows cols : Nat) (l : List (Nat × Nat)) (p : Nat × Nat) (r c : Nat) :
    weightFrom rows cols (l ++ [p]) r c = weightFrom rows cols l r c + weight rows cols p.1 p.2 r c := by
  unfold weightFrom
  simp

/-- Bounds on every not yet processed cell, for any order of processing without repetition. -/
theorem diffuseList_bounds (rows cols : Nat) (m : Mat ℚ) (l : List (Nat × Nat)) (hl : l.Nodup)
    (hm : ∀ p ∈ l, 0 ≤ m.data p.1 p.2 ∧ m.data p.1 p.2 ≤ 255) :
    ∀ r c, (r, c) ∉ l →
      m.data r c - 128 * weightFrom rows cols l r c ≤ (diffuseList rows cols l m).data r c ∧
      (diffuseList rows cols l m).data r c ≤ m.data r c + 127 * weightFrom rows cols l r c := by
  induction l using List.reverseRecOn with
  | nil => intro r c _; simp [diffuseList, weightFrom]
  | append_singleton l p ih =>
    obtain ⟨hnd, hp⟩ : l.Nodup ∧ p ∉ l := by
      have := List.nodup_append.1 hl
      exact ⟨this.1, fun h => this.2.2 h (List.mem_singleton_self p)⟩
    have ih' := ih hnd (fun q hq => hm q (List.mem_append_left _ hq))
    have hpm := hm p (List.mem_append_right _ (List.mem_singleton_self p))
    have hold := ih' p.1 p.2 hp
    have hW0 := weightFrom_nonneg rows cols l p.1 p.2
    have hW1 := weightFrom_le_one rows cols l hnd p.1 p.2
    have he := quantErrorOf_bounds (x := (diffuseList rows cols l m).data p.1 p.2)
      (by nlinarith [hold.1, hpm.1]) (by nlinarith [hold.2, hpm.2])
    intro r c hrc
    have hrc1 : (r, c) ∉ l := fun h => hrc (List.mem_append_left _ h)
    have hne : ¬ (r = p.1 ∧ c = p.2) := by
      rintro ⟨rfl, rfl⟩
      exact hrc (List.mem_append_right _ (List.mem_singleton_self _))
    have hb := ih' r c hrc1
    have hw := weight_nonneg rows cols p.1 p.2 r c
    rw [diffuseList_snoc, diffuseCell_data, if_neg hne, weightFrom_snoc]
    constructor
    · nlinarith [hb.1, he.1, mul_nonneg hw (by linarith [he.1] : (0:ℚ) ≤ quantErrorOf ((diffuseList rows cols l m).data p.1 p.2) + 128)]
    · nlinarith [hb.2, he.2, mul_nonneg hw (by linarith [he.2] : (0:ℚ) ≤ 127 - quantErrorOf ((diffuseList rows cols l m).data p.1 p.2))]


/-! ### The state when the loops reach a cell -/

theorem split_at_mem {α : Type} [DecidableEq α] (l : List α) (x : α) (hx : x ∈ l) :
    ∃ rest, l = l.takeWhile (fun p => decide (p ≠ x)) ++ x :: rest := by
  induction l with
  | nil => simp at hx
  | cons a l ih =>
    by_cases ha : a = x
    · subst ha
      exact ⟨l, by simp [List.takeWhile]⟩
    · have hx' : x ∈ l := by
        rcases List.mem_cons.1 hx with h | h
        · exact absurd h.symm ha
        · exact h
      obtain ⟨rest, hr⟩ := ih hx'
      refine ⟨rest, ?_⟩
      have : List.takeWhile (fun p => decide (p ≠ x)) (a :: l) =
          a :: List.takeWhile (fun p => decide (p ≠ x)) l := by
        simp [List.takeWhile, ha]
      rw [this, List.cons_append, ← hr]

theorem scanOrder_split {rows cols i j : Nat} (hi : i < rows) (hj : j < cols) :
    ∃ rest, scanOrder rows cols = cellsBefore rows cols i j ++ (i, j) :: rest :=
  split_at_mem (scanOrder rows cols) (i, j) (mem_scanOrder.2 ⟨hi, hj⟩)

theorem nodup_cellsBefore (rows cols i j : Nat) : (cellsBefore rows cols i j).Nodup :=
  List.Nodup.sublist (List.takeWhile_sublist _) (nodup_scanOrder rows cols)

theorem not_mem_cellsBefore (rows cols i j : Nat) : (i, j) ∉ cellsBefore rows cols i j := by
  intro h
  have := List.mem_takeWhile_imp h
  simp at this

theorem mem_scanOrder_of_mem_cellsBefore {rows cols i j : Nat} {p : Nat × Nat}
    (h : p ∈ cellsBefore rows cols i j) : p ∈ scanOrder rows cols :=
  (List.takeWhile_sublist _).subset h

theorem mem_cellsBefore {rows cols i j : Nat} (hi : i < rows) (hj : j < cols) {p : Nat × Nat} :
    p ∈ cellsBefore rows cols i j ↔ (p.1 < rows ∧ p.2 < cols) ∧ Before p (i, j) := by
  obtain ⟨rest, hs⟩ := scanOrder_split hi hj
  have hpw := pairwise_before_scanOrder rows cols
  rw [hs, List.pairwise_append] at hpw
  obtain ⟨-, h2, h3⟩ := hpw
  constructor
  · intro h
    exact ⟨mem_scanOrder.1 (mem_scanOrder_of_mem_cellsBefore h), h3 p h (i, j) (List.mem_cons_self _ _)⟩
  · rintro ⟨hg, hb⟩
    have hp : p ∈ scanOrder rows cols := mem_scanOrder.2 hg
    rw [hs] at hp
    rcases List.mem_append.1 hp with hp | hp
    · exact hp
    · exfalso
      rcases List.mem_cons.1 hp with hp | hp
      · subst hp
        unfold Before at hb; simp only at hb; omega
      · have := (List.pairwise_cons.1 h2).1 p hp
        unfold Before at hb this; simp only at hb this; omega

theorem diffuseAll_resume (g : Mat Nat) {i j : Nat} (hi : i < g.rows) (hj : j < g.cols) :
    ∃ rest, scanOrder g.rows g.cols = cellsBefore g.rows g.cols i j ++ (i, j) :: rest ∧
      diffuseAll g.rows g.cols (g.convertTo (fun v : Nat => (v : ℚ))) =
        diffuseList g.rows g.cols rest (diffuseCell g.rows g.cols (stateBefore g i j) i j) := by
  obtain ⟨rest, hs⟩ := scanOrder_split hi hj
  refine ⟨rest, hs, ?_⟩
  rw [diffuseAll_eq_diffuseList, hs, diffuseList_append]
  rfl

theorem oldPixelAt_bounds (g : Mat Nat) (hg : EightBit g) {i j : Nat} (hi : i < g.rows)
    (hj : j < g.cols) : -128 ≤ oldPixelAt g i j ∧ oldPixelAt g i j ≤ 382 := by
  have hm : ∀ p ∈ cellsBefore g.rows g.cols i j,
      0 ≤ (g.convertTo (fun v : Nat => (v : ℚ))).data p.1 p.2 ∧
      (g.convertTo (fun v : Nat => (v : ℚ))).data p.1 p.2 ≤ 255 := by
    intro p hp
    have hin := mem_scanOrder.1 (mem_scanOrder_of_mem_cellsBefore hp)
    have := hg p.1 hin.1 p.2 hin.2
    simp only [Mat.convertTo]
    exact ⟨Nat.cast_nonneg _, by exact_mod_cast this⟩
  have h := diffuseList_bounds g.rows g.cols _ _ (nodup_cellsBefore g.rows g.cols i j) hm i j
    (not_mem_cellsBefore _ _ _ _)
  have hW0 := weightFrom_nonneg g.rows g.cols (cellsBefore g.rows g.cols i j) i j
  have hW1 := weightFrom_le_one g.rows g.cols _ (nodup_cellsBefore g.rows g.cols i j) i j
  have hc : (0:ℚ) ≤ (g.convertTo (fun v : Nat => (v : ℚ))).data i j ∧
      (g.convertTo (fun v : Nat => (v : ℚ))).data i j ≤ 255 := by
    have := hg i hi j hj
    simp only [Mat.convertTo]
    exact ⟨Nat.cast_nonneg _, by exact_mod_cast this⟩
  unfold oldPixelAt stateBefore
  constructor
  · linarith [h.1, hc.1]
  · linarith [h.2, hc.2]


/-! ### The error handed on by one cell -/

theorem sum_indicator_single {α : Type} (l : List α) (hl : l.Nodup) (P : α → Prop)
    [DecidablePred P] (t : α) (ht : t ∈ l) (hP : ∀ a, P a ↔ a = t) (w : ℚ) :
    (l.map (fun a => if P a then w else 0)).sum = w := by
  induction l with
  | nil => simp at ht
  | cons a l ih =>
    rw [List.nodup_cons] at hl
    rw [List.map_cons, List.sum_cons]
    by_cases ha : a = t
    · subst ha
      rw [if_pos ((hP a).2 rfl), sum_indicator_zero l P w, add_zero]
      intro b hb hPb
      exact hl.1 ((hP b).1 hPb ▸ hb)
    · rw [if_neg (fun h => ha ((hP a).1 h)), zero_add]
      apply ih hl.2
      rcases List.mem_cons.1 ht with h | h
      · exact absurd h.symm ha
      · exact h

/-- The four fractions that leave cell `(i, j)`, one for each neighbour that exists. -/
theorem sum_weight_scanOrder {rows cols i j : Nat} (hi : i < rows) (hj : j < cols) :
    ((scanOrder rows cols).map (fun p => weight rows cols i j p.1 p.2)).sum =
      (if j + 1 < cols then 7 / 16 else 0) + (if i + 1 < rows ∧ 0 < j then 3 / 16 else 0) +
      (if i + 1 < rows then 5 / 16 else 0) + (if i + 1 < rows ∧ j + 1 < cols then 1 / 16 else 0) := by
  have hnd := nodup_scanOrder rows cols
  unfold weight
  rw [List.sum_map_add, List.sum_map_add, List.sum_map_add]
  congr 1
  congr 1
  congr 1
  · by_cases h : j + 1 < cols
    · rw [if_pos h]
      exact sum_indicator_single _ hnd _ (i, j + 1) (mem_scanOrder.2 ⟨hi, h⟩)
        (fun a => ⟨fun ha => Prod.ext ha.1 ha.2.1, fun ha => by subst ha; exact ⟨rfl, rfl, h⟩⟩) _
    · rw [if_neg h]
      exact sum_indicator_zero _ _ _ (fun a _ ha => h ha.2.2)
  · by_cases h : i + 1 < rows ∧ 0 < j
    · rw [if_pos h]
      exact sum_indicator_single _ hnd _ (i + 1, j - 1) (mem_scanOrder.2 ⟨h.1, by simp only; omega⟩)
        (fun a => ⟨fun ha => Prod.ext ha.1 (by simp only; omega),
          fun ha => by subst ha; exact ⟨rfl, by simp only; omega, h.1⟩⟩) _
    · rw [if_neg h]
      exact sum_indicator_zero _ _ _ (fun a _ ha => h ⟨ha.2.2, by omega⟩)
  · by_cases h : i + 1 < rows
    · rw [if_pos h]
      exact sum_indicator_single _ hnd _ (i + 1, j) (mem_scanOrder.2 ⟨h, hj⟩)
        (fun a => ⟨fun ha => Prod.ext ha.1 ha.2.1, fun ha => by subst ha; exact ⟨rfl, rfl, h⟩⟩) _
    · rw [if_neg h]
      exact sum_indicator_zero _ _ _ (fun a _ ha => h ha.2.2)
  · by_cases h : i + 1 < rows ∧ j + 1 < cols
    · rw [if_pos h]
      exact sum_indicator_single _ hnd _ (i + 1, j + 1) (mem_scanOrder.2 h)
        (fun a => ⟨fun ha => Prod.ext ha.1 ha.2.1, fun ha => by subst ha; exact ⟨rfl, rfl, h⟩⟩) _
    · rw [if_neg h]
      exact sum_indicator_zero _ _ _ (fun a _ ha => h ha.2.2)

theorem weight_neighbours {rows cols i j : Nat} (hi : i + 1 < rows) (hj : j + 1 < cols)
    (h0 : 0 < j) :
    weight rows cols i j i (j + 1) = 7 / 16 ∧ weight rows cols i j (i + 1) (j - 1) = 3 / 16 ∧
    weight rows cols i j (i + 1) j = 5 / 16 ∧ weight rows cols i j (i + 1) (j + 1) = 1 / 16 := by
  unfold weight
  refine ⟨?_, ?_, ?_, ?_⟩ <;> split_ifs <;> first | omega | norm_num

theorem diffuseCell_sub (rows cols : Nat) (m : Mat ℚ) {i j r c : Nat} (h : ¬ (r = i ∧ c = j)) :
    (diffuseCell rows cols m i j).data r c - m.data r c =
      weight rows cols i j r c * quantErrorOf (m.data i j) := by
  rw [diffuseCell_data, if_neg h]; ring

theorem propagatedError_eq (rows cols : Nat) (m : Mat ℚ) {i j : Nat} (hi : i < rows)
    (hj : j < cols) :
    propagatedError rows cols m i j =
      ((if j + 1 < cols then 7 / 16 else 0) + (if i + 1 < rows ∧ 0 < j then 3 / 16 else 0) +
       (if i + 1 < rows then 5 / 16 else 0) + (if i + 1 < rows ∧ j + 1 < cols then 1 / 16 else 0)) *
      quantErrorOf (m.data i j) := by
  rw [← sum_weight_scanOrder hi hj, ← List.sum_map_mul_right]
  unfold propagatedError
  congr 1
  apply List.map_congr_left
  intro p _
  by_cases hp : p = (i, j)
  · subst hp
    have : weight rows cols i j i j = 0 :=
      weight_eq_zero_of_not_after (by unfold Before; simp)
    rw [if_pos rfl]
    simp only [this, zero_mul]
  · rw [if_neg hp, diffuseCell_data, if_neg (fun h => hp (Prod.ext h.1 h.2))]
    ring


/-! ## Ordered dithering -/

theorem foldl_orderedDitherCell (l : List (Nat × Nat)) (hl : l.Nodup) (g : Mat Nat) :
    (l.foldl (fun acc p => orderedDitherCell 4 15 acc p.1 p.2) g).rows = g.rows ∧
    (l.foldl (fun acc p => orderedDitherCell 4 15 acc p.1 p.2) g).cols = g.cols ∧
    ∀ r c, (l.foldl (fun acc p => orderedDitherCell 4 15 acc p.1 p.2) g).data r c =
      if (r, c) ∈ l then orderedDitherRef (g.data r c) r c else g.data r c := by
  induction l using List.reverseRecOn with
  | nil => simp
  | append_singleton l p ih =>
    obtain ⟨hnd, hp⟩ : l.Nodup ∧ p ∉ l := by
      have := List.nodup_append.1 hl
      refine ⟨this.1, fun h => ?_⟩
      exact this.2.2 h (List.mem_singleton_self p) 
    obtain ⟨h1, h2, h3⟩ := ih hnd
    rw [List.foldl_append]
    simp only [List.foldl_cons, List.foldl_nil]
    generalize List.foldl (fun acc p => orderedDitherCell 4 15 acc p.1 p.2) g l = m at h1 h2 h3
    refine ⟨h1, h2, fun r c => ?_⟩
    obtain ⟨i, j⟩ := p
    simp only [orderedDitherCell, Mat.set, List.mem_append, List.mem_singleton, Prod.mk.injEq]
    by_cases hrc : r = i ∧ c = j
    · obtain ⟨rfl, rfl⟩ := hrc
      simp [h3, hp, orderedDitherRef]
    · simp only [hrc, if_false, or_false, h3]


theorem applyOrderedDithering_eq_foldl (g : Mat Nat) :
    applyOrderedDithering g =
      (scanOrder g.rows g.cols).foldl (fun acc p => orderedDitherCell 4 15 acc p.1 p.2) g := by
  unfold applyOrderedDithering
  exact forCells_eq_foldl _ _ _ _

theorem applyOrderedDithering_rows (g : Mat Nat) : (applyOrderedDithering g).rows = g.rows := by
  rw [applyOrderedDithering_eq_foldl]
  exact (foldl_orderedDitherCell _ (nodup_scanOrder _ _) g).1

theorem applyOrderedDithering_cols (g : Mat Nat) : (applyOrderedDithering g).cols = g.cols := by
  rw [applyOrderedDithering_eq_foldl]
  exact (foldl_orderedDitherCell _ (nodup_scanOrder _ _) g).2.1

theorem applyOrderedDithering_data (g : Mat Nat) (r c : Nat) :
    (applyOrderedDithering g).data r c =
      if r < g.rows ∧ c < g.cols then orderedDitherRef (g.data r c) r c else g.data r c := by
  rw [applyOrderedDithering_eq_foldl, (foldl_orderedDitherCell _ (nodup_scanOrder _ _) g).2.2]
  by_cases h : r < g.rows ∧ c < g.cols
  · rw [if_pos h, if_pos (mem_scanOrder.2 h)]
  · rw [if_neg h, if_neg (fun hm => h (mem_scanOrder.1 hm))]

theorem ditherMatrixAt_le (r c : Nat) : ditherMatrixAt (r % 4) (c % 4) ≤ 15 := by
  have h : ∀ a < 4, ∀ b < 4, ditherMatrixAt a b ≤ 15 := by decide
  exact h _ (Nat.mod_lt _ (by norm_num)) _ (Nat.mod_lt _ (by norm_num))

theorem orderedDitherRef_binary (v r c : Nat) :
    orderedDitherRef v r c = 0 ∨ orderedDitherRef v r c = 255 := by
  unfold orderedDitherRef
  split_ifs
  · exact Or.inr rfl
  · exact Or.inl rfl

theorem orderedDitherRef_of_binary {v : Nat} (h : v = 0 ∨ v = 255) (r c : Nat) :
    orderedDitherRef v r c = v := by
  have hle := ditherMatrixAt_le r c
  unfold orderedDitherRef
  rcases h with h | h <;> subst h
  · simp
  · rw [if_pos (by omega)]

theorem applyOrderedDithering_binarized (g : Mat Nat) : Binarized (applyOrderedDithering g) := by
  intro r hr c hc
  rw [applyOrderedDithering_rows] at hr
  rw [applyOrderedDithering_cols] at hc
  rw [applyOrderedDithering_data, if_pos ⟨hr, hc⟩]
  exact orderedDitherRef_binary _ _ _

theorem applyOrderedDithering_of_binarized {g : Mat Nat} (hg : Binarized g) :
    applyOrderedDithering g = g := by
  apply Mat.ext_data (applyOrderedDithering_rows g) (applyOrderedDithering_cols g)
  intro r c
  rw [applyOrderedDithering_data]
  split_ifs with h
  · exact orderedDitherRef_of_binary (hg r h.1 c h.2) r c
  · rfl

/-! ## Error diffusion on whole grids -/

theorem saturate_cast_uchar_zero : saturate_cast_uchar 0 = 0 := by
  simp [saturate_cast_uchar, cvRound]

theorem saturate_cast_uchar_255 : saturate_cast_uchar 255 = 255 := by
  simp [saturate_cast_uchar, cvRound]

theorem applyErrorDiffusionDithering_rows (g : Mat Nat) :
    (applyErrorDiffusionDithering g).rows = g.rows := by
  unfold applyErrorDiffusionDithering
  simp only [Mat.convertTo, diffuseAll_eq_diffuseList, diffuseList_rows]

theorem applyErrorDiffusionDithering_cols (g : Mat Nat) :
    (applyErrorDiffusionDithering g).cols = g.cols := by
  unfold applyErrorDiffusionDithering
  simp only [Mat.convertTo, diffuseAll_eq_diffuseList, diffuseList_cols]

theorem applyErrorDiffusionDithering_data (g : Mat Nat) (r c : Nat) :
    (applyErrorDiffusionDithering g).data r c =
      saturate_cast_uchar ((diffuseList g.rows g.cols (scanOrder g.rows g.cols)
        (g.convertTo (fun v : Nat => (v : ℚ)))).data r c) := by
  unfold applyErrorDiffusionDithering
  simp only [Mat.convertTo, diffuseAll_eq_diffuseList]

theorem applyErrorDiffusionDithering_binarized (g : Mat Nat) :
    Binarized (applyErrorDiffusionDithering g) := by
  intro r hr c hc
  rw [applyErrorDiffusionDithering_rows] at hr
  rw [applyErrorDiffusionDithering_cols] at hc
  rw [applyErrorDiffusionDithering_data]
  rcases diffuseList_binary g.rows g.cols _ (pairwise_before_scanOrder _ _)
    (g.convertTo (fun v : Nat => (v : ℚ))) (r, c) (mem_scanOrder.2 ⟨hr, hc⟩) with h | h
  · left; simp only at h; rw [h]; exact saturate_cast_uchar_zero
  · right; simp only at h; rw [h]; exact saturate_cast_uchar_255

theorem toFloat_binary {g : Mat Nat} (hg : Binarized g) {p : Nat × Nat}
    (hp : p ∈ scanOrder g.rows g.cols) :
    (g.convertTo (fun v : Nat => (v : ℚ))).data p.1 p.2 = 0 ∨
    (g.convertTo (fun v : Nat => (v : ℚ))).data p.1 p.2 = 255 := by
  have hin := mem_scanOrder.1 hp
  simp only [Mat.convertTo]
  rcases hg p.1 hin.1 p.2 hin.2 with h | h <;> rw [h]
  · left; norm_num
  · right; norm_num

theorem stateBefore_of_binarized {g : Mat Nat} (hg : Binarized g) (i j : Nat) :
    stateBefore g i j = g.convertTo (fun v : Nat => (v : ℚ)) := by
  unfold stateBefore
  exact diffuseList_fixed _ _ _ _
    (fun p hp => toFloat_binary hg (mem_scanOrder_of_mem_cellsBefore hp))

theorem quantErrorAt_of_binarized {g : Mat Nat} (hg : Binarized g) {i j : Nat}
    (hi : i < g.rows) (hj : j < g.cols) : quantErrorAt g i j = 0 := by
  unfold quantErrorAt oldPixelAt
  rw [stateBefore_of_binarized hg]
  exact quantErrorOf_binary (toFloat_binary hg (p := (i, j)) (mem_scanOrder.2 ⟨hi, hj⟩))

theorem applyErrorDiffusionDithering_of_binarized {g : Mat Nat} (hg : Binarized g) :
    SameGrid (applyErrorDiffusionDithering g) g := by
  refine ⟨applyErrorDiffusionDithering_rows g, applyErrorDiffusionDithering_cols g, ?_⟩
  intro r hr c hc
  rw [applyErrorDiffusionDithering_rows] at hr
  rw [applyErrorDiffusionDithering_cols] at hc
  rw [applyErrorDiffusionDithering_data,
    diffuseList_fixed _ _ _ _ (fun p hp => toFloat_binary hg hp)]
  simp only [Mat.convertTo]
  rcases hg r hr c hc with h | h <;> rw [h]
  · simpa using saturate_cast_uchar_zero
  · simpa using saturate_cast_uchar_255

theorem quantErrorAt_bounds (g : Mat Nat) (hg : EightBit g) {i j : Nat} (hi : i < g.rows)
    (hj : j < g.cols) : -128 ≤ quantErrorAt g i j ∧ quantErrorAt g i j ≤ 127 := by
  have h := oldPixelAt_bounds g hg hi hj
  exact quantErrorOf_bounds h.1 h.2


/-! ## Frame composition -/

theorem tdiv_toNat (H b : Nat) : (Int.tdiv (H : Int) (b : Int)).toNat = H / b := by
  rw [← Int.ofNat_tdiv]
  exact Int.toNat_ofNat _

theorem inBlock_iff {b : Nat} (hb : 0 < b) (i j y x : Nat) :
    InBlock b i j y x ↔ y / b = i ∧ x / b = j := by
  unfold InBlock
  have h1 := Nat.le_div_iff_mul_le hb (x := i) (y := y)
  have h2 := Nat.div_lt_iff_lt_mul hb (x := y) (y := i + 1)
  have h3 := Nat.le_div_iff_mul_le hb (x := j) (y := x)
  have h4 := Nat.div_lt_iff_lt_mul hb (x := x) (y := j + 1)
  constructor
  · rintro ⟨a1, a2, a3, a4⟩
    have := h1.2 a1; have := h2.2 a2; have := h3.2 a3; have := h4.2 a4
    omega
  · rintro ⟨rfl, rfl⟩
    exact ⟨h1.1 le_rfl, h2.1 (Nat.lt_succ_self _), h3.1 le_rfl, h4.1 (Nat.lt_succ_self _)⟩

theorem sub_block_eq_mod {b : Nat} (y : Nat) : y - y / b * b = y % b := by
  have := Nat.div_add_mod y b
  rw [Nat.mul_comm] at this
  omega

theorem copyToRoi_rows (src dst : Mat Vec3b) (rect : Rect) : (copyToRoi src dst rect).rows = dst.rows := by
  unfold copyToRoi
  split_ifs <;> rfl

theorem copyToRoi_cols (src dst : Mat Vec3b) (rect : Rect) : (copyToRoi src dst rect).cols = dst.cols := by
  unfold copyToRoi
  split_ifs <;> rfl

/-- Region test of `copyToRoi` for the rectangle of grid cell `(i, j)`. -/
theorem rect_test_iff (b i j y x : Nat) :
    ((i : Int) * (b : Int) ≤ (y : Int) ∧ (y : Int) < (i : Int) * (b : Int) + (b : Int) ∧
      (j : Int) * (b : Int) ≤ (x : Int) ∧ (x : Int) < (j : Int) * (b : Int) + (b : Int)) ↔
    InBlock b i j y x := by
  unfold InBlock
  rw [Nat.add_mul, Nat.add_mul, Nat.one_mul]
  norm_cast

theorem copyToRoi_block_outside (src dst : Mat Vec3b) (b i j y x : Nat)
    (h : ¬ InBlock b i j y x) :
    (copyToRoi src dst (blockRect (b : Int) i j)).data y x = dst.data y x := by
  unfold copyToRoi blockRect
  split_ifs with hs
  · simp only
    rw [if_neg (fun hr => h ((rect_test_iff b i j y x).1 hr))]
  · rfl

theorem copyToRoi_block_inside (src dst : Mat Vec3b) (b i j y x : Nat)
    (hr : src.rows = b) (hc : src.cols = b) (h : InBlock b i j y x) :
    (copyToRoi src dst (blockRect (b : Int) i j)).data y x = src.data (y - i * b) (x - j * b) := by
  unfold copyToRoi blockRect
  rw [if_pos ⟨by simp only; exact_mod_cast hr, by simp only; exact_mod_cast hc⟩]
  simp only
  rw [if_pos ((rect_test_iff b i j y x).2 h)]
  have e1 : ((y : Int) - (i : Int) * (b : Int)).toNat = y - i * b := by
    have : (i : Int) * (b : Int) = ((i * b : Nat) : Int) := by push_cast; ring
    rw [this]; omega
  have e2 : ((x : Int) - (j : Int) * (b : Int)).toNat = x - j * b := by
    have : (j : Int) * (b : Int) = ((j * b : Nat) : Int) := by push_cast; ring
    rw [this]; omega
  rw [e1, e2]


theorem tileImage_rows {bl wh : Mat Vec3b} {b : Nat} (hbl : bl.rows = b) (hwh : wh.rows = b)
    (k : Tile) : (tileImage bl wh k).rows = b := by
  cases k <;> assumption

theorem tileImage_cols {bl wh : Mat Vec3b} {b : Nat} (hbl : bl.cols = b) (hwh : wh.cols = b)
    (k : Tile) : (tileImage bl wh k).cols = b := by
  cases k <;> assumption

theorem stampCell_rows (resized : Mat Nat) (bs t : Int) (bl wh out : Mat Vec3b) (i j : Nat) :
    (stampCell resized bs t bl wh out i j).rows = out.rows := copyToRoi_rows _ _ _

theorem stampCell_cols (resized : Mat Nat) (bs t : Int) (bl wh out : Mat Vec3b) (i j : Nat) :
    (stampCell resized bs t bl wh out i j).cols = out.cols := copyToRoi_cols _ _ _

theorem stampCell_outside (resized : Mat Nat) (b : Nat) (t : Int) (bl wh out : Mat Vec3b)
    {i j y x : Nat} (h : ¬ InBlock b i j y x) :
    (stampCell resized (b : Int) t bl wh out i j).data y x = out.data y x :=
  copyToRoi_block_outside _ _ _ _ _ _ _ h

theorem stampCell_inside (resized : Mat Nat) {b : Nat} (t : Int) {bl wh : Mat Vec3b}
    (out : Mat Vec3b) (hbl : bl.rows = b ∧ bl.cols = b) (hwh : wh.rows = b ∧ wh.cols = b)
    {i j y x : Nat} (h : InBlock b i j y x) :
    (stampCell resized (b : Int) t bl wh out i j).data y x =
      (tileImage bl wh (selectTile (resized.data i j) t)).data (y - i * b) (x - j * b) :=
  copyToRoi_block_inside _ _ _ _ _ _ _ (tileImage_rows hbl.1 hwh.1 _)
    (tileImage_cols hbl.2 hwh.2 _) h

theorem stampList_snoc (resized : Mat Nat) (bs t : Int) (bl wh : Mat Vec3b)
    (l : List (Nat × Nat)) (p : Nat × Nat) (out : Mat Vec3b) :
    stampList resized bs t bl wh (l ++ [p]) out =
      stampCell resized bs t bl wh (stampList resized bs t bl wh l out) p.1 p.2 := by
  unfold stampList
  rw [List.foldl_append]; rfl

theorem stampList_rows (resized : Mat Nat) (bs t : Int) (bl wh : Mat Vec3b)
    (l : List (Nat × Nat)) (out : Mat Vec3b) :
    (stampList resized bs t bl wh l out).rows = out.rows := by
  induction l using List.reverseRecOn with
  | nil => rfl
  | append_singleton l p ih => rw [stampList_snoc, stampCell_rows, ih]

theorem stampList_cols (resized : Mat Nat) (bs t : Int) (bl wh : Mat Vec3b)
    (l : List (Nat × Nat)) (out : Mat Vec3b) :
    (stampList resized bs t bl wh l out).cols = out.cols := by
  induction l using List.reverseRecOn with
  | nil => rfl
  | append_singleton l p ih => rw [stampList_snoc, stampCell_cols, ih]

theorem stampList_outside (resized : Mat Nat) (b : Nat) (t : Int) (bl wh : Mat Vec3b)
    (l : List (Nat × Nat)) (out : Mat Vec3b) {y x : Nat}
    (h : ∀ p ∈ l, ¬ InBlock b p.1 p.2 y x) :
    (stampList resized (b : Int) t bl wh l out).data y x = out.data y x := by
  induction l using List.reverseRecOn with
  | nil => rfl
  | append_singleton l p ih =>
    rw [stampList_snoc, stampCell_outside _ _ _ _ _ _ (h p (by simp))]
    exact ih (fun q hq => h q (List.mem_append_left _ hq))

theorem stampList_inside (resized : Mat Nat) {b : Nat} (hb : 0 < b) (t : Int)
    {bl wh : Mat Vec3b} (hbl : bl.rows = b ∧ bl.cols = b) (hwh : wh.rows = b ∧ wh.cols = b)
    (l : List (Nat × Nat)) (out : Mat Vec3b) {y x : Nat} (h : (y / b, x / b) ∈ l) :
    (stampList resized (b : Int) t bl wh l out).data y x =
      (tileImage bl wh (selectTile (resized.data (y / b) (x / b)) t)).data (y % b) (x % b) := by
  induction l using List.reverseRecOn with
  | nil => simp at h
  | append_singleton l p ih =>
    rw [stampList_snoc]
    by_cases hp : p = (y / b, x / b)
    · subst hp
      rw [stampCell_inside resized t _ hbl hwh ((inBlock_iff hb _ _ _ _).2 ⟨rfl, rfl⟩),
        sub_block_eq_mod, sub_block_eq_mod]
    · have hout : ¬ InBlock b p.1 p.2 y x := by
        intro hin
        have := (inBlock_iff hb _ _ _ _).1 hin
        exact hp (Prod.ext this.1.symm this.2.symm)
      rw [stampCell_outside _ _ _ _ _ _ hout]
      apply ih
      rcases List.mem_append.1 h with h | h
      · exact h
      · exact absurd (List.mem_singleton.1 h).symm hp

theorem foldl_counting {σ α : Type} (f : σ → α → σ) (l : List α) (s : σ) (n : Nat) :
    l.foldl (fun (acc : σ × Nat) p => (f acc.1 p, acc.2 + 1)) (s, n) =
      (l.foldl f s, n + l.length) := by
  induction l generalizing s n with
  | nil => rfl
  | cons a l ih => rw [List.foldl_cons, ih, List.foldl_cons, List.length_cons]; congr 1; omega

theorem composeCounting_eq (resized : Mat Nat) (rows cols : Nat) (bs t : Int)
    (bl wh out : Mat Vec3b) :
    composeCounting resized rows cols bs t bl wh out =
      (stampList resized bs t bl wh (scanOrder rows cols) out, rows * cols) := by
  unfold composeCounting stampList
  rw [forCells_eq_foldl]
  have h := foldl_counting (fun (acc : Mat Vec3b) (p : Nat × Nat) =>
    stampCell resized bs t bl wh acc p.1 p.2) (scanOrder rows cols) out 0
  rw [length_scanOrder, Nat.zero_add] at h
  exact h

theorem processFrame_eq (reduce : Mat Vec3b → Int → Int → Mat Nat) (frame : Mat Vec3b)
    {b : Nat} (hb : 0 < b) (t : Int) (bl wh : Mat Vec3b) (mode : Int) :
    processFrame reduce frame (b : Int) t bl wh mode =
      Except.ok (stampList (gridOf reduce frame (b : Int) mode) (b : Int) t bl wh
        (scanOrder (frame.rows / b) (frame.cols / b)) (Mat.zeros frame.rows frame.cols)) := by
  unfold processFrame
  rw [if_neg (by exact_mod_cast (Nat.pos_iff_ne_zero.1 hb))]
  simp only [tdiv_toNat, forCells_eq_foldl]
  rfl


/-! ## Claims on the two dither algorithms -/

/-- C1: `applyOrderedDithering` keeps the dimensions of the grid and sets every cell `(r, c)` to
255 if its input value exceeds `ditherMatrix[r mod 4][c mod 4] * 15` and to 0 otherwise, where
15 is the integer quotient 256 / 17 computed by the code. -/
theorem applyOrderedDithering_eq_reference (g : Mat Nat) :
    256 / (4 * 4 + 1) = 15 ∧
    (applyOrderedDithering g).rows = g.rows ∧ (applyOrderedDithering g).cols = g.cols ∧
    ∀ r c, r < g.rows → c < g.cols →
      (applyOrderedDithering g).data r c = orderedDitherRef (g.data r c) r c ∧
      orderedDitherRef (g.data r c) r c =
        if g.data r c > ditherMatrixAt (r % 4) (c % 4) * 15 then 255 else 0 := by
  refine ⟨by norm_num, applyOrderedDithering_rows g, applyOrderedDithering_cols g, ?_⟩
  intro r c hr hc
  rw [applyOrderedDithering_data, if_pos ⟨hr, hc⟩]
  exact ⟨rfl, rfl⟩

theorem applyOrderedDithering_eq_reference_witness :
    (applyOrderedDithering sampleGrid).data 1 2 = 255 ∧
    orderedDitherRef (sampleGrid.data 1 2) 1 2 = 255 := by
  have h := (applyOrderedDithering_eq_reference sampleGrid).2.2.2 1 2 (by decide) (by decide)
  exact ⟨h.1.trans (by decide), by decide⟩

/-- C2: both dither algorithms keep the dimensions of the grid and leave every cell 0 or 255.
For the error diffusion this rests on the last part: executing the loop body at `(i, j)` changes
no cell that comes before `(i, j)` in scan order, so a quantized cell receives no error. -/
theorem dithering_binarizes (g : Mat Nat) :
    ((applyOrderedDithering g).rows = g.rows ∧ (applyOrderedDithering g).cols = g.cols ∧
      Binarized (applyOrderedDithering g)) ∧
    ((applyErrorDiffusionDithering g).rows = g.rows ∧
      (applyErrorDiffusionDithering g).cols = g.cols ∧
      Binarized (applyErrorDiffusionDithering g)) ∧
    ∀ (m : Mat ℚ) (i j r c : Nat), Before (r, c) (i, j) →
      (diffuseCell g.rows g.cols m i j).data r c = m.data r c :=
  ⟨⟨applyOrderedDithering_rows g, applyOrderedDithering_cols g, applyOrderedDithering_binarized g⟩,
   ⟨applyErrorDiffusionDithering_rows g, applyErrorDiffusionDithering_cols g,
     applyErrorDiffusionDithering_binarized g⟩,
   fun m _ _ _ _ h => diffuseCell_before g.rows g.cols m h⟩

theorem dithering_binarizes_witness :
    Binarized (applyErrorDiffusionDithering sampleGrid) ∧
    Binarized (applyOrderedDithering sampleGrid) :=
  ⟨(dithering_binarizes sampleGrid).2.1.2.2, (dithering_binarizes sampleGrid).1.2.2⟩

/-- C4: on a grid of 8-bit values, whatever its dimensions, every value `oldPixel` read by the
loops of `applyErrorDiffusionDithering` lies in [-128, 382] and every `quantError` computed
lies in [-128, 127]. -/
theorem errorDiffusion_values_bounded (g : Mat Nat) (hg : EightBit g) (i j : Nat)
    (hi : i < g.rows) (hj : j < g.cols) :
    (-128 ≤ oldPixelAt g i j ∧ oldPixelAt g i j ≤ 382) ∧
    (-128 ≤ quantErrorAt g i j ∧ quantErrorAt g i j ≤ 127) :=
  ⟨oldPixelAt_bounds g hg hi hj, quantErrorAt_bounds g hg hi hj⟩

theorem errorDiffusion_values_bounded_witness :
    EightBit sampleGrid ∧ 1 < sampleGrid.rows ∧ 2 < sampleGrid.cols ∧
    (-128 ≤ oldPixelAt sampleGrid 1 2 ∧ oldPixelAt sampleGrid 1 2 ≤ 382) ∧
    (-128 ≤ quantErrorAt sampleGrid 1 2 ∧ quantErrorAt sampleGrid 1 2 ≤ 127) :=
  ⟨by decide, by decide, by decide,
    errorDiffusion_values_bounded sampleGrid (by decide) 1 2 (by decide) (by decide)⟩

/-- C5: `applyOrderedDithering` returns a grid whose cells are all 0 or 255 unchanged, and
applying it twice to any grid gives the same grid as applying it once. -/
theorem applyOrderedDithering_idempotent (g : Mat Nat) :
    (Binarized g → applyOrderedDithering g = g) ∧
    applyOrderedDithering (applyOrderedDithering g) = applyOrderedDithering g :=
  ⟨fun hg => applyOrderedDithering_of_binarized hg,
   applyOrderedDithering_of_binarized (applyOrderedDithering_binarized g)⟩

theorem applyOrderedDithering_idempotent_witness :
    Binarized sampleBinaryGrid ∧ applyOrderedDithering sampleBinaryGrid = sampleBinaryGrid :=
  ⟨by decide, (applyOrderedDithering_idempotent sampleBinaryGrid).1 (by decide)⟩

/-- C6: on a grid whose cells are all 0 or 255, every `quantError` computed by
`applyErrorDiffusionDithering` is 0 and the output is the input grid; and applying the error
diffusion twice to any grid gives the same grid as applying it once. -/
theorem applyErrorDiffusionDithering_idempotent (g : Mat Nat) :
    (Binarized g →
      (∀ i j, i < g.rows → j < g.cols → quantErrorAt g i j = 0) ∧
      SameGrid (applyErrorDiffusionDithering g) g) ∧
    SameGrid (applyErrorDiffusionDithering (applyErrorDiffusionDithering g))
      (applyErrorDiffusionDithering g) :=
  ⟨fun hg => ⟨fun _ _ hi hj => quantErrorAt_of_binarized hg hi hj,
      applyErrorDiffusionDithering_of_binarized hg⟩,
   applyErrorDiffusionDithering_of_binarized (applyErrorDiffusionDithering_binarized g)⟩

theorem applyErrorDiffusionDithering_idempotent_witness :
    Binarized sampleBinaryGrid ∧ quantErrorAt sampleBinaryGrid 1 2 = 0 ∧
    SameGrid (applyErrorDiffusionDithering sampleBinaryGrid) sampleBinaryGrid :=
  ⟨by decide,
   ((applyErrorDiffusionDithering_idempotent sampleBinaryGrid).1 (by decide)).1 1 2
     (by decide) (by decide),
   ((applyErrorDiffusionDithering_idempotent sampleBinaryGrid).1 (by decide)).2⟩


/-! ## Claims on the frame composition -/

/-- C7: in the composition loop of `processFrame` the tile copied for a grid cell of value `v`
under threshold `t` is the black tile if and only if `v < t`; a cell with `v = t` receives the
white tile and a cell with `v = t - 1` the black tile. -/
theorem stampCell_threshold (resized : Mat Nat) (blockSize t : Int) (bl wh out : Mat Vec3b)
    (i j : Nat) :
    stampCell resized blockSize t bl wh out i j =
      copyToRoi (if (resized.data i j : Int) < t then bl else wh) out (blockRect blockSize i j) ∧
    (selectTile (resized.data i j) t = Tile.black ↔ (resized.data i j : Int) < t) ∧
    ((resized.data i j : Int) = t → selectTile (resized.data i j) t = Tile.white) ∧
    ((resized.data i j : Int) = t - 1 → selectTile (resized.data i j) t = Tile.black) := by
  unfold stampCell selectTile
  refine ⟨?_, ?_, ?_, ?_⟩
  · by_cases h : (resized.data i j : Int) < t <;> simp only [h, if_true, if_false, tileImage]
  · split_ifs with h <;> simp [h]
  · intro h
    rw [if_neg (by omega)]
  · intro h
    rw [if_pos (by omega)]

theorem stampCell_threshold_witness :
    selectTile (sampleGrid.data 0 1) 200 = Tile.white ∧
    selectTile (sampleGrid.data 0 1) 201 = Tile.black :=
  ⟨(stampCell_threshold sampleGrid 2 200 (solidImage 2 2 (0, 0, 0))
      (solidImage 2 2 (255, 255, 255)) (Mat.zeros 4 6) 0 1).2.2.1 (by decide),
   (stampCell_threshold sampleGrid 2 201 (solidImage 2 2 (0, 0, 0))
      (solidImage 2 2 (255, 255, 255)) (Mat.zeros 4 6) 0 1).2.2.2 (by decide)⟩

/-- C8: for a block size `b ≥ 1` and tiles of size `b x b`, `processFrame` returns a frame of
the dimensions of the input; every pixel `(y, x)` with `y < (H / b) * b` and `x < (W / b) * b`
equals pixel `(y mod b, x mod b)` of the tile selected by grid cell `(y / b, x / b)`; and the
loop body for one cell changes no pixel outside the block of that cell, in particular no pixel
of the block of another cell. -/
theorem processFrame_composition (reduce : Mat Vec3b → Int → Int → Mat Nat) (frame : Mat Vec3b)
    (b : Nat) (hb : 1 ≤ b) (t : Int) (bl wh : Mat Vec3b) (hbl : bl.rows = b ∧ bl.cols = b)
    (hwh : wh.rows = b ∧ wh.cols = b) (mode : Int) :
    ∃ out, processFrame reduce frame (b : Int) t bl wh mode = Except.ok out ∧
      out.rows = frame.rows ∧ out.cols = frame.cols ∧
      (∀ y x, y < frame.rows / b * b → x < frame.cols / b * b →
        out.data y x =
          (tileImage bl wh
            (selectTile ((gridOf reduce frame (b : Int) mode).data (y / b) (x / b)) t)).data
            (y % b) (x % b)) ∧
      (∀ (out0 : Mat Vec3b) (i j y x : Nat), ¬ InBlock b i j y x →
        (stampCell (gridOf reduce frame (b : Int) mode) (b : Int) t bl wh out0 i j).data y x =
          out0.data y x) ∧
      (∀ (out0 : Mat Vec3b) (i j k l y x : Nat), (k, l) ≠ (i, j) → InBlock b k l y x →
        (stampCell (gridOf reduce frame (b : Int) mode) (b : Int) t bl wh out0 i j).data y x =
          out0.data y x) := by
  have hb0 : 0 < b := hb
  refine ⟨_, processFrame_eq reduce frame hb0 t bl wh mode, ?_, ?_, ?_, ?_, ?_⟩
  · rw [stampList_rows]; rfl
  · rw [stampList_cols]; rfl
  · intro y x hy hx
    apply stampList_inside _ hb0 t hbl hwh
    exact mem_scanOrder.2 ⟨(Nat.div_lt_iff_lt_mul hb0).2 hy, (Nat.div_lt_iff_lt_mul hb0).2 hx⟩
  · intro out0 i j y x h
    exact stampCell_outside _ _ _ _ _ _ h
  · intro out0 i j k l y x hne hin
    apply stampCell_outside
    intro hin2
    have h1 := (inBlock_iff hb0 _ _ _ _).1 hin
    have h2 := (inBlock_iff hb0 _ _ _ _).1 hin2
    exact hne (Prod.ext (h1.1.symm.trans h2.1) (h1.2.symm.trans h2.2))

theorem processFrame_composition_witness :
    ∃ out, processFrame sampleReduce sampleFrame 2 65 (solidImage 2 2 (0, 0, 0))
        (solidImage 2 2 (255, 255, 255)) 0 = Except.ok out ∧
      out.rows = 5 ∧ out.cols = 4 ∧ out.data 1 3 = (0, 0, 0) ∧ out.data 3 2 = (255, 255, 255) := by
  obtain ⟨out, h1, h2, h3, h4, -, -⟩ := processFrame_composition sampleReduce sampleFrame 2
    (by decide) 65 (solidImage 2 2 (0, 0, 0)) (solidImage 2 2 (255, 255, 255))
    ⟨rfl, rfl⟩ ⟨rfl, rfl⟩ 0
  refine ⟨out, h1, h2, h3, ?_, ?_⟩
  · rw [h4 1 3 (by decide) (by decide)]; decide
  · rw [h4 3 2 (by decide) (by decide)]; decide


/-- C9: for a block size `b ≥ 1` and an `H x W` frame the composition loop of `processFrame`
makes exactly `(H / b) * (W / b)` `copyTo` calls, one for each of the `(H / b) * (W / b)`
distinct grid cells `(i, j)` with `i < H / b` and `j < W / b`; the blocks of two different
cells share no pixel; with tiles of size `b x b` the block of every such cell lies inside the
output frame and holds, pixel by pixel, the tile selected by the cell; every output pixel
`(y, x)` with `y ≥ (H / b) * b` or `x ≥ (W / b) * b` keeps the fill value 0 in all channels;
and when `b` divides `H` and `W` every pixel of the frame lies in the block of a stamped cell,
so that with `b x b` tiles every pixel of the output is a pixel of a stamped tile. -/
theorem processFrame_coverage (reduce : Mat Vec3b → Int → Int → Mat Nat) (frame : Mat Vec3b)
    (b : Nat) (hb : 1 ≤ b) (t : Int) (bl wh : Mat Vec3b) (mode : Int) :
    ∃ out, processFrame reduce frame (b : Int) t bl wh mode = Except.ok out ∧
      composeCounting (gridOf reduce frame (b : Int) mode) (frame.rows / b) (frame.cols / b)
        (b : Int) t bl wh (Mat.zeros frame.rows frame.cols) =
        (out, frame.rows / b * (frame.cols / b)) ∧
      ((scanOrder (frame.rows / b) (frame.cols / b)).length = frame.rows / b * (frame.cols / b) ∧
        (scanOrder (frame.rows / b) (frame.cols / b)).Nodup ∧
        ∀ i j, (i, j) ∈ scanOrder (frame.rows / b) (frame.cols / b) ↔
          i < frame.rows / b ∧ j < frame.cols / b) ∧
      (∀ i j k l y x, InBlock b i j y x → InBlock b k l y x → i = k ∧ j = l) ∧
      (bl.rows = b ∧ bl.cols = b → wh.rows = b ∧ wh.cols = b →
        ∀ i j, i < frame.rows / b → j < frame.cols / b → ∀ y x, InBlock b i j y x →
          y < out.rows ∧ x < out.cols ∧
          out.data y x =
            (tileImage bl wh
              (selectTile ((gridOf reduce frame (b : Int) mode).data i j) t)).data
              (y - i * b) (x - j * b)) ∧
      (∀ y x, frame.rows / b * b ≤ y ∨ frame.cols / b * b ≤ x → out.data y x = (0, 0, 0)) ∧
      (b ∣ frame.rows → b ∣ frame.cols → ∀ y x, y < frame.rows → x < frame.cols →
        ∃ i j, i < frame.rows / b ∧ j < frame.cols / b ∧ InBlock b i j y x) ∧
      (bl.rows = b ∧ bl.cols = b → wh.rows = b ∧ wh.cols = b →
        b ∣ frame.rows → b ∣ frame.cols → ∀ y x, y < frame.rows → x < frame.cols →
          out.data y x =
            (tileImage bl wh
              (selectTile ((gridOf reduce frame (b : Int) mode).data (y / b) (x / b)) t)).data
              (y % b) (x % b)) := by
  have hb0 : 0 < b := hb
  refine ⟨_, processFrame_eq reduce frame hb0 t bl wh mode, composeCounting_eq _ _ _ _ _ _ _ _,
    ⟨length_scanOrder _ _, nodup_scanOrder _ _, fun i j => mem_scanOrder⟩, ?_, ?_, ?_, ?_, ?_⟩
  · intro i j k l y x h1 h2
    have a1 := (inBlock_iff hb0 _ _ _ _).1 h1
    have a2 := (inBlock_iff hb0 _ _ _ _).1 h2
    exact ⟨a1.1.symm.trans a2.1, a1.2.symm.trans a2.2⟩
  · intro hbl hwh i j hi hj y x hin
    have a := (inBlock_iff hb0 _ _ _ _).1 hin
    have hy : y < frame.rows := by
      have h1 : i * b + b ≤ frame.rows / b * b := by
        have := Nat.mul_le_mul_right b (Nat.succ_le_of_lt hi)
        rw [Nat.succ_mul] at this
        exact this
      have h2 := Nat.div_mul_le_self frame.rows b
      have h3 := hin.2.1
      rw [Nat.add_mul, Nat.one_mul] at h3
      omega
    have hx : x < frame.cols := by
      have h1 : j * b + b ≤ frame.cols / b * b := by
        have := Nat.mul_le_mul_right b (Nat.succ_le_of_lt hj)
        rw [Nat.succ_mul] at this
        exact this
      have h2 := Nat.div_mul_le_self frame.cols b
      have h3 := hin.2.2.2
      rw [Nat.add_mul, Nat.one_mul] at h3
      omega
    refine ⟨by rw [stampList_rows]; exact hy, by rw [stampList_cols]; exact hx, ?_⟩
    have hmem : (y / b, x / b) ∈ scanOrder (frame.rows / b) (frame.cols / b) := by
      rw [a.1, a.2]
      exact mem_scanOrder.2 ⟨hi, hj⟩
    rw [stampList_inside _ hb0 t hbl hwh _ _ hmem, a.1, a.2, ← sub_block_eq_mod y,
      ← sub_block_eq_mod x, a.1, a.2]
  · intro y x hyx
    rw [stampList_outside]
    · rfl
    · intro p hp hin
      have hp2 := mem_scanOrder.1 hp
      have h := (inBlock_iff hb0 _ _ _ _).1 hin
      have h1 := (Nat.div_lt_iff_lt_mul hb0 (x := y) (y := frame.rows / b)).1 (by omega)
      have h2 := (Nat.div_lt_iff_lt_mul hb0 (x := x) (y := frame.cols / b)).1 (by omega)
      omega
  · intro hH hW y x hy hx
    refine ⟨y / b, x / b, ?_, ?_, (inBlock_iff hb0 _ _ _ _).2 ⟨rfl, rfl⟩⟩
    · rw [Nat.div_lt_iff_lt_mul hb0, Nat.div_mul_cancel hH]; exact hy
    · rw [Nat.div_lt_iff_lt_mul hb0, Nat.div_mul_cancel hW]; exact hx
  · intro hbl hwh hH hW y x hy hx
    apply stampList_inside _ hb0 t hbl hwh
    refine mem_scanOrder.2 ⟨?_, ?_⟩
    · rw [Nat.div_lt_iff_lt_mul hb0, Nat.div_mul_cancel hH]; exact hy
    · rw [Nat.div_lt_iff_lt_mul hb0, Nat.div_mul_cancel hW]; exact hx

theorem processFrame_coverage_witness :
    (∃ out, processFrame sampleReduce (solidImage 100 100 (200, 200, 200)) 10 128
        (solidImage 10 10 (0, 0, 0)) (solidImage 10 10 (255, 255, 255)) 0 = Except.ok out ∧
      composeCounting (gridOf sampleReduce (solidImage 100 100 (200, 200, 200)) 10 0) 10 10 10 128
        (solidImage 10 10 (0, 0, 0)) (solidImage 10 10 (255, 255, 255)) (Mat.zeros 100 100) =
        (out, 100) ∧
      (scanOrder 10 10).length = 100 ∧
      (∀ y x, y < 100 → x < 100 → ∃ i j, i < 10 ∧ j < 10 ∧ InBlock 10 i j y x) ∧
      (∀ y x, y < 100 → x < 100 → out.data y x = (255, 255, 255))) ∧
    (∃ out, processFrame sampleReduce (solidImage 105 105 (200, 200, 200)) 10 128
        (solidImage 10 10 (0, 0, 0)) (solidImage 10 10 (255, 255, 255)) 0 = Except.ok out ∧
      composeCounting (gridOf sampleReduce (solidImage 105 105 (200, 200, 200)) 10 0) 10 10 10 128
        (solidImage 10 10 (0, 0, 0)) (solidImage 10 10 (255, 255, 255)) (Mat.zeros 105 105) =
        (out, 100) ∧
      (∀ i j, i < 10 → j < 10 → ∀ y x, InBlock 10 i j y x →
        out.data y x = (255, 255, 255)) ∧
      out.data 99 99 = (255, 255, 255) ∧
      out.data 99 100 = (0, 0, 0) ∧
      ∀ y x, 100 ≤ y ∨ 100 ≤ x → out.data y x = (0, 0, 0)) := by
  constructor
  · obtain ⟨out, h1, h2, h3, -, -, -, h7, h8⟩ := processFrame_coverage sampleReduce
      (solidImage 100 100 (200, 200, 200)) 10 (by decide) 128 (solidImage 10 10 (0, 0, 0))
      (solidImage 10 10 (255, 255, 255)) 0
    refine ⟨out, h1, h2, h3.1, h7 (by decide) (by decide), ?_⟩
    intro y x hy hx
    rw [h8 ⟨rfl, rfl⟩ ⟨rfl, rfl⟩ (by decide) (by decide) y x hy hx]
    simp [gridOf, ditherStage, sampleReduce, solidImage, selectTile, tileImage]
  · obtain ⟨out, h1, h2, -, -, h5, h6, -, -⟩ := processFrame_coverage sampleReduce
      (solidImage 105 105 (200, 200, 200)) 10 (by decide) 128 (solidImage 10 10 (0, 0, 0))
      (solidImage 10 10 (255, 255, 255)) 0
    have hw : ∀ i j, i < 10 → j < 10 → ∀ y x, InBlock 10 i j y x →
        out.data y x = (255, 255, 255) := by
      intro i j hi hj y x hin
      rw [(h5 ⟨rfl, rfl⟩ ⟨rfl, rfl⟩ i j hi hj y x hin).2.2]
      simp [gridOf, ditherStage, sampleReduce, solidImage, selectTile, tileImage]
    exact ⟨out, h1, h2, hw, hw 9 9 (by decide) (by decide) 99 99 (by simp [InBlock]),
      h6 99 100 (by decide), h6⟩

/-- C10: for every `ditherMode` other than 1 and 2 the dithering step of `processFrame`
returns the reduced grid unmodified, `processFrame` gives the result it gives for
`ditherMode = 0`, and for a non-zero block size that result is an output frame, not a fault. -/
theorem processFrame_unknown_ditherMode (reduce : Mat Vec3b → Int → Int → Mat Nat)
    (frame : Mat Vec3b) (blockSize t : Int) (bl wh : Mat Vec3b) (mode : Int)
    (h1 : mode ≠ 1) (h2 : mode ≠ 2) :
    (∀ resized, ditherStage mode resized = resized) ∧
    gridOf reduce frame blockSize mode =
      reduce frame (Int.tdiv frame.cols blockSize) (Int.tdiv frame.rows blockSize) ∧
    processFrame reduce frame blockSize t bl wh mode =
      processFrame reduce frame blockSize t bl wh 0 ∧
    (blockSize ≠ 0 → ∃ out, processFrame reduce frame blockSize t bl wh mode = Except.ok out) := by
  have hd : ∀ resized, ditherStage mode resized = resized := by
    intro resized
    unfold ditherStage
    rw [if_neg h1, if_neg h2]
  have hd0 : ∀ resized, ditherStage 0 resized = resized := by
    intro resized
    unfold ditherStage
    rw [if_neg (by decide), if_neg (by decide)]
  refine ⟨hd, ?_, ?_, ?_⟩
  · unfold gridOf
    exact hd _
  · unfold processFrame
    simp only [hd, hd0]
  · intro hb
    unfold processFrame
    rw [if_neg hb]
    exact ⟨_, rfl⟩

theorem processFrame_unknown_ditherMode_witness :
    processFrame sampleReduce sampleFrame 2 65 (solidImage 2 2 (0, 0, 0))
      (solidImage 2 2 (255, 255, 255)) (-3) =
    processFrame sampleReduce sampleFrame 2 65 (solidImage 2 2 (0, 0, 0))
      (solidImage 2 2 (255, 255, 255)) 0 :=
  (processFrame_unknown_ditherMode sampleReduce sampleFrame 2 65 (solidImage 2 2 (0, 0, 0))
    (solidImage 2 2 (255, 255, 255)) (-3) (by decide) (by decide)).2.2.1


/-! ## Claims on the dither matrix and on tones -/

set_option maxRecDepth 100000 in
theorem toneLevel_eq : ∀ v < 256, toneLevel v = min 16 ((v + 14) / 15) := by decide

theorem whiteCount_solid (g : Mat Nat) (v : Nat)
    (hg : ∀ r, r < g.rows → ∀ c, c < g.cols → g.data r c = v) (k l : Nat)
    (hk : 4 * k + 4 ≤ g.rows) (hl : 4 * l + 4 ≤ g.cols) :
    whiteCount (applyOrderedDithering g) k l = toneLevel v := by
  unfold whiteCount toneLevel
  congr 1
  apply List.filter_congr
  intro p hp
  have hp' := mem_scanOrder.1 hp
  have hr : 4 * k + p.1 < g.rows := by omega
  have hc : 4 * l + p.2 < g.cols := by omega
  have e1 : (4 * k + p.1) % 4 = p.1 := by omega
  have e2 : (4 * l + p.2) % 4 = p.2 := by omega
  rw [applyOrderedDithering_data, if_pos ⟨hr, hc⟩, hg _ hr _ hc]
  unfold orderedDitherRef
  rw [e1, e2]
  by_cases h : v > ditherMatrixAt p.1 p.2 * 15 <;> simp [h]

/-- C19: on a grid of the single tone `v` (0..255), every 4 x 4 block of the output of
`applyOrderedDithering` aligned to multiples of 4 holds exactly `min 16 ⌈v / 15⌉` cells equal
to 255; this number is 0 only for `v = 0`, is 16 exactly for `v ≥ 226`, and does not decrease
when the tone increases. -/
theorem orderedDithering_tone (g : Mat Nat) (v : Nat) (hv : v ≤ 255)
    (hg : ∀ r, r < g.rows → ∀ c, c < g.cols → g.data r c = v) (k l : Nat)
    (hk : 4 * k + 4 ≤ g.rows) (hl : 4 * l + 4 ≤ g.cols) :
    whiteCount (applyOrderedDithering g) k l = min 16 ((v + 14) / 15) ∧
    (whiteCount (applyOrderedDithering g) k l = 0 ↔ v = 0) ∧
    (whiteCount (applyOrderedDithering g) k l = 16 ↔ 226 ≤ v) ∧
    ∀ (g' : Mat Nat) (w k' l' : Nat), w ≤ 255 →
      (∀ r, r < g'.rows → ∀ c, c < g'.cols → g'.data r c = w) →
      4 * k' + 4 ≤ g'.rows → 4 * l' + 4 ≤ g'.cols → v ≤ w →
      whiteCount (applyOrderedDithering g) k l ≤ whiteCount (applyOrderedDithering g') k' l' := by
  have h := whiteCount_solid g v hg k l hk hl
  rw [toneLevel_eq v (by omega)] at h
  refine ⟨h, ?_, ?_, ?_⟩
  · rw [h]; omega
  · rw [h]; omega
  · intro g' w k' l' hw hg' hk' hl' hvw
    have h' := whiteCount_solid g' w hg' k' l' hk' hl'
    rw [toneLevel_eq w (by omega)] at h'
    rw [h, h']; omega

theorem orderedDithering_tone_witness :
    whiteCount (applyOrderedDithering (solidGrid 100)) 0 1 = 7 :=
  (orderedDithering_tone (solidGrid 100) 100 (by decide) (fun _ _ _ _ => rfl) 0 1
    (by decide) (by decide)).1

/-- C13: the output of `applyOrderedDithering` at a cell depends only on the row and the column
modulo 4 and on the input value of that cell: two cells of two grids, of any sizes, that agree
in these three give the same output, and the output is one fixed function of them. -/
theorem applyOrderedDithering_local (g g' : Mat Nat) (r c r' c' : Nat)
    (hr : r < g.rows) (hc : c < g.cols) (hr' : r' < g'.rows) (hc' : c' < g'.cols) :
    (r % 4 = r' % 4 → c % 4 = c' % 4 → g.data r c = g'.data r' c' →
      (applyOrderedDithering g).data r c = (applyOrderedDithering g').data r' c') ∧
    (applyOrderedDithering g).data r c =
      (if g.data r c > ditherMatrixAt (r % 4) (c % 4) * 15 then 255 else 0) := by
  rw [applyOrderedDithering_data, if_pos ⟨hr, hc⟩, applyOrderedDithering_data,
    if_pos ⟨hr', hc'⟩]
  unfold orderedDitherRef
  refine ⟨?_, rfl⟩
  intro h1 h2 h3
  rw [h1, h2, h3]

theorem applyOrderedDithering_local_witness :
    (applyOrderedDithering sampleGrid).data 0 1 = (applyOrderedDithering (solidGrid 200)).data 0 5 :=
  (applyOrderedDithering_local sampleGrid (solidGrid 200) 0 1 0 5 (by decide) (by decide)
    (by decide) (by decide)).1 (by decide) (by decide) (by decide)

/-- C14: the 16 entries of `ditherMatrix` (4 rows of 4) are pairwise distinct and are the numbers
0..15, so the thresholds `ditherMatrix[r mod 4][c mod 4] * 15` of `applyOrderedDithering` are
the 16 distinct values 0, 15, ..., 225, each at most 255. -/
theorem ditherMatrix_permutation :
    (ditherMatrix.length = 4 ∧ ∀ row ∈ ditherMatrix, row.length = 4) ∧
    ditherMatrix.flatten.Nodup ∧ (∀ d ∈ ditherMatrix.flatten, d ≤ 15) ∧
    List.Perm ditherMatrix.flatten (List.range 16) ∧
    256 / (4 * 4 + 1) = 15 ∧
    List.Perm ((scanOrder 4 4).map (fun p => ditherMatrixAt p.1 p.2 * 15))
      ((List.range 16).map (fun k => 15 * k)) ∧
    ((scanOrder 4 4).map (fun p => ditherMatrixAt p.1 p.2 * 15)).Nodup ∧
    ∀ r c, ditherMatrixAt (r % 4) (c % 4) * 15 ≤ 255 ∧
      ∃ k, k < 16 ∧ ditherMatrixAt (r % 4) (c % 4) * 15 = 15 * k := by
  refine ⟨by decide, by decide, by decide, by decide, by decide, by decide, by decide, ?_⟩
  intro r c
  have h : ∀ a < 4, ∀ b < 4, ditherMatrixAt a b * 15 ≤ 255 ∧
      ∃ k, k < 16 ∧ ditherMatrixAt a b * 15 = 15 * k := by decide
  exact h _ (Nat.mod_lt _ (by norm_num)) _ (Nat.mod_lt _ (by norm_num))

/-! ## Claims on the whole frame pipeline -/

theorem ditherStage_rows (mode : Int) (resized : Mat Nat) :
    (ditherStage mode resized).rows = resized.rows := by
  unfold ditherStage
  split_ifs
  · exact applyOrderedDithering_rows _
  · exact applyErrorDiffusionDithering_rows _
  · rfl

theorem ditherStage_cols (mode : Int) (resized : Mat Nat) :
    (ditherStage mode resized).cols = resized.cols := by
  unfold ditherStage
  split_ifs
  · exact applyOrderedDithering_cols _
  · exact applyErrorDiffusionDithering_cols _
  · rfl

theorem ditherStage_binarized {mode : Int} (h : mode = 1 ∨ mode = 2) (resized : Mat Nat) :
    Binarized (ditherStage mode resized) := by
  unfold ditherStage
  rcases h with h | h <;> subst h
  · rw [if_pos rfl]; exact applyOrderedDithering_binarized _
  · rw [if_neg (by decide), if_pos rfl]; exact applyErrorDiffusionDithering_binarized _

theorem selectTile_of_binary {v : Nat} (hv : v = 0 ∨ v = 255) {t : Int} (h1 : 1 ≤ t)
    (h2 : t ≤ 255) : selectTile v t = Tile.black ↔ v = 0 := by
  unfold selectTile
  rcases hv with hv | hv <;> subst hv
  · simp; omega
  · simp; omega

theorem selectTile_eq_of_binary {v : Nat} (hv : v = 0 ∨ v = 255) {t1 t2 : Int}
    (h1 : 1 ≤ t1 ∧ t1 ≤ 255) (h2 : 1 ≤ t2 ∧ t2 ≤ 255) : selectTile v t1 = selectTile v t2 := by
  unfold selectTile
  rcases hv with hv | hv <;> subst hv
  · rw [if_pos (by simp; omega), if_pos (by simp; omega)]
  · rw [if_neg (by simp; omega), if_neg (by simp; omega)]

theorem foldl_congr_mem {σ α : Type} (f g : σ → α → σ) (l : List α)
    (h : ∀ acc, ∀ a ∈ l, f acc a = g acc a) (s : σ) : l.foldl f s = l.foldl g s := by
  induction l generalizing s with
  | nil => rfl
  | cons a l ih =>
    rw [List.foldl_cons, List.foldl_cons, h s a (List.mem_cons_self _ _)]
    exact ih (fun acc b hb => h acc b (List.mem_cons_of_mem _ hb)) _

/-- C17: with `ditherMode` 1 or 2 and a reducer that returns a grid of the requested size,
`processFrame` gives the same result for any two thresholds in 1..255, whatever the frame, the
block size and the tiles; a cell of the grid receives the black tile exactly when its dithered
value is 0. -/
theorem processFrame_threshold_irrelevant (reduce : Mat Vec3b → Int → Int → Mat Nat)
    (frame : Mat Vec3b) (blockSize : Int) (bl wh : Mat Vec3b) (mode : Int)
    (hmode : mode = 1 ∨ mode = 2) (t1 t2 : Int) (h1 : 1 ≤ t1 ∧ t1 ≤ 255)
    (h2 : 1 ≤ t2 ∧ t2 ≤ 255)
    (hdim : (reduce frame (Int.tdiv frame.cols blockSize) (Int.tdiv frame.rows blockSize)).rows =
        (Int.tdiv frame.rows blockSize).toNat ∧
      (reduce frame (Int.tdiv frame.cols blockSize) (Int.tdiv frame.rows blockSize)).cols =
        (Int.tdiv frame.cols blockSize).toNat) :
    processFrame reduce frame blockSize t1 bl wh mode =
      processFrame reduce frame blockSize t2 bl wh mode ∧
    ∀ i j, i < (Int.tdiv frame.rows blockSize).toNat → j < (Int.tdiv frame.cols blockSize).toNat →
      (selectTile ((gridOf reduce frame blockSize mode).data i j) t1 = Tile.black ↔
        (gridOf reduce frame blockSize mode).data i j = 0) := by
  have hbin : ∀ i j, i < (Int.tdiv frame.rows blockSize).toNat →
      j < (Int.tdiv frame.cols blockSize).toNat →
      (gridOf reduce frame blockSize mode).data i j = 0 ∨
      (gridOf reduce frame blockSize mode).data i j = 255 := by
    intro i j hi hj
    have hb := ditherStage_binarized hmode
      (reduce frame (Int.tdiv frame.cols blockSize) (Int.tdiv frame.rows blockSize))
    exact hb i (by rw [ditherStage_rows, hdim.1]; exact hi) j
      (by rw [ditherStage_cols, hdim.2]; exact hj)
  refine ⟨?_, fun i j hi hj => selectTile_of_binary (hbin i j hi hj) h1.1 h1.2⟩
  unfold processFrame
  split_ifs with h0
  · rfl
  · simp only [forCells_eq_foldl]
    congr 1
    apply foldl_congr_mem
    intro acc p hp
    have hp' := mem_scanOrder.1 hp
    have e := selectTile_eq_of_binary (hbin p.1 p.2 hp'.1 hp'.2) h1 h2
    exact congrArg (fun k => copyToRoi (tileImage bl wh k) acc (blockRect blockSize p.1 p.2)) e

theorem processFrame_threshold_irrelevant_witness :
    processFrame sampleReduce sampleFrame 2 1 (solidImage 2 2 (0, 0, 0))
      (solidImage 2 2 (255, 255, 255)) 2 =
    processFrame sampleReduce sampleFrame 2 255 (solidImage 2 2 (0, 0, 0))
      (solidImage 2 2 (255, 255, 255)) 2 :=
  (processFrame_threshold_irrelevant sampleReduce sampleFrame 2 (solidImage 2 2 (0, 0, 0))
    (solidImage 2 2 (255, 255, 255)) 2 (by decide) 1 255 (by decide) (by decide)
    ⟨rfl, rfl⟩).1

/-- C12: with `ditherMode = 0` and a block size `b ≥ 1`, if every cell of the reduced grid is at
least the threshold then the tile copied for every cell is the white tile, and for `b x b`
tiles every pixel of every stamped block is the pixel of the white tile; in particular a
20 x 20 frame whose reduced 2 x 2 grid holds 200 everywhere, with block size 10, threshold 128
and solid 10 x 10 tiles, gives a 20 x 20 output frame that has the colour of the white tile at
every pixel. -/
theorem processFrame_all_white :
    (∀ (reduce : Mat Vec3b → Int → Int → Mat Nat) (frame : Mat Vec3b) (b : Nat) (t : Int)
        (bl wh : Mat Vec3b), 1 ≤ b →
        (∀ i j, i < frame.rows / b → j < frame.cols / b →
          t ≤ ((gridOf reduce frame (b : Int) 0).data i j : Int)) →
        ∃ out, processFrame reduce frame (b : Int) t bl wh 0 = Except.ok out ∧
          (∀ (out0 : Mat Vec3b) (i j : Nat), i < frame.rows / b → j < frame.cols / b →
            stampCell (gridOf reduce frame (b : Int) 0) (b : Int) t bl wh out0 i j =
              copyToRoi wh out0 (blockRect (b : Int) i j)) ∧
          (bl.rows = b ∧ bl.cols = b → wh.rows = b ∧ wh.cols = b →
            ∀ y x, y < frame.rows / b * b → x < frame.cols / b * b →
              out.data y x = wh.data (y % b) (x % b))) ∧
    (∀ (reduce : Mat Vec3b → Int → Int → Mat Nat) (frame : Mat Vec3b) (black white : Vec3b),
        frame.rows = 20 → frame.cols = 20 →
        (∀ i j, i < 2 → j < 2 → (reduce frame 2 2).data i j = 200) →
        ∃ out, processFrame reduce frame 10 128 (solidImage 10 10 black)
            (solidImage 10 10 white) 0 = Except.ok out ∧
          out.rows = 20 ∧ out.cols = 20 ∧
          ∀ y x, y < 20 → x < 20 → out.data y x = white) := by
  have hsel : ∀ (reduce : Mat Vec3b → Int → Int → Mat Nat) (frame : Mat Vec3b) (b : Nat)
      (t : Int), (∀ i j, i < frame.rows / b → j < frame.cols / b →
        t ≤ ((gridOf reduce frame (b : Int) 0).data i j : Int)) →
      ∀ i j, i < frame.rows / b → j < frame.cols / b →
        selectTile ((gridOf reduce frame (b : Int) 0).data i j) t = Tile.white := by
    intro reduce frame b t hcells i j hi hj
    unfold selectTile
    rw [if_neg (not_lt.2 (hcells _ _ hi hj))]
  have general : ∀ (reduce : Mat Vec3b → Int → Int → Mat Nat) (frame : Mat Vec3b) (b : Nat)
      (t : Int) (bl wh : Mat Vec3b), 1 ≤ b → bl.rows = b ∧ bl.cols = b →
      wh.rows = b ∧ wh.cols = b →
      (∀ i j, i < frame.rows / b → j < frame.cols / b →
        t ≤ ((gridOf reduce frame (b : Int) 0).data i j : Int)) →
      (stampList (gridOf reduce frame (b : Int) 0) (b : Int) t bl wh
          (scanOrder (frame.rows / b) (frame.cols / b)) (Mat.zeros frame.rows frame.cols)).rows =
        frame.rows ∧
      (stampList (gridOf reduce frame (b : Int) 0) (b : Int) t bl wh
          (scanOrder (frame.rows / b) (frame.cols / b)) (Mat.zeros frame.rows frame.cols)).cols =
        frame.cols ∧
      ∀ y x, y < frame.rows / b * b → x < frame.cols / b * b →
        (stampList (gridOf reduce frame (b : Int) 0) (b : Int) t bl wh
          (scanOrder (frame.rows / b) (frame.cols / b)) (Mat.zeros frame.rows frame.cols)).data
          y x = wh.data (y % b) (x % b) := by
    intro reduce frame b t bl wh hb hbl hwh hcells
    have hb0 : 0 < b := hb
    refine ⟨?_, ?_, ?_⟩
    · rw [stampList_rows]; rfl
    · rw [stampList_cols]; rfl
    · intro y x hy hx
      have hi := (Nat.div_lt_iff_lt_mul hb0).2 hy
      have hj := (Nat.div_lt_iff_lt_mul hb0).2 hx
      rw [stampList_inside _ hb0 t hbl hwh _ _ (mem_scanOrder.2 ⟨hi, hj⟩),
        hsel reduce frame b t hcells _ _ hi hj]
      rfl
  refine ⟨fun reduce frame b t bl wh hb hcells => ?_, ?_⟩
  · refine ⟨_, processFrame_eq reduce frame hb t bl wh 0, ?_, ?_⟩
    · intro out0 i j hi hj
      unfold stampCell
      simp only
      rw [hsel reduce frame b t hcells i j hi hj]
      rfl
    · intro hbl hwh
      exact (general reduce frame b t bl wh hb hbl hwh hcells).2.2
  · intro reduce frame black white hr hc hgrid
    have hg : ∀ i j, i < frame.rows / 10 → j < frame.cols / 10 →
        (128 : Int) ≤ ((gridOf reduce frame ((10 : Nat) : Int) 0).data i j : Int) := by
      intro i j hi hj
      have e : gridOf reduce frame ((10 : Nat) : Int) 0 = reduce frame 2 2 := by
        unfold gridOf ditherStage
        rw [if_neg (by decide), if_neg (by decide), hr, hc]
        rfl
      rw [hr] at hi
      rw [hc] at hj
      rw [e, hgrid i j (by omega) (by omega)]
      norm_num
    obtain ⟨h2, h3, h4⟩ := general reduce frame 10 128 (solidImage 10 10 black)
      (solidImage 10 10 white) (by decide) ⟨rfl, rfl⟩ ⟨rfl, rfl⟩ hg
    refine ⟨_, processFrame_eq reduce frame (by decide) 128 _ _ 0, h2.trans hr, h3.trans hc, ?_⟩
    intro y x hy hx
    rw [h4 y x (by rw [hr]; omega) (by rw [hc]; omega)]
    rfl

theorem processFrame_all_white_witness :
    ∃ out, processFrame sampleReduce (solidImage 20 20 (200, 200, 200)) 10 128
        (solidImage 10 10 (0, 0, 0)) (solidImage 10 10 (255, 255, 255)) 0 = Except.ok out ∧
      out.rows = 20 ∧ out.cols = 20 ∧
      ∀ y x, y < 20 → x < 20 → out.data y x = (255, 255, 255) :=
  processFrame_all_white.2 sampleReduce (solidImage 20 20 (200, 200, 200)) (0, 0, 0)
    (255, 255, 255) rfl rfl (fun _ _ _ _ => rfl)

/-! ## Bounds of the accesses of the composition loop -/

theorem foldlM_ok {σ α ε : Type} (f : σ → α → Except ε σ) (g : σ → α → σ) (Inv : σ → Prop)
    (l : List α) (hstep : ∀ acc, Inv acc → ∀ a ∈ l, f acc a = Except.ok (g acc a) ∧ Inv (g acc a))
    (s : σ) (hs : Inv s) : l.foldlM f s = Except.ok (l.foldl g s) ∧ Inv (l.foldl g s) := by
  induction l generalizing s with
  | nil => exact ⟨rfl, hs⟩
  | cons a l ih =>
    obtain ⟨h1, h2⟩ := hstep s hs a (List.mem_cons_self _ _)
    rw [List.foldlM_cons, h1, List.foldl_cons]
    exact ih (fun acc hacc b hb => hstep acc hacc b (List.mem_cons_of_mem _ hb)) _ h2

theorem block_inside_frame {H W b i j : Nat} (hb : 0 < b) (hi : i < H / b) (hj : j < W / b) :
    (j + 1) * b ≤ W ∧ (i + 1) * b ≤ H :=
  ⟨(Nat.le_div_iff_mul_le hb).1 hj, (Nat.le_div_iff_mul_le hb).1 hi⟩

theorem rectInside_block {H W b i j : Nat} (hb : 0 < b) (hi : i < H / b) (hj : j < W / b)
    (out : Mat Vec3b) (hr : out.rows = H) (hc : out.cols = W) :
    rectInside (blockRect (b : Int) i j) out := by
  obtain ⟨h1, h2⟩ := block_inside_frame hb hi hj
  rw [Nat.add_mul, Nat.one_mul] at h1 h2
  unfold rectInside blockRect
  simp only [hr, hc]
  refine ⟨by positivity, by positivity, by exact_mod_cast h1, by positivity, by positivity,
    by exact_mod_cast h2⟩

theorem composeChecked_ok (resized : Mat Nat) {H W b : Nat} (hb : 0 < b) (t : Int)
    (bl wh : Mat Vec3b) (hrows : resized.rows = H / b) (hcols : resized.cols = W / b)
    (out : Mat Vec3b) (hr : out.rows = H) (hc : out.cols = W) :
    composeChecked resized (H / b) (W / b) (b : Int) t bl wh out =
      Except.ok (forCells (H / b) (W / b) (stampCell resized (b : Int) t bl wh) out) := by
  unfold composeChecked forCells
  refine (foldlM_ok _ _ (fun acc : Mat Vec3b => acc.rows = H ∧ acc.cols = W) _ ?_ out
    ⟨hr, hc⟩).1
  intro acc hacc i hi
  have hi' : i < H / b := List.mem_range.1 hi
  refine foldlM_ok _ _ (fun acc : Mat Vec3b => acc.rows = H ∧ acc.cols = W) _ ?_ acc hacc
  intro acc2 hacc2 j hj
  have hj' : j < W / b := List.mem_range.1 hj
  constructor
  · unfold stampCellChecked
    rw [if_pos ⟨by omega, by omega⟩, if_pos (rectInside_block hb hi' hj' acc2 hacc2.1 hacc2.2)]
  · exact ⟨(stampCell_rows _ _ _ _ _ _ _ _).trans hacc2.1,
      (stampCell_cols _ _ _ _ _ _ _ _).trans hacc2.2⟩

theorem composeChecked_faults_beyond_frame :
    composeChecked (solidGrid 0) 3 1 2 128 (solidImage 2 2 (0, 0, 0))
      (solidImage 2 2 (255, 255, 255)) (Mat.zeros 4 4) =
      Except.error BoundsFault.roiOutOfRange := by
  rfl

/-- C18: for a block size `b ≥ 1` and an `H x W` frame, every rectangle used by the composition
loop of `processFrame`, for a cell `(i, j)` with `i < H / b` and `j < W / b`, satisfies
`(j + 1) * b ≤ W` and `(i + 1) * b ≤ H` and lies inside the output frame; when the reducer
returns a grid of the requested size `(H / b) x (W / b)` every grid access `(i, j)` lies inside
the grid, and the loop run with both accesses checked ends without a fault in the output frame
of `processFrame`. -/
theorem processFrame_accesses_in_bounds (reduce : Mat Vec3b → Int → Int → Mat Nat)
    (frame : Mat Vec3b) (b : Nat) (hb : 1 ≤ b) (t : Int) (bl wh : Mat Vec3b) (mode : Int) :
    (∀ i j, i < frame.rows / b → j < frame.cols / b →
      (j + 1) * b ≤ frame.cols ∧ (i + 1) * b ≤ frame.rows ∧
      rectInside (blockRect (b : Int) i j) (Mat.zeros frame.rows frame.cols)) ∧
    ((reduce frame (Int.tdiv frame.cols b) (Int.tdiv frame.rows b)).rows = frame.rows / b ∧
      (reduce frame (Int.tdiv frame.cols b) (Int.tdiv frame.rows b)).cols = frame.cols / b →
      (∀ i j, i < frame.rows / b → j < frame.cols / b →
        i < (gridOf reduce frame (b : Int) mode).rows ∧
        j < (gridOf reduce frame (b : Int) mode).cols) ∧
      ∃ out, processFrame reduce frame (b : Int) t bl wh mode = Except.ok out ∧
        composeChecked (gridOf reduce frame (b : Int) mode) (frame.rows / b) (frame.cols / b)
          (b : Int) t bl wh (Mat.zeros frame.rows frame.cols) = Except.ok out) := by
  have hb0 : 0 < b := hb
  constructor
  · intro i j hi hj
    obtain ⟨h1, h2⟩ := block_inside_frame hb0 hi hj
    exact ⟨h1, h2, rectInside_block hb0 hi hj _ rfl rfl⟩
  · intro hdim
    have hrows : (gridOf reduce frame (b : Int) mode).rows = frame.rows / b := by
      unfold gridOf
      rw [ditherStage_rows]; exact hdim.1
    have hcols : (gridOf reduce frame (b : Int) mode).cols = frame.cols / b := by
      unfold gridOf
      rw [ditherStage_cols]; exact hdim.2
    refine ⟨fun i j hi hj => ⟨by omega, by omega⟩, _,
      processFrame_eq reduce frame hb0 t bl wh mode, ?_⟩
    rw [composeChecked_ok (gridOf reduce frame (b : Int) mode) hb0 t bl wh hrows hcols
      (Mat.zeros frame.rows frame.cols) rfl rfl, forCells_eq_foldl]
    rfl

theorem processFrame_accesses_in_bounds_witness :
    (1 + 1) * 2 ≤ sampleFrame.cols ∧ (1 + 1) * 2 ≤ sampleFrame.rows ∧
    ∃ out, processFrame sampleReduce sampleFrame 2 65 (solidImage 2 2 (0, 0, 0))
        (solidImage 2 2 (255, 255, 255)) 1 = Except.ok out ∧
      composeChecked (gridOf sampleReduce sampleFrame 2 1) 2 2 2 65 (solidImage 2 2 (0, 0, 0))
        (solidImage 2 2 (255, 255, 255)) (Mat.zeros 5 4) = Except.ok out := by
  have h := processFrame_accesses_in_bounds sampleReduce sampleFrame 2 (by decide) 65
    (solidImage 2 2 (0, 0, 0)) (solidImage 2 2 (255, 255, 255)) 1
  exact ⟨(h.1 1 1 (by decide) (by decide)).1, (h.1 1 1 (by decide) (by decide)).2.1,
    (h.2 ⟨rfl, rfl⟩).2⟩

/-! ## Direction of the error propagation -/

theorem before_trans {a b c : Nat × Nat} (h1 : Before a b) (h2 : Before b c) : Before a c := by
  unfold Before at *
  omega

theorem upTo_before {a b c : Nat × Nat} (h1 : UpTo a b) (h2 : Before b c) : Before a c := by
  rcases h1 with h | h
  · rw [h]; exact h2
  · exact before_trans h h2

theorem diffuseList_before (rows cols : Nat) (l : List (Nat × Nat)) (m : Mat ℚ) {r c : Nat}
    (h : ∀ p ∈ l, Before (r, c) p) : (diffuseList rows cols l m).data r c = m.data r c := by
  induction l using List.reverseRecOn with
  | nil => rfl
  | append_singleton l p ih =>
    rw [diffuseList_snoc, diffuseCell_before _ _ _ (h p (by simp))]
    exact ih (fun q hq => h q (List.mem_append_left _ hq))

theorem diffuseList_agree (rows cols : Nat) (S : Nat × Nat → Prop) (l : List (Nat × Nat))
    (hl : ∀ p ∈ l, S p) (m m' : Mat ℚ) (h : ∀ r c, S (r, c) → m.data r c = m'.data r c) :
    ∀ r c, S (r, c) →
      (diffuseList rows cols l m).data r c = (diffuseList rows cols l m').data r c := by
  induction l using List.reverseRecOn with
  | nil => exact h
  | append_singleton l p ih =>
    have ih' := ih (fun q hq => hl q (List.mem_append_left _ hq))
    have hp : S (p.1, p.2) := hl p (by simp)
    intro r c hrc
    rw [diffuseList_snoc, diffuseList_snoc, diffuseCell_data, diffuseCell_data,
      ih' p.1 p.2 hp, ih' r c hrc]

theorem after_of_split {rows cols i j : Nat} {rest : List (Nat × Nat)}
    (hs : scanOrder rows cols = cellsBefore rows cols i j ++ (i, j) :: rest) :
    ∀ q ∈ rest, Before (i, j) q := by
  have hpw := pairwise_before_scanOrder rows cols
  rw [hs, List.pairwise_append] at hpw
  exact (List.pairwise_cons.1 hpw.2.1).1

/-- The final working image holds at `(i, j)` the value quantized when the loops reached it. -/
theorem diffuseAll_data_eq_quantize (g : Mat Nat) {i j : Nat} (hi : i < g.rows)
    (hj : j < g.cols) :
    (diffuseList g.rows g.cols (scanOrder g.rows g.cols)
      (g.convertTo (fun v : Nat => (v : ℚ)))).data i j = quantize (oldPixelAt g i j) := by
  obtain ⟨rest, hs, hres⟩ := diffuseAll_resume g hi hj
  rw [← diffuseAll_eq_diffuseList, hres, diffuseList_before _ _ _ _ (after_of_split hs),
    diffuseCell_data, if_pos ⟨rfl, rfl⟩]
  rfl

theorem weight_written_cells {rows cols i j r c : Nat} (hi : i < rows) (hj : j < cols)
    (h : weight rows cols i j r c ≠ 0) : (r < rows ∧ c < cols) ∧ Before (i, j) (r, c) := by
  refine ⟨weight_target_in_grid hi hj h, ?_⟩
  by_contra hb
  exact h (weight_eq_zero_of_not_after hb)

/-- Cells of the final working image up to `(i, j)` depend on the input cells up to `(i, j)` only. -/
theorem diffuse_prefix_agree (rows cols : Nat) (m m' : Mat ℚ) {i j : Nat} (hi : i < rows)
    (hj : j < cols)
    (h : ∀ r c, r < rows → c < cols → UpTo (r, c) (i, j) → m.data r c = m'.data r c) :
    ∀ r c, r < rows → c < cols → UpTo (r, c) (i, j) →
      (diffuseList rows cols (scanOrder rows cols) m).data r c =
        (diffuseList rows cols (scanOrder rows cols) m').data r c := by
  obtain ⟨rest, hs⟩ := scanOrder_split hi hj
  intro r c hr hc hu
  have hafter : ∀ q ∈ rest, Before (r, c) q :=
    fun q hq => upTo_before hu (after_of_split hs q hq)
  have hsplit : scanOrder rows cols = (cellsBefore rows cols i j ++ [(i, j)]) ++ rest := by
    rw [hs]; simp
  rw [hsplit, diffuseList_append _ _ _ rest m, diffuseList_append _ _ _ rest m',
    diffuseList_before _ _ _ _ hafter, diffuseList_before _ _ _ _ hafter]
  apply diffuseList_agree rows cols
    (fun p => (p.1 < rows ∧ p.2 < cols) ∧ UpTo p (i, j))
  · intro p hp
    rcases List.mem_append.1 hp with hp | hp
    · have := (mem_cellsBefore hi hj).1 hp
      exact ⟨this.1, Or.inr this.2⟩
    · rw [List.mem_singleton.1 hp]
      exact ⟨⟨hi, hj⟩, Or.inl rfl⟩
  · intro a b hab
    exact h a b hab.1.1 hab.1.2 hab.2
  · exact ⟨⟨hr, hc⟩, hu⟩

/-- C15: when the loops of `applyErrorDiffusionDithering` process cell `(i, j)`, the value added
to a cell `(r, c)` other than `(i, j)` is `weight * quantError`, and every cell that receives a
non-zero weight lies inside the grid and strictly after `(i, j)` in row-major order; every other
cell except `(i, j)` keeps its value. Hence two grids of the same size that agree on all cells
up to and including `(i, j)` give outputs that agree on all those cells. -/
theorem errorDiffusion_forward_only (g : Mat Nat) (i j : Nat) (hi : i < g.rows)
    (hj : j < g.cols) :
    (∀ (m : Mat ℚ) (r c : Nat), (r, c) ≠ (i, j) →
      (diffuseCell g.rows g.cols m i j).data r c =
        m.data r c + weight g.rows g.cols i j r c * quantErrorOf (m.data i j)) ∧
    (∀ r c, weight g.rows g.cols i j r c ≠ 0 →
      (r < g.rows ∧ c < g.cols) ∧ Before (i, j) (r, c)) ∧
    (∀ (m : Mat ℚ) (r c : Nat), (r, c) ≠ (i, j) →
      ¬ ((r < g.rows ∧ c < g.cols) ∧ Before (i, j) (r, c)) →
      (diffuseCell g.rows g.cols m i j).data r c = m.data r c) ∧
    (∀ g' : Mat Nat, g'.rows = g.rows → g'.cols = g.cols →
      (∀ r, r < g.rows → ∀ c, c < g.cols → UpTo (r, c) (i, j) → g'.data r c = g.data r c) →
      ∀ r c, r < g.rows → c < g.cols → UpTo (r, c) (i, j) →
        (applyErrorDiffusionDithering g').data r c = (applyErrorDiffusionDithering g).data r c) := by
  have hdata : ∀ (m : Mat ℚ) (r c : Nat), (r, c) ≠ (i, j) →
      (diffuseCell g.rows g.cols m i j).data r c =
        m.data r c + weight g.rows g.cols i j r c * quantErrorOf (m.data i j) := by
    intro m r c hne
    rw [diffuseCell_data, if_neg (fun h => hne (Prod.ext h.1 h.2))]
  refine ⟨hdata, fun r c h => weight_written_cells hi hj h, ?_, ?_⟩
  · intro m r c hne hnot
    have hw : weight g.rows g.cols i j r c = 0 := by
      by_contra h
      exact hnot (weight_written_cells hi hj h)
    rw [hdata m r c hne, hw]; ring
  · intro g' hrows hcols hagree r c hr hc hu
    rw [applyErrorDiffusionDithering_data, applyErrorDiffusionDithering_data, hrows, hcols]
    congr 1
    apply diffuse_prefix_agree g.rows g.cols _ _ hi hj _ r c hr hc hu
    intro a b ha hb hab
    simp only [Mat.convertTo]
    rw [hagree a ha b hb hab]

theorem errorDiffusion_forward_only_witness :
    (applyErrorDiffusionDithering sampleGridVariant).data 0 2 =
      (applyErrorDiffusionDithering sampleGrid).data 0 2 :=
  (errorDiffusion_forward_only sampleGrid 1 0 (by decide) (by decide)).2.2.2 sampleGridVariant
    rfl rfl (by decide) 0 2 (by decide) (by decide) (by decide)

/-! ## Gather form of the error diffusion -/

theorem takeWhile_ne_append {α : Type} [DecidableEq α] (l rest : List α) (x : α) (hx : x ∉ l) :
    (l ++ x :: rest).takeWhile (fun p => decide (p ≠ x)) = l := by
  induction l with
  | nil => simp [List.takeWhile]
  | cons a l ih =>
    have ha : a ≠ x := fun h => hx (h ▸ List.mem_cons_self _ _)
    have hl : x ∉ l := fun h => hx (List.mem_cons_of_mem _ h)
    rw [List.cons_append, List.takeWhile_cons, if_pos (by simpa using ha), ih hl]

theorem cellsBefore_of_split {rows cols : Nat} {l rest : List (Nat × Nat)} {p : Nat × Nat}
    (hs : scanOrder rows cols = l ++ p :: rest) : cellsBefore rows cols p.1 p.2 = l := by
  have hnd := nodup_scanOrder rows cols
  rw [hs] at hnd
  have hp : p ∉ l := fun h => (List.nodup_append.1 hnd).2.2 h (List.mem_cons_self _ _)
  unfold cellsBefore
  rw [hs]
  exact takeWhile_ne_append l rest p hp

/-- Scatter form as a sum: after the loops have processed a prefix `l` of the scan order, a cell
outside `l` holds its input plus the shares of the errors of the cells of `l`. -/
theorem diffuseList_prefix_sum (g : Mat Nat) (l : List (Nat × Nat)) :
    ∀ rest, scanOrder g.rows g.cols = l ++ rest → ∀ r c, (r, c) ∉ l →
      (diffuseList g.rows g.cols l (g.convertTo (fun v : Nat => (v : ℚ)))).data r c =
        (g.data r c : ℚ) +
          (l.map (fun s => weight g.rows g.cols s.1 s.2 r c * quantErrorAt g s.1 s.2)).sum := by
  induction l using List.reverseRecOn with
  | nil => intro rest _ r c _; simp [diffuseList, Mat.convertTo]
  | append_singleton l p ih =>
    intro rest hs r c hrc
    have hs' : scanOrder g.rows g.cols = l ++ p :: rest := by rw [hs]; simp
    have hcb := cellsBefore_of_split hs'
    have hrc1 : (r, c) ∉ l := fun h => hrc (List.mem_append_left _ h)
    have hne : ¬ (r = p.1 ∧ c = p.2) := by
      rintro ⟨rfl, rfl⟩
      exact hrc (List.mem_append_right _ (List.mem_singleton_self _))
    have hq : quantErrorAt g p.1 p.2 =
        quantErrorOf ((diffuseList g.rows g.cols l
          (g.convertTo (fun v : Nat => (v : ℚ)))).data p.1 p.2) := by
      unfold quantErrorAt oldPixelAt stateBefore
      rw [hcb]
    rw [diffuseList_snoc, diffuseCell_data, if_neg hne, ih (p :: rest) hs' r c hrc1,
      List.map_append, List.sum_append, ← hq]
    simp only [List.map_cons, List.map_nil, List.sum_cons, List.sum_nil, add_zero]
    ring

theorem sum_indicator_mul_zero {α : Type} (l : List α) (P : α → Prop) [DecidablePred P] (w : ℚ)
    (f : α → ℚ) (h : ∀ a ∈ l, ¬ P a) :
    (l.map (fun a => (if P a then w else 0) * f a)).sum = 0 := by
  induction l with
  | nil => rfl
  | cons a l ih =>
    rw [List.map_cons, List.sum_cons, if_neg (h a (List.mem_cons_self _ _)),
      ih (fun b hb => h b (List.mem_cons_of_mem _ hb))]
    ring

theorem sum_indicator_mul_single {α : Type} (l : List α) (hl : l.Nodup) (P : α → Prop)
    [DecidablePred P] (t : α) (ht : t ∈ l) (hP : ∀ a, P a ↔ a = t) (w : ℚ) (f : α → ℚ) :
    (l.map (fun a => (if P a then w else 0) * f a)).sum = w * f t := by
  induction l with
  | nil => simp at ht
  | cons a l ih =>
    rw [List.nodup_cons] at hl
    rw [List.map_cons, List.sum_cons]
    by_cases ha : a = t
    · subst ha
      rw [if_pos ((hP a).2 rfl), sum_indicator_mul_zero l P w f, add_zero]
      intro b hb hPb
      exact hl.1 ((hP b).1 hPb ▸ hb)
    · rw [if_neg (fun h => ha ((hP a).1 h)), zero_mul, zero_add]
      apply ih hl.2
      rcases List.mem_cons.1 ht with h | h
      · exact absurd h.symm ha
      · exact h

theorem errorAt_in (g : Mat Nat) {a b : Nat} (ha : a < g.rows) (hb : b < g.cols) :
    errorAt g (a : Int) (b : Int) = quantErrorAt g a b := by
  unfold errorAt
  rw [if_pos ⟨by omega, by omega, by omega, by omega⟩]
  simp

theorem errorAt_out (g : Mat Nat) {a b : Int}
    (h : ¬ (0 ≤ a ∧ a < g.rows ∧ 0 ≤ b ∧ b < g.cols)) : errorAt g a b = 0 := by
  unfold errorAt
  rw [if_neg h]

theorem gather_term_left (g : Mat Nat) {i j : Nat} (hi : i < g.rows) (hj : j < g.cols) :
    ((cellsBefore g.rows g.cols i j).map (fun s =>
      (if i = s.1 ∧ j = s.2 + 1 ∧ s.2 + 1 < g.cols then 7 / 16 else 0) *
        quantErrorAt g s.1 s.2)).sum = 7 / 16 * errorAt g (i : Int) ((j : Int) - 1) := by
  by_cases h0 : 0 < j
  · have e : ((j : Int) - 1) = ((j - 1 : Nat) : Int) := by omega
    rw [e, errorAt_in g hi (by omega)]
    exact sum_indicator_mul_single _ (nodup_cellsBefore _ _ _ _) _ (i, j - 1)
      ((mem_cellsBefore hi hj).2 ⟨⟨hi, by simp only; omega⟩, Or.inr ⟨rfl, by simp only; omega⟩⟩)
      (fun a => ⟨fun ha => Prod.ext ha.1.symm (by simp only; omega),
        fun ha => by subst ha; exact ⟨rfl, by simp only; omega, by simp only; omega⟩⟩) _
      (fun s => quantErrorAt g s.1 s.2)
  · rw [errorAt_out g (by omega), mul_zero]
    exact sum_indicator_mul_zero _ _ _ _ (fun a _ ha => h0 (by omega))

theorem gather_term_aboveRight (g : Mat Nat) {i j : Nat} (hi : i < g.rows) (hj : j < g.cols) :
    ((cellsBefore g.rows g.cols i j).map (fun s =>
      (if i = s.1 + 1 ∧ j + 1 = s.2 ∧ s.1 + 1 < g.rows then 3 / 16 else 0) *
        quantErrorAt g s.1 s.2)).sum = 3 / 16 * errorAt g ((i : Int) - 1) ((j : Int) + 1) := by
  by_cases h0 : 0 < i ∧ j + 1 < g.cols
  · have e1 : ((i : Int) - 1) = ((i - 1 : Nat) : Int) := by omega
    have e2 : ((j : Int) + 1) = ((j + 1 : Nat) : Int) := by omega
    rw [e1, e2, errorAt_in g (by omega) h0.2]
    exact sum_indicator_mul_single _ (nodup_cellsBefore _ _ _ _) _ (i - 1, j + 1)
      ((mem_cellsBefore hi hj).2 ⟨⟨by simp only; omega, h0.2⟩, Or.inl (by simp only; omega)⟩)
      (fun a => ⟨fun ha => Prod.ext (by simp only; omega) ha.2.1.symm,
        fun ha => by subst ha; exact ⟨by simp only; omega, rfl, by simp only; omega⟩⟩) _
      (fun s => quantErrorAt g s.1 s.2)
  · rw [errorAt_out g (by omega), mul_zero]
    apply sum_indicator_mul_zero
    intro a ha hPa
    have hin := mem_scanOrder.1 (mem_scanOrder_of_mem_cellsBefore ha)
    exact h0 ⟨by omega, by omega⟩

theorem gather_term_above (g : Mat Nat) {i j : Nat} (hi : i < g.rows) (hj : j < g.cols) :
    ((cellsBefore g.rows g.cols i j).map (fun s =>
      (if i = s.1 + 1 ∧ j = s.2 ∧ s.1 + 1 < g.rows then 5 / 16 else 0) *
        quantErrorAt g s.1 s.2)).sum = 5 / 16 * errorAt g ((i : Int) - 1) (j : Int) := by
  by_cases h0 : 0 < i
  · have e1 : ((i : Int) - 1) = ((i - 1 : Nat) : Int) := by omega
    rw [e1, errorAt_in g (by omega) hj]
    exact sum_indicator_mul_single _ (nodup_cellsBefore _ _ _ _) _ (i - 1, j)
      ((mem_cellsBefore hi hj).2 ⟨⟨by simp only; omega, hj⟩, Or.inl (by simp only; omega)⟩)
      (fun a => ⟨fun ha => Prod.ext (by simp only; omega) ha.2.1.symm,
        fun ha => by subst ha; exact ⟨by simp only; omega, rfl, by simp only; omega⟩⟩) _
      (fun s => quantErrorAt g s.1 s.2)
  · rw [errorAt_out g (by omega), mul_zero]
    exact sum_indicator_mul_zero _ _ _ _ (fun a _ ha => h0 (by omega))

theorem gather_term_aboveLeft (g : Mat Nat) {i j : Nat} (hi : i < g.rows) (hj : j < g.cols) :
    ((cellsBefore g.rows g.cols i j).map (fun s =>
      (if i = s.1 + 1 ∧ j = s.2 + 1 ∧ s.1 + 1 < g.rows ∧ s.2 + 1 < g.cols then 1 / 16 else 0) *
        quantErrorAt g s.1 s.2)).sum = 1 / 16 * errorAt g ((i : Int) - 1) ((j : Int) - 1) := by
  by_cases h0 : 0 < i ∧ 0 < j
  · have e1 : ((i : Int) - 1) = ((i - 1 : Nat) : Int) := by omega
    have e2 : ((j : Int) - 1) = ((j - 1 : Nat) : Int) := by omega
    rw [e1, e2, errorAt_in g (by omega) (by omega)]
    exact sum_indicator_mul_single _ (nodup_cellsBefore _ _ _ _) _ (i - 1, j - 1)
      ((mem_cellsBefore hi hj).2 ⟨⟨by simp only; omega, by simp only; omega⟩,
        Or.inl (by simp only; omega)⟩)
      (fun a => ⟨fun ha => Prod.ext (by simp only; omega) (by simp only; omega),
        fun ha => by subst ha; exact ⟨by simp only; omega, by simp only; omega,
          by simp only; omega, by simp only; omega⟩⟩) _
      (fun s => quantErrorAt g s.1 s.2)
  · rw [errorAt_out g (by omega), mul_zero]
    exact sum_indicator_mul_zero _ _ _ _ (fun a _ ha => h0 (by omega))

/-- The recurrence of the gather form holds for the values read by the loops. -/
theorem oldPixelAt_gather (g : Mat Nat) {i j : Nat} (hi : i < g.rows) (hj : j < g.cols) :
    oldPixelAt g i j = (g.data i j : ℚ) + 7 / 16 * errorAt g (i : Int) ((j : Int) - 1) +
      1 / 16 * errorAt g ((i : Int) - 1) ((j : Int) - 1) +
      5 / 16 * errorAt g ((i : Int) - 1) (j : Int) +
      3 / 16 * errorAt g ((i : Int) - 1) ((j : Int) + 1) := by
  obtain ⟨rest, hs⟩ := @scanOrder_split g.rows g.cols i j hi hj
  have h := diffuseList_prefix_sum g (cellsBefore g.rows g.cols i j) ((i, j) :: rest) hs i j
    (not_mem_cellsBefore _ _ _ _)
  unfold oldPixelAt stateBefore
  rw [h]
  simp only [weight, add_mul]
  rw [List.sum_map_add, List.sum_map_add, List.sum_map_add, gather_term_left g hi hj,
    gather_term_aboveRight g hi hj, gather_term_above g hi hj, gather_term_aboveLeft g hi hj]
  ring

theorem oldPixelAt_eq_gatherRow (g : Mat Nat) {i : Nat} (hi : i < g.rows) :
    ∀ j, j < g.cols →
      oldPixelAt g i j = gatherRow g i (fun b => errorAt g ((i : Int) - 1) b) j := by
  intro j
  induction j with
  | zero =>
    intro hj
    rw [oldPixelAt_gather g hi hj, errorAt_out g (a := (i : Int)) (b := ((0 : Nat) : Int) - 1)
      (by omega)]
    unfold gatherRow
    simp only [Nat.cast_zero]
    ring_nf
  | succ j ih =>
    intro hj
    have hj' : j < g.cols := by omega
    have e : ((j + 1 : Nat) : Int) - 1 = (j : Int) := by omega
    rw [oldPixelAt_gather g hi hj, e, errorAt_in g hi hj']
    unfold gatherRow
    rw [← ih hj']
    unfold quantErrorAt
    push_cast
    ring_nf

theorem oldPixelAt_eq_gatherValue (g : Mat Nat) :
    ∀ i, i < g.rows → ∀ j, j < g.cols → oldPixelAt g i j = gatherValue g i j := by
  intro i
  induction i with
  | zero =>
    intro hi j hj
    have e : (fun b => errorAt g (((0 : Nat) : Int) - 1) b) = (fun _ => (0 : ℚ)) := by
      funext b
      exact errorAt_out g (by omega)
    rw [oldPixelAt_eq_gatherRow g hi j hj, e]
    rfl
  | succ i ih =>
    intro hi j hj
    have hi' : i < g.rows := by omega
    rw [oldPixelAt_eq_gatherRow g hi j hj]
    unfold gatherValue
    congr 1
    funext b
    have e : ((i + 1 : Nat) : Int) - 1 = (i : Int) := by omega
    rw [e]
    by_cases hb : 0 ≤ b ∧ b < g.cols
    · have hbn : b.toNat < g.cols := by omega
      have eb : b = (b.toNat : Int) := by omega
      rw [if_pos hb, ← ih hi' b.toNat hbn]
      conv_lhs => rw [eb]
      rw [errorAt_in g hi' hbn]
      rfl
    · rw [if_neg hb]
      exact errorAt_out g (by omega)

theorem saturate_quantize (x : ℚ) :
    saturate_cast_uchar (quantize x) = if x > 127 then 255 else 0 := by
  unfold quantize
  split_ifs
  · exact saturate_cast_uchar_255
  · exact saturate_cast_uchar_zero

/-! ## The program entry and a zero block size -/

theorem main_zero_blockSize (reduce : Mat Vec3b → Int → Int → Mat Nat) (env : RunEnv)
    (hargc : 7 ≤ env.argc) (hbs : env.blockSizeArg = some 0) (t : Int)
    (ht : env.threshholdArg = some t) (hcap : env.capOpened = true)
    (himg : (env.blackImg.empty || env.whiteImg.empty) = false)
    (hwr : env.writerOpened = true) :
    main reduce env =
      match env.frames with
      | [] => RunResult.exit 0 []
      | _ :: _ => RunResult.fault Fault.divisionByZero := by
  unfold main
  rw [if_neg (by omega), hbs, ht]
  simp only [hcap, himg, hwr, Bool.not_true, Bool.false_eq_true, if_false]
  cases hf : env.frames with
  | nil => rfl
  | cons f rest =>
    simp only [processAll, processFrame, if_true]

/-- C11 fails on the code: with block size 0, `main` reports no configuration error; it calls
`processFrame` on the first frame, which evaluates `frame.rows / blockSize` with
`blockSize = 0`. -/
theorem main_zero_blockSize_divides_by_zero :
    main sampleReduce zeroBlockRun = RunResult.fault Fault.divisionByZero ∧
    processFrame sampleReduce sampleFrame 0 128 (solidImage 2 2 (0, 0, 0))
      (solidImage 2 2 (255, 255, 255)) 0 = Except.error Fault.divisionByZero := by
  constructor
  · exact main_zero_blockSize sampleReduce zeroBlockRun (by decide) rfl 128 rfl rfl rfl rfl
  · rfl

/-! ## The error diffusion with rounded arithmetic -/

theorem diffuseCellWith_id (rows cols : Nat) (m : Mat ℚ) (i j : Nat) :
    diffuseCellWith id rows cols m i j = diffuseCell rows cols m i j := rfl

theorem Mat.addAtWith_data (fl : ℚ → ℚ) (m : Mat ℚ) (i j : Nat) (d : ℚ) (r c : Nat) :
    (m.addAtWith fl i j d).data r c = if r = i ∧ c = j then fl (m.data r c + d) else m.data r c := by
  unfold Mat.addAtWith
  rw [Mat.set_data]
  split_ifs with h
  · rw [h.1, h.2]
  · rfl

set_option maxHeartbeats 1000000 in
theorem diffuseCellWith_data (fl : ℚ → ℚ) (rows cols : Nat) (m : Mat ℚ) (i j r c : Nat) :
    (diffuseCellWith fl rows cols m i j).data r c =
      if r = i ∧ c = j then quantize (m.data i j)
      else if weight rows cols i j r c = 0 then m.data r c
      else fl (m.data r c + shareOf fl (fl (m.data i j - quantize (m.data i j)))
        (16 * weight rows cols i j r c)) := by
  have n7 : (16 : ℚ) * (7 / 16 + 0 + 0 + 0) = 7 := by norm_num
  have n3 : (16 : ℚ) * (0 + 3 / 16 + 0 + 0) = 3 := by norm_num
  have n5 : (16 : ℚ) * (0 + 0 + 5 / 16 + 0) = 5 := by norm_num
  have n1 : (16 : ℚ) * (0 + 0 + 0 + 1 / 16) = 1 := by norm_num
  have z7 : ¬ ((7 : ℚ) / 16 + 0 + 0 + 0 = 0) := by norm_num
  have z3 : ¬ ((0 : ℚ) + 3 / 16 + 0 + 0 = 0) := by norm_num
  have z5 : ¬ ((0 : ℚ) + 0 + 5 / 16 + 0 = 0) := by norm_num
  have z1 : ¬ ((0 : ℚ) + 0 + 0 + 1 / 16 = 0) := by norm_num
  have z0 : (0 : ℚ) + 0 + 0 + 0 = 0 := by norm_num
  by_cases h1 : j + 1 < cols <;> by_cases h2 : i + 1 < rows <;> by_cases h3 : j > 0 <;>
    simp only [diffuseCellWith, weight, shareOf, h1, h2, h3, if_true, if_false,
      and_true, and_false, Mat.addAtWith_data, Mat.set_data] <;>
    by_cases e1 : r = i <;> by_cases e2 : r = i + 1 <;> by_cases e3 : c = j <;>
    by_cases e4 : c = j + 1 <;> by_cases e5 : c + 1 = j <;>
    first
      | omega
      | (simp only [e1, e2, e3, e4, e5, if_true, if_false, and_true, and_false, true_and,
          false_and, and_self, n7, n3, n5, n1, z7, z3, z5, z1, z0, not_false_eq_true]
         done)
      | (simp only [e1, e2, e3, e4, e5, if_true, if_false, and_true, and_false, true_and,
          false_and, and_self, n7, n3, n5, n1, z7, z3, z5, z1, z0, not_false_eq_true]
         split_ifs <;> first | omega | simp only [n7, n3, n5, n1])

theorem diffuseCellWith_before (fl : ℚ → ℚ) (rows cols : Nat) (m : Mat ℚ) {i j r c : Nat}
    (h : Before (r, c) (i, j)) : (diffuseCellWith fl rows cols m i j).data r c = m.data r c := by
  have hne : ¬ (r = i ∧ c = j) := by
    unfold Before at h; simp only at h; omega
  have hw : weight rows cols i j r c = 0 := by
    apply weight_eq_zero_of_not_after
    unfold Before at h ⊢; simp only at h ⊢; omega
  rw [diffuseCellWith_data, if_neg hne, if_pos hw]

theorem diffuseListWith_append (fl : ℚ → ℚ) (rows cols : Nat) (l₁ l₂ : List (Nat × Nat))
    (m : Mat ℚ) :
    diffuseListWith fl rows cols (l₁ ++ l₂) m =
      diffuseListWith fl rows cols l₂ (diffuseListWith fl rows cols l₁ m) := by
  unfold diffuseListWith
  rw [List.foldl_append]

theorem diffuseListWith_snoc (fl : ℚ → ℚ) (rows cols : Nat) (l : List (Nat × Nat))
    (p : Nat × Nat) (m : Mat ℚ) :
    diffuseListWith fl rows cols (l ++ [p]) m =
      diffuseCellWith fl rows cols (diffuseListWith fl rows cols l m) p.1 p.2 := by
  rw [diffuseListWith_append]; rfl

theorem diffuseAllWith_eq_diffuseListWith (fl : ℚ → ℚ) (rows cols : Nat) (m : Mat ℚ) :
    diffuseAllWith fl rows cols m = diffuseListWith fl rows cols (scanOrder rows cols) m := by
  unfold diffuseAllWith diffuseListWith
  exact forCells_eq_foldl _ _ _ _

theorem diffuseListWith_before (fl : ℚ → ℚ) (rows cols : Nat) (l : List (Nat × Nat))
    (m : Mat ℚ) {r c : Nat} (h : ∀ p ∈ l, Before (r, c) p) :
    (diffuseListWith fl rows cols l m).data r c = m.data r c := by
  induction l using List.reverseRecOn with
  | nil => rfl
  | append_singleton l p ih =>
    rw [diffuseListWith_snoc, diffuseCellWith_before _ _ _ _ (h p (by simp))]
    exact ih (fun q hq => h q (List.mem_append_left _ hq))

/-- The final rounded working image holds at `(i, j)` the value quantized when the loops
reached it. -/
theorem diffuseAllWith_data_eq_quantize (fl : ℚ → ℚ) (g : Mat Nat) {i j : Nat}
    (hi : i < g.rows) (hj : j < g.cols) :
    (diffuseAllWith fl g.rows g.cols (g.convertTo (fun v : Nat => (v : ℚ)))).data i j =
      quantize (oldPixelAtWith fl g i j) := by
  obtain ⟨rest, hs⟩ := @scanOrder_split g.rows g.cols i j hi hj
  rw [diffuseAllWith_eq_diffuseListWith, hs, diffuseListWith_append]
  have e : diffuseListWith fl g.rows g.cols ((i, j) :: rest)
      (diffuseListWith fl g.rows g.cols (cellsBefore g.rows g.cols i j)
        (g.convertTo (fun v : Nat => (v : ℚ)))) =
      diffuseListWith fl g.rows g.cols rest
        (diffuseCellWith fl g.rows g.cols (stateBeforeWith fl g i j) i j) := rfl
  rw [e, diffuseListWith_before _ _ _ _ _ (after_of_split hs), diffuseCellWith_data,
    if_pos ⟨rfl, rfl⟩]
  rfl

theorem applyErrorDiffusionDitheringF32_data (g : Mat Nat) {i j : Nat} (hi : i < g.rows)
    (hj : j < g.cols) :
    (applyErrorDiffusionDitheringF32 g).data i j =
      if oldPixelAtWith roundBinary32 g i j > 127 then 255 else 0 := by
  unfold applyErrorDiffusionDitheringF32
  simp only [Mat.convertTo]
  have h := diffuseAllWith_data_eq_quantize roundBinary32 g hi hj
  simp only [Mat.convertTo] at h
  rw [h, saturate_quantize]

/-- Scatter form with rounding: after the loops have processed a prefix `l` of the scan order, a
cell outside `l` holds its input with the shares of the cells of `l` added one by one, in scan
order, each sum rounded. -/
theorem diffuseListWith_prefix_fold (fl : ℚ → ℚ) (g : Mat Nat) (l : List (Nat × Nat)) :
    ∀ rest, scanOrder g.rows g.cols = l ++ rest → ∀ r c, (r, c) ∉ l →
      (diffuseListWith fl g.rows g.cols l (g.convertTo (fun v : Nat => (v : ℚ)))).data r c =
        l.foldl (receive fl g.rows g.cols (quantErrorAtWith fl g) r c) (g.data r c : ℚ) := by
  induction l using List.reverseRecOn with
  | nil => intro rest _ r c _; rfl
  | append_singleton l p ih =>
    intro rest hs r c hrc
    have hs' : scanOrder g.rows g.cols = l ++ p :: rest := by rw [hs]; simp
    have hcb := cellsBefore_of_split hs'
    have hrc1 : (r, c) ∉ l := fun h => hrc (List.mem_append_left _ h)
    have hne : ¬ (r = p.1 ∧ c = p.2) := by
      rintro ⟨rfl, rfl⟩
      exact hrc (List.mem_append_right _ (List.mem_singleton_self _))
    have hq : quantErrorAtWith fl g p.1 p.2 =
        fl ((diffuseListWith fl g.rows g.cols l
            (g.convertTo (fun v : Nat => (v : ℚ)))).data p.1 p.2 -
          quantize ((diffuseListWith fl g.rows g.cols l
            (g.convertTo (fun v : Nat => (v : ℚ)))).data p.1 p.2)) := by
      unfold quantErrorAtWith oldPixelAtWith stateBeforeWith
      rw [hcb]
    rw [diffuseListWith_snoc, diffuseCellWith_data, if_neg hne, ih (p :: rest) hs' r c hrc1,
      List.foldl_append, List.foldl_cons, List.foldl_nil, ← hq,
      ← ih (p :: rest) hs' r c hrc1]
    unfold receive
    rw [ih (p :: rest) hs' r c hrc1]

theorem foldl_filter_of_id {α σ : Type} (f : σ → α → σ) (P : α → Bool) (l : List α)
    (h : ∀ a ∈ l, P a = false → ∀ x, f x a = x) (x : σ) :
    l.foldl f x = (l.filter P).foldl f x := by
  induction l generalizing x with
  | nil => rfl
  | cons a l ih =>
    have ih' := ih (fun b hb => h b (List.mem_cons_of_mem _ hb))
    by_cases hP : P a = true
    · rw [List.filter_cons_of_pos hP, List.foldl_cons, List.foldl_cons, ih']
    · have hP' : P a = false := by simpa using hP
      rw [List.filter_cons_of_neg hP, List.foldl_cons, h a (List.mem_cons_self _ _) hP' x, ih']

theorem mem_sourcesOf {cols i j : Nat} {s : Nat × Nat} :
    s ∈ sourcesOf cols i j ↔
      (0 < i ∧ 0 < j ∧ s = (i - 1, j - 1)) ∨ (0 < i ∧ s = (i - 1, j)) ∨
      (0 < i ∧ j + 1 < cols ∧ s = (i - 1, j + 1)) ∨ (0 < j ∧ s = (i, j - 1)) := by
  unfold sourcesOf
  by_cases h1 : 0 < i <;> by_cases h2 : 0 < j <;> by_cases h3 : j + 1 < cols <;>
    simp [h1, h2, h3]

theorem weight_ne_zero_iff {rows cols i j : Nat} (hi : i < rows) (hj : j < cols)
    (s : Nat × Nat) (hs : s.2 < cols) :
    weight rows cols s.1 s.2 i j ≠ 0 ↔ s ∈ sourcesOf cols i j := by
  rw [mem_sourcesOf]
  obtain ⟨a, b⟩ := s
  simp only [Prod.mk.injEq]
  unfold weight
  constructor
  · intro h
    split_ifs at h <;> first | omega | (exfalso; exact h (by norm_num))
  · intro h
    split_ifs <;> first | omega | norm_num

theorem sourcesOf_subset {rows cols i j : Nat} (hi : i < rows) (hj : j < cols) {s : Nat × Nat}
    (hs : s ∈ sourcesOf cols i j) : s ∈ cellsBefore rows cols i j := by
  rw [mem_cellsBefore hi hj]
  rw [mem_sourcesOf] at hs
  unfold Before
  rcases hs with ⟨h1, h2, rfl⟩ | ⟨h1, rfl⟩ | ⟨h1, h2, rfl⟩ | ⟨h1, rfl⟩
  · exact ⟨⟨by simp only; omega, by simp only; omega⟩, Or.inl (by simp only; omega)⟩
  · exact ⟨⟨by simp only; omega, hj⟩, Or.inl (by simp only; omega)⟩
  · exact ⟨⟨by simp only; omega, h2⟩, Or.inl (by simp only; omega)⟩
  · exact ⟨⟨hi, by simp only; omega⟩, Or.inr ⟨rfl, by simp only; omega⟩⟩

theorem pairwise_sourcesOf (cols i j : Nat) : (sourcesOf cols i j).Pairwise Before := by
  unfold sourcesOf Before
  by_cases h1 : 0 < i <;> by_cases h2 : 0 < j <;> by_cases h3 : j + 1 < cols <;>
    first
      | (simp [h1, h2, h3]; done)
      | (simp [h1, h2, h3]; omega)

theorem before_irrefl (a : Nat × Nat) : ¬ Before a a := by
  unfold Before
  omega

theorem nodup_of_pairwise_before {l : List (Nat × Nat)} (h : l.Pairwise Before) : l.Nodup :=
  List.Pairwise.imp (fun {a b} (hab : Before a b) (e : a = b) => by
    subst e
    exact before_irrefl a hab) h

theorem filter_cellsBefore_sources {rows cols i j : Nat} (hi : i < rows) (hj : j < cols) :
    (cellsBefore rows cols i j).filter (fun s => decide (s ∈ sourcesOf cols i j)) =
      sourcesOf cols i j := by
  haveI : IsAntisymm (Nat × Nat) Before :=
    ⟨fun a b h1 h2 => by unfold Before at h1 h2; exfalso; omega⟩
  have hsorted : (cellsBefore rows cols i j).Pairwise Before :=
    (pairwise_before_scanOrder rows cols).sublist (List.takeWhile_sublist _)
  apply List.eq_of_perm_of_sorted _ (hsorted.filter _) (pairwise_sourcesOf cols i j)
  rw [List.perm_ext_iff_of_nodup ((nodup_cellsBefore rows cols i j).filter _)
    (nodup_of_pairwise_before (pairwise_sourcesOf cols i j))]
  intro s
  simp only [List.mem_filter, decide_eq_true_eq]
  exact ⟨fun h => h.2, fun h => ⟨sourcesOf_subset hi hj h, h⟩⟩

/-- The value read at `(i, j)` is its input with the shares of its sources added in scan order. -/
theorem oldPixelAtWith_eq_fold (fl : ℚ → ℚ) (g : Mat Nat) {i j : Nat} (hi : i < g.rows)
    (hj : j < g.cols) :
    oldPixelAtWith fl g i j =
      (sourcesOf g.cols i j).foldl (receive fl g.rows g.cols (quantErrorAtWith fl g) i j)
        (g.data i j : ℚ) := by
  obtain ⟨rest, hs⟩ := @scanOrder_split g.rows g.cols i j hi hj
  have h := diffuseListWith_prefix_fold fl g (cellsBefore g.rows g.cols i j) ((i, j) :: rest) hs
    i j (not_mem_cellsBefore _ _ _ _)
  unfold oldPixelAtWith stateBeforeWith
  rw [h, foldl_filter_of_id _ (fun s => decide (s ∈ sourcesOf g.cols i j)),
    filter_cellsBefore_sources hi hj]
  intro s hmem hs x
  have hin := mem_scanOrder.1 (mem_scanOrder_of_mem_cellsBefore hmem)
  have hw : weight g.rows g.cols s.1 s.2 i j = 0 := by
    by_contra hne
    have := (weight_ne_zero_iff hi hj s hin.2).1 hne
    simp [this] at hs
  unfold receive
  rw [if_pos hw]

theorem receive_of_weight (fl : ℚ → ℚ) {rows cols : Nat} (E : Nat → Nat → ℚ) {r c : Nat} (x : ℚ)
    {a b : Nat} {k : ℚ} (hk : k ≠ 0) (hw : weight rows cols a b r c = k / 16) :
    receive fl rows cols E r c x (a, b) = fl (x + shareOf fl (E a b) k) := by
  unfold receive
  simp only
  rw [hw, if_neg (by intro h; apply hk; linarith)]
  congr 3
  ring

theorem weight_sources {rows cols i j : Nat} (hi : i < rows) (hj : j < cols) :
    (0 < i ∧ 0 < j → weight rows cols (i - 1) (j - 1) i j = 1 / 16) ∧
    (0 < i → weight rows cols (i - 1) j i j = 5 / 16) ∧
    (0 < i ∧ j + 1 < cols → weight rows cols (i - 1) (j + 1) i j = 3 / 16) ∧
    (0 < j → weight rows cols i (j - 1) i j = 7 / 16) := by
  unfold weight
  refine ⟨fun h => ?_, fun h => ?_, fun h => ?_, fun h => ?_⟩ <;>
    split_ifs <;> first | omega | norm_num

/-- Gather form with rounding, for any rounding `fl`. -/
theorem oldPixelAtWith_gather (fl : ℚ → ℚ) (g : Mat Nat) {i j : Nat} (hi : i < g.rows)
    (hj : j < g.cols) :
    oldPixelAtWith fl g i j =
      gatherStep fl (0 < j) (quantErrorAtWith fl g i (j - 1)) 7
        (gatherStep fl (0 < i ∧ j + 1 < g.cols) (quantErrorAtWith fl g (i - 1) (j + 1)) 3
          (gatherStep fl (0 < i) (quantErrorAtWith fl g (i - 1) j) 5
            (gatherStep fl (0 < i ∧ 0 < j) (quantErrorAtWith fl g (i - 1) (j - 1)) 1
              (g.data i j : ℚ)))) := by
  obtain ⟨w1, w5, w3, w7⟩ := @weight_sources g.rows g.cols i j hi hj
  rw [oldPixelAtWith_eq_fold fl g hi hj]
  unfold sourcesOf gatherStep
  by_cases h1 : 0 < i <;> by_cases h2 : 0 < j <;> by_cases h3 : j + 1 < g.cols <;>
    simp only [h1, h2, h3, and_self, and_true, and_false, true_and, false_and, if_true,
      if_false, List.append_nil, List.nil_append, List.singleton_append, List.cons_append,
      List.foldl_cons, List.foldl_nil] <;>
    (try rw [receive_of_weight fl _ _ (by norm_num : (1 : ℚ) ≠ 0) (w1 ⟨h1, h2⟩)]) <;>
    (try rw [receive_of_weight fl _ _ (by norm_num : (5 : ℚ) ≠ 0) (w5 h1)]) <;>
    (try rw [receive_of_weight fl _ _ (by norm_num : (3 : ℚ) ≠ 0) (w3 ⟨h1, h3⟩)]) <;>
    (try rw [receive_of_weight fl _ _ (by norm_num : (7 : ℚ) ≠ 0) (w7 h2)])

theorem cvRound_abs_sub_le (y : ℚ) : |(cvRound y : ℚ) - y| ≤ 1 / 2 := by
  have h1 := Int.floor_le y
  have h2 := Int.lt_floor_add_one y
  unfold cvRound
  simp only
  rw [abs_le]
  split_ifs with a b c <;> push_cast <;> constructor <;> linarith

/-- The value `roundBinary32 x` once the exponent `e` of `x` is known. -/
theorem roundBinary32_eval (x y : ℚ) (e : Int) (he : -126 ≤ e) (h1 : (2 : ℚ) ^ e ≤ |x|)
    (h2 : |x| < (2 : ℚ) ^ (e + 1))
    (h3 : (cvRound (x / (2 : ℚ) ^ (e - 23)) : ℚ) * (2 : ℚ) ^ (e - 23) = y) :
    roundBinary32 x = y := by
  have hpos : 0 < |x| := lt_of_lt_of_le (by positivity) h1
  have hx : x ≠ 0 := abs_pos.1 hpos
  have hlog : Int.log 2 |x| = e := by
    have a1 : e ≤ Int.log 2 |x| := (Int.zpow_le_iff_le_log (by norm_num) hpos).1 (by exact_mod_cast h1)
    have a2 : Int.log 2 |x| < e + 1 := (Int.lt_zpow_iff_log_lt (by norm_num) hpos).1 (by exact_mod_cast h2)
    omega
  unfold roundBinary32
  rw [if_neg hx]
  simp only [hlog, max_eq_left he]
  exact h3

/-- Relative error of the rounding to binary32: at most `2 ^ (-24)` of the value, plus at most
`2 ^ (-150)` in the subnormal range. -/
theorem roundBinary32_error (x : ℚ) :
    |roundBinary32 x - x| ≤ |x| / 2 ^ 24 + 1 / 2 ^ 150 := by
  by_cases hx : x = 0
  · subst hx
    simp [roundBinary32]
  · have hpos : 0 < |x| := abs_pos.2 hx
    unfold roundBinary32
    rw [if_neg hx]
    simp only
    have hQ : (0 : ℚ) < (2 : ℚ) ^ (max (Int.log 2 |x|) (-126) - 23) := by positivity
    have hr := cvRound_abs_sub_le (x / (2 : ℚ) ^ (max (Int.log 2 |x|) (-126) - 23))
    have e1 : (cvRound (x / (2 : ℚ) ^ (max (Int.log 2 |x|) (-126) - 23)) : ℚ) *
        (2 : ℚ) ^ (max (Int.log 2 |x|) (-126) - 23) - x =
        ((cvRound (x / (2 : ℚ) ^ (max (Int.log 2 |x|) (-126) - 23)) : ℚ) -
          x / (2 : ℚ) ^ (max (Int.log 2 |x|) (-126) - 23)) *
        (2 : ℚ) ^ (max (Int.log 2 |x|) (-126) - 23) := by
      field_simp
    rw [e1, abs_mul, abs_of_pos hQ]
    have hle : (2 : ℚ) ^ (max (Int.log 2 |x|) (-126) - 23) / 2 ≤ |x| / 2 ^ 24 + 1 / 2 ^ 150 := by
      rcases le_total (Int.log 2 |x|) (-126) with h | h
      · rw [max_eq_right h]
        have : (2 : ℚ) ^ ((-126 : Int) - 23) / 2 = 1 / 2 ^ 150 := by norm_num
        rw [this]
        have : (0 : ℚ) ≤ |x| / 2 ^ 24 := by positivity
        linarith
      · rw [max_eq_left h]
        have hz : (2 : ℚ) ^ (Int.log 2 |x|) ≤ |x| := by
          have := Int.zpow_log_le_self (b := 2) (r := |x|) (by norm_num) hpos
          exact_mod_cast this
        have e2 : (2 : ℚ) ^ (Int.log 2 |x| - 23) = (2 : ℚ) ^ (Int.log 2 |x|) / 2 ^ 23 := by
          rw [zpow_sub₀ (by norm_num : (2 : ℚ) ≠ 0)]
          norm_num
        rw [e2]
        have : (0 : ℚ) ≤ 1 / 2 ^ 150 := by positivity
        have e3 : (2 : ℚ) ^ (Int.log 2 |x|) / 2 ^ 23 / 2 = (2 : ℚ) ^ (Int.log 2 |x|) / 2 ^ 24 := by
          ring
        rw [e3]
        have : (2 : ℚ) ^ (Int.log 2 |x|) / 2 ^ 24 ≤ |x| / 2 ^ 24 :=
          div_le_div_of_nonneg_right hz (by positivity)
        linarith
    calc |(cvRound (x / (2 : ℚ) ^ (max (Int.log 2 |x|) (-126) - 23)) : ℚ) -
            x / (2 : ℚ) ^ (max (Int.log 2 |x|) (-126) - 23)| *
          (2 : ℚ) ^ (max (Int.log 2 |x|) (-126) - 23)
        ≤ 1 / 2 * (2 : ℚ) ^ (max (Int.log 2 |x|) (-126) - 23) :=
          mul_le_mul_of_nonneg_right hr hQ.le
      _ = (2 : ℚ) ^ (max (Int.log 2 |x|) (-126) - 23) / 2 := by ring
      _ ≤ |x| / 2 ^ 24 + 1 / 2 ^ 150 := hle

/-- With no rounding the values read are those of the exact model. -/
theorem oldPixelAtWith_id (g : Mat Nat) (i j : Nat) :
    oldPixelAtWith id g i j = oldPixelAt g i j := rfl

theorem quantErrorAtWith_id (g : Mat Nat) (i j : Nat) :
    quantErrorAtWith id g i j = quantErrorAt g i j := rfl

/-- The first cell of the scan reads the input value. -/
theorem firstRow_start (fl : ℚ → ℚ) (g : Mat Nat) (h0 : 0 < g.rows) (hj : 0 < g.cols) :
    oldPixelAtWith fl g 0 0 = (g.data 0 0 : ℚ) := by
  rw [oldPixelAtWith_gather fl g h0 hj]
  simp [gatherStep]

/-- One step along the first row: from the value read at `(0, j)` to the error computed there
and the value read at `(0, j + 1)`, through the four operations of the code. -/
theorem firstRow_next (fl : ℚ → ℚ) (g : Mat Nat) {j : Nat} (h0 : 0 < g.rows)
    (hj : j + 1 < g.cols) {v e a s w : ℚ} {d : Nat}
    (hv : oldPixelAtWith fl g 0 j = v) (r1 : fl (v - quantize v) = e) (r2 : fl (e * 7) = a)
    (r3 : fl (a / 16) = s) (hd : g.data 0 (j + 1) = d) (r4 : fl ((d : ℚ) + s) = w) :
    quantErrorAtWith fl g 0 j = e ∧ oldPixelAtWith fl g 0 (j + 1) = w := by
  have he : quantErrorAtWith fl g 0 j = e := by
    unfold quantErrorAtWith
    rw [hv, r1]
  refine ⟨he, ?_⟩
  rw [oldPixelAtWith_gather fl g h0 hj]
  simp only [gatherStep, Nat.lt_irrefl, false_and, if_false, Nat.succ_pos, if_true,
    Nat.add_sub_cancel, shareOf, he, r2, r3, hd, r4]

theorem stateAfterWith_data (fl : ℚ → ℚ) (g : Mat Nat) (i j r c : Nat) :
    (stateAfterWith fl g i j).data r c =
      if r = i ∧ c = j then quantize (oldPixelAtWith fl g i j)
      else if weight g.rows g.cols i j r c = 0 then (stateBeforeWith fl g i j).data r c
      else fl ((stateBeforeWith fl g i j).data r c +
        shareOf fl (quantErrorAtWith fl g i j) (16 * weight g.rows g.cols i j r c)) :=
  diffuseCellWith_data fl g.rows g.cols (stateBeforeWith fl g i j) i j r c

/-- A cell that receives a share of weight `k / 16`. -/
theorem stateAfterWith_neighbour (fl : ℚ → ℚ) (g : Mat Nat) {i j r c : Nat} {k : ℚ}
    (hk : k ≠ 0) (hw : weight g.rows g.cols i j r c = k / 16) :
    (stateAfterWith fl g i j).data r c =
      fl ((stateBeforeWith fl g i j).data r c + shareOf fl (quantErrorAtWith fl g i j) k) := by
  have hne : ¬ (r = i ∧ c = j) := by
    rintro ⟨rfl, rfl⟩
    have : weight g.rows g.cols r c r c = 0 :=
      weight_eq_zero_of_not_after (by unfold Before; simp)
    rw [this] at hw
    apply hk
    linarith
  rw [stateAfterWith_data, if_neg hne, hw, if_neg (by intro h; apply hk; linarith)]
  congr 3
  ring

/-- A cell that is neither `(i, j)` nor one of its four neighbours keeps its value. -/
theorem stateAfterWith_other (fl : ℚ → ℚ) (g : Mat Nat) {i j r c : Nat}
    (h : (r, c) ∉ [(i, j), (i, j + 1), (i + 1, j - 1), (i + 1, j), (i + 1, j + 1)]) :
    (stateAfterWith fl g i j).data r c = (stateBeforeWith fl g i j).data r c := by
  simp only [List.mem_cons, Prod.mk.injEq, List.mem_singleton, not_or, List.not_mem_nil,
    or_false] at h
  obtain ⟨h0, h1, h2, h3, h4⟩ := h
  have hw : weight g.rows g.cols i j r c = 0 := by
    unfold weight
    rw [if_neg (fun a => h1 ⟨a.1, a.2.1⟩), if_neg (fun a => h2 ⟨a.1, by omega⟩),
      if_neg (fun a => h3 ⟨a.1, a.2.1⟩), if_neg (fun a => h4 ⟨a.1, a.2.1⟩)]
    norm_num
  rw [stateAfterWith_data, if_neg h0, if_pos hw]

/-- Weights met by a first-column cell that is on neither the last row nor the last column. -/
theorem weight_neighbours_first_column {rows cols i : Nat} (hi : i + 1 < rows)
    (hj : 0 + 1 < cols) :
    weight rows cols i 0 i 1 = 7 / 16 ∧ weight rows cols i 0 (i + 1) 0 = 5 / 16 ∧
    weight rows cols i 0 (i + 1) 1 = 1 / 16 := by
  unfold weight
  refine ⟨?_, ?_, ?_⟩ <;> split_ifs <;> first | omega | tauto | norm_num

/-- Rounding error of one share `quantError * k / 16` computed in binary32. -/
theorem shareOf_error (q k : ℚ) (hk : 0 ≤ k) :
    |shareOf roundBinary32 q k - q * k / 16| ≤
      |q| * k / 16 * (2 / 2 ^ 24 + 1 / 2 ^ 48) + (17 / 16 + 1 / 2 ^ 28) / 2 ^ 150 := by
  unfold shareOf
  have h1 := roundBinary32_error (q * k)
  have h2 := roundBinary32_error (roundBinary32 (q * k) / 16)
  have hqk : |q * k| = |q| * k := by rw [abs_mul, abs_of_nonneg hk]
  rw [hqk] at h1
  have h3 : |roundBinary32 (q * k) / 16| = |roundBinary32 (q * k)| / 16 := by
    rw [abs_div]; norm_num
  rw [h3] at h2
  have h4 : |roundBinary32 (q * k)| ≤ |q| * k + |roundBinary32 (q * k) - q * k| := by
    have := abs_add (roundBinary32 (q * k) - q * k) (q * k)
    rw [sub_add_cancel, hqk] at this
    linarith
  have h5 : |roundBinary32 (roundBinary32 (q * k) / 16) - q * k / 16| ≤
      |roundBinary32 (roundBinary32 (q * k) / 16) - roundBinary32 (q * k) / 16| +
        |roundBinary32 (q * k) - q * k| / 16 := by
    have := abs_add (roundBinary32 (roundBinary32 (q * k) / 16) - roundBinary32 (q * k) / 16)
      (roundBinary32 (q * k) / 16 - q * k / 16)
    have e : roundBinary32 (q * k) / 16 - q * k / 16 = (roundBinary32 (q * k) - q * k) / 16 := by
      ring
    rw [e, abs_div] at this
    have e16 : |(16 : ℚ)| = 16 := by norm_num
    rw [e16] at this
    have e2 : roundBinary32 (roundBinary32 (q * k) / 16) - roundBinary32 (q * k) / 16 +
        (roundBinary32 (q * k) - q * k) / 16 =
        roundBinary32 (roundBinary32 (q * k) / 16) - q * k / 16 := by ring
    rw [e2] at this
    exact this
  have hA : 0 ≤ |q| * k := mul_nonneg (abs_nonneg q) hk
  nlinarith [h1, h2, h4, h5, hA]

/-- The four shares computed in binary32 add up to `quantError` up to rounding. -/
theorem shares_sum_error (q : ℚ) :
    |shareOf roundBinary32 q 7 + shareOf roundBinary32 q 3 + shareOf roundBinary32 q 5 +
      shareOf roundBinary32 q 1 - q| ≤ |q| / 2 ^ 22 + 1 / 2 ^ 146 := by
  have h7 := abs_le.1 (shareOf_error q 7 (by norm_num))
  have h3 := abs_le.1 (shareOf_error q 3 (by norm_num))
  have h5 := abs_le.1 (shareOf_error q 5 (by norm_num))
  have h1 := abs_le.1 (shareOf_error q 1 (by norm_num))
  have hq := abs_nonneg q
  rw [abs_le]
  constructor <;> linarith [h7.1, h7.2, h3.1, h3.2, h5.1, h5.2, h1.1, h1.2]

/-- The three shares of a first-column cell add up to 13/16 of `quantError` up to rounding. -/
theorem shares_sum_error_first_column (q : ℚ) :
    |shareOf roundBinary32 q 7 + shareOf roundBinary32 q 5 + shareOf roundBinary32 q 1 -
      13 / 16 * q| ≤ |q| / 2 ^ 22 + 1 / 2 ^ 146 := by
  have h7 := abs_le.1 (shareOf_error q 7 (by norm_num))
  have h5 := abs_le.1 (shareOf_error q 5 (by norm_num))
  have h1 := abs_le.1 (shareOf_error q 1 (by norm_num))
  have hq := abs_nonneg q
  rw [abs_le]
  constructor <;> linarith [h7.1, h7.2, h5.1, h5.2, h1.1, h1.2]

/-- A share once its two roundings are known. -/
theorem shareOf_eval (fl : ℚ → ℚ) {q k a s : ℚ} (r1 : fl (q * k) = a) (r2 : fl (a / 16) = s) :
    shareOf fl q k = s := by
  unfold shareOf
  rw [r1, r2]

/-! ## Concrete runs in binary32 -/

/-- Values of the binary32 run on `roundingRow`. -/
theorem roundingRow_binary32 :
    quantErrorAtWith roundBinary32 roundingRow 0 4 = 3370423 / 32768 ∧
    oldPixelAtWith roundBinary32 roundingRow 0 5 = 127 := by
  have cv0 : oldPixelAtWith roundBinary32 roundingRow 0 0 = 14 := by
    rw [firstRow_start roundBinary32 roundingRow (by decide) (by decide)]
    norm_num [roundingRow, Mat.ofRows]
  have cs0 : quantErrorAtWith roundBinary32 roundingRow 0 0 = 14 ∧ oldPixelAtWith roundBinary32 roundingRow 0 1 = 801 / 8 :=
    @firstRow_next roundBinary32 roundingRow 0 (by decide) (by decide) (14) (14) (98) (49 / 8) (801 / 8) 94 cv0
      (roundBinary32_eval _ _ 3 (by norm_num) (by norm_num [abs_of_pos, quantize])
        (by norm_num [abs_of_pos, quantize]) (by norm_num [cvRound, quantize]))
      (roundBinary32_eval _ _ 6 (by norm_num) (by norm_num [abs_of_pos, quantize])
        (by norm_num [abs_of_pos, quantize]) (by norm_num [cvRound, quantize]))
      (roundBinary32_eval _ _ 2 (by norm_num) (by norm_num [abs_of_pos, quantize])
        (by norm_num [abs_of_pos, quantize]) (by norm_num [cvRound, quantize]))
      (by decide)
      (roundBinary32_eval _ _ 6 (by norm_num) (by norm_num [abs_of_pos, quantize])
        (by norm_num [abs_of_pos, quantize]) (by norm_num [cvRound, quantize]))
  have ce0 := cs0.1
  have cv1 := cs0.2
  have cs1 : quantErrorAtWith roundBinary32 roundingRow 0 1 = 801 / 8 ∧ oldPixelAtWith roundBinary32 roundingRow 0 2 = 16871 / 128 :=
    @firstRow_next roundBinary32 roundingRow 1 (by decide) (by decide) (801 / 8) (801 / 8) (5607 / 8) (5607 / 128) (16871 / 128) 88 cv1
      (roundBinary32_eval _ _ 6 (by norm_num) (by norm_num [abs_of_pos, quantize])
        (by norm_num [abs_of_pos, quantize]) (by norm_num [cvRound, quantize]))
      (roundBinary32_eval _ _ 9 (by norm_num) (by norm_num [abs_of_pos, quantize])
        (by norm_num [abs_of_pos, quantize]) (by norm_num [cvRound, quantize]))
      (roundBinary32_eval _ _ 5 (by norm_num) (by norm_num [abs_of_pos, quantize])
        (by norm_num [abs_of_pos, quantize]) (by norm_num [cvRound, quantize]))
      (by decide)
      (roundBinary32_eval _ _ 7 (by norm_num) (by norm_num [abs_of_pos, quantize])
        (by norm_num [abs_of_pos, quantize]) (by norm_num [cvRound, quantize]))
  have ce1 := cs1.1
  have cv2 := cs1.2
  have cs2 : quantErrorAtWith roundBinary32 roundingRow 0 2 = (-15769 / 128) ∧ oldPixelAtWith roundBinary32 roundingRow 0 3 = 121041 / 2048 :=
    @firstRow_next roundBinary32 roundingRow 2 (by decide) (by decide) (16871 / 128) ((-15769 / 128)) ((-110383 / 128)) ((-110383 / 2048)) (121041 / 2048) 113 cv2
      (roundBinary32_eval _ _ 6 (by norm_num) (by norm_num [abs_of_neg, quantize])
        (by norm_num [abs_of_neg, quantize]) (by norm_num [cvRound, quantize]))
      (roundBinary32_eval _ _ 9 (by norm_num) (by norm_num [abs_of_neg, quantize])
        (by norm_num [abs_of_neg, quantize]) (by norm_num [cvRound, quantize]))
      (roundBinary32_eval _ _ 5 (by norm_num) (by norm_num [abs_of_neg, quantize])
        (by norm_num [abs_of_neg, quantize]) (by norm_num [cvRound, quantize]))
      (by decide)
      (roundBinary32_eval _ _ 5 (by norm_num) (by norm_num [abs_of_pos, quantize])
        (by norm_num [abs_of_pos, quantize]) (by norm_num [cvRound, quantize]))
  have ce2 := cs2.1
  have cv3 := cs2.2
  have cs3 : quantErrorAtWith roundBinary32 roundingRow 0 3 = 121041 / 2048 ∧ oldPixelAtWith roundBinary32 roundingRow 0 4 = 3370423 / 32768 :=
    @firstRow_next roundBinary32 roundingRow 3 (by decide) (by decide) (121041 / 2048) (121041 / 2048) (847287 / 2048) (847287 / 32768) (3370423 / 32768) 77 cv3
      (roundBinary32_eval _ _ 5 (by norm_num) (by norm_num [abs_of_pos, quantize])
        (by norm_num [abs_of_pos, quantize]) (by norm_num [cvRound, quantize]))
      (roundBinary32_eval _ _ 8 (by norm_num) (by norm_num [abs_of_pos, quantize])
        (by norm_num [abs_of_pos, quantize]) (by norm_num [cvRound, quantize]))
      (roundBinary32_eval _ _ 4 (by norm_num) (by norm_num [abs_of_pos, quantize])
        (by norm_num [abs_of_pos, quantize]) (by norm_num [cvRound, quantize]))
      (by decide)
      (roundBinary32_eval _ _ 6 (by norm_num) (by norm_num [abs_of_pos, quantize])
        (by norm_num [abs_of_pos, quantize]) (by norm_num [cvRound, quantize]))
  have ce3 := cs3.1
  have cv4 := cs3.2
  have cs4 : quantErrorAtWith roundBinary32 roundingRow 0 4 = 3370423 / 32768 ∧ oldPixelAtWith roundBinary32 roundingRow 0 5 = 127 :=
    @firstRow_next roundBinary32 roundingRow 4 (by decide) (by decide) (3370423 / 32768) (3370423 / 32768) (720) (45) (127) 82 cv4
      (roundBinary32_eval _ _ 6 (by norm_num) (by norm_num [abs_of_pos, quantize])
        (by norm_num [abs_of_pos, quantize]) (by norm_num [cvRound, quantize]))
      (roundBinary32_eval _ _ 9 (by norm_num) (by norm_num [abs_of_pos, quantize])
        (by norm_num [abs_of_pos, quantize]) (by norm_num [cvRound, quantize]))
      (roundBinary32_eval _ _ 5 (by norm_num) (by norm_num [abs_of_pos, quantize])
        (by norm_num [abs_of_pos, quantize]) (by norm_num [cvRound, quantize]))
      (by decide)
      (roundBinary32_eval _ _ 6 (by norm_num) (by norm_num [abs_of_pos, quantize])
        (by norm_num [abs_of_pos, quantize]) (by norm_num [cvRound, quantize]))
  have ce4 := cs4.1
  have cv5 := cs4.2
  exact ⟨ce4, cv5⟩

/-- Values of the run in exact arithmetic on `roundingRow`. -/
theorem roundingRow_exact :
    quantErrorAtWith id roundingRow 0 4 = 3370423 / 32768 ∧
    oldPixelAtWith id roundingRow 0 5 = 66584577 / 524288 := by
  have xv0 : oldPixelAtWith id roundingRow 0 0 = 14 := by
    rw [firstRow_start id roundingRow (by decide) (by decide)]
    norm_num [roundingRow, Mat.ofRows]
  have xs0 : quantErrorAtWith id roundingRow 0 0 = 14 ∧ oldPixelAtWith id roundingRow 0 1 = 801 / 8 :=
    @firstRow_next id roundingRow 0 (by decide) (by decide) (14) (14) (98) (49 / 8) (801 / 8) 94 xv0
      (by norm_num [quantize])
      (by norm_num [quantize])
      (by norm_num [quantize])
      (by decide)
      (by norm_num [quantize])
  have xe0 := xs0.1
  have xv1 := xs0.2
  have xs1 : quantErrorAtWith id roundingRow 0 1 = 801 / 8 ∧ oldPixelAtWith id roundingRow 0 2 = 16871 / 128 :=
    @firstRow_next id roundingRow 1 (by decide) (by decide) (801 / 8) (801 / 8) (5607 / 8) (5607 / 128) (16871 / 128) 88 xv1
      (by norm_num [quantize])
      (by norm_num [quantize])
      (by norm_num [quantize])
      (by decide)
      (by norm_num [quantize])
  have xe1 := xs1.1
  have xv2 := xs1.2
  have xs2 : quantErrorAtWith id roundingRow 0 2 = (-15769 / 128) ∧ oldPixelAtWith id roundingRow 0 3 = 121041 / 2048 :=
    @firstRow_next id roundingRow 2 (by decide) (by decide) (16871 / 128) ((-15769 / 128)) ((-110383 / 128)) ((-110383 / 2048)) (121041 / 2048) 113 xv2
      (by norm_num [quantize])
      (by norm_num [quantize])
      (by norm_num [quantize])
      (by decide)
      (by norm_num [quantize])
  have xe2 := xs2.1
  have xv3 := xs2.2
  have xs3 : quantErrorAtWith id roundingRow 0 3 = 121041 / 2048 ∧ oldPixelAtWith id roundingRow 0 4 = 3370423 / 32768 :=
    @firstRow_next id roundingRow 3 (by decide) (by decide) (121041 / 2048) (121041 / 2048) (847287 / 2048) (847287 / 32768) (3370423 / 32768) 77 xv3
      (by norm_num [quantize])
      (by norm_num [quantize])
      (by norm_num [quantize])
      (by decide)
      (by norm_num [quantize])
  have xe3 := xs3.1
  have xv4 := xs3.2
  have xs4 : quantErrorAtWith id roundingRow 0 4 = 3370423 / 32768 ∧ oldPixelAtWith id roundingRow 0 5 = 66584577 / 524288 :=
    @firstRow_next id roundingRow 4 (by decide) (by decide) (3370423 / 32768) (3370423 / 32768) (23592961 / 32768) (23592961 / 524288) (66584577 / 524288) 82 xv4
      (by norm_num [quantize])
      (by norm_num [quantize])
      (by norm_num [quantize])
      (by decide)
      (by norm_num [quantize])
  have xe4 := xs4.1
  have xv5 := xs4.2
  exact ⟨xe4, xv5⟩

/-- Values of the binary32 run on `roundingGrid`. -/
theorem roundingGrid_binary32 :
    quantErrorAtWith roundBinary32 roundingGrid 0 4 = 5793943 / 65536 := by
  have cv0 : oldPixelAtWith roundBinary32 roundingGrid 0 0 = 87 := by
    rw [firstRow_start roundBinary32 roundingGrid (by decide) (by decide)]
    norm_num [roundingGrid, Mat.ofRows]
  have cs0 : quantErrorAtWith roundBinary32 roundingGrid 0 0 = 87 ∧ oldPixelAtWith roundBinary32 roundingGrid 0 1 = 1985 / 16 :=
    @firstRow_next roundBinary32 roundingGrid 0 (by decide) (by decide) (87) (87) (609) (609 / 16) (1985 / 16) 86 cv0
      (roundBinary32_eval _ _ 6 (by norm_num) (by norm_num [abs_of_pos, quantize])
        (by norm_num [abs_of_pos, quantize]) (by norm_num [cvRound, quantize]))
      (roundBinary32_eval _ _ 9 (by norm_num) (by norm_num [abs_of_pos, quantize])
        (by norm_num [abs_of_pos, quantize]) (by norm_num [cvRound, quantize]))
      (roundBinary32_eval _ _ 5 (by norm_num) (by norm_num [abs_of_pos, quantize])
        (by norm_num [abs_of_pos, quantize]) (by norm_num [cvRound, quantize]))
      (by decide)
      (roundBinary32_eval _ _ 6 (by norm_num) (by norm_num [abs_of_pos, quantize])
        (by norm_num [abs_of_pos, quantize]) (by norm_num [cvRound, quantize]))
  have ce0 := cs0.1
  have cv1 := cs0.2
  have cs1 : quantErrorAtWith roundBinary32 roundingGrid 0 1 = 1985 / 16 ∧ oldPixelAtWith roundBinary32 roundingGrid 0 2 = 43591 / 256 :=
    @firstRow_next roundBinary32 roundingGrid 1 (by decide) (by decide) (1985 / 16) (1985 / 16) (13895 / 16) (13895 / 256) (43591 / 256) 116 cv1
      (roundBinary32_eval _ _ 6 (by norm_num) (by norm_num [abs_of_pos, quantize])
        (by norm_num [abs_of_pos, quantize]) (by norm_num [cvRound, quantize]))
      (roundBinary32_eval _ _ 9 (by norm_num) (by norm_num [abs_of_pos, quantize])
        (by norm_num [abs_of_pos, quantize]) (by norm_num [cvRound, quantize]))
      (roundBinary32_eval _ _ 5 (by norm_num) (by norm_num [abs_of_pos, quantize])
        (by norm_num [abs_of_pos, quantize]) (by norm_num [cvRound, quantize]))
      (by decide)
      (roundBinary32_eval _ _ 7 (by norm_num) (by norm_num [abs_of_pos, quantize])
        (by norm_num [abs_of_pos, quantize]) (by norm_num [cvRound, quantize]))
  have ce1 := cs1.1
  have cv2 := cs1.2
  have cs2 : quantErrorAtWith roundBinary32 roundingGrid 0 2 = (-21689 / 256) ∧ oldPixelAtWith roundBinary32 roundingGrid 0 3 = (-127247 / 4096) :=
    @firstRow_next roundBinary32 roundingGrid 2 (by decide) (by decide) (43591 / 256) ((-21689 / 256)) ((-151823 / 256)) ((-151823 / 4096)) ((-127247 / 4096)) 6 cv2
      (roundBinary32_eval _ _ 6 (by norm_num) (by norm_num [abs_of_neg, quantize])
        (by norm_num [abs_of_neg, quantize]) (by norm_num [cvRound, quantize]))
      (roundBinary32_eval _ _ 9 (by norm_num) (by norm_num [abs_of_neg, quantize])
        (by norm_num [abs_of_neg, quantize]) (by norm_num [cvRound, quantize]))
      (roundBinary32_eval _ _ 5 (by norm_num) (by norm_num [abs_of_neg, quantize])
        (by norm_num [abs_of_neg, quantize]) (by norm_num [cvRound, quantize]))
      (by decide)
      (roundBinary32_eval _ _ 4 (by norm_num) (by norm_num [abs_of_neg, quantize])
        (by norm_num [abs_of_neg, quantize]) (by norm_num [cvRound, quantize]))
  have ce2 := cs2.1
  have cv3 := cs2.2
  have cs3 : quantErrorAtWith roundBinary32 roundingGrid 0 3 = (-127247 / 4096) ∧ oldPixelAtWith roundBinary32 roundingGrid 0 4 = 5793943 / 65536 :=
    @firstRow_next roundBinary32 roundingGrid 3 (by decide) (by decide) ((-127247 / 4096)) ((-127247 / 4096)) ((-890729 / 4096)) ((-890729 / 65536)) (5793943 / 65536) 102 cv3
      (roundBinary32_eval _ _ 4 (by norm_num) (by norm_num [abs_of_neg, quantize])
        (by norm_num [abs_of_neg, quantize]) (by norm_num [cvRound, quantize]))
      (roundBinary32_eval _ _ 7 (by norm_num) (by norm_num [abs_of_neg, quantize])
        (by norm_num [abs_of_neg, quantize]) (by norm_num [cvRound, quantize]))
      (roundBinary32_eval _ _ 3 (by norm_num) (by norm_num [abs_of_neg, quantize])
        (by norm_num [abs_of_neg, quantize]) (by norm_num [cvRound, quantize]))
      (by decide)
      (roundBinary32_eval _ _ 6 (by norm_num) (by norm_num [abs_of_pos, quantize])
        (by norm_num [abs_of_pos, quantize]) (by norm_num [cvRound, quantize]))
  have ce3 := cs3.1
  have cv4 := cs3.2
  have cs4 : quantErrorAtWith roundBinary32 roundingGrid 0 4 = 5793943 / 65536 ∧ oldPixelAtWith roundBinary32 roundingGrid 0 5 = 1267425 / 32768 :=
    @firstRow_next roundBinary32 roundingGrid 4 (by decide) (by decide) (5793943 / 65536) (5793943 / 65536) (1267425 / 2048) (1267425 / 32768) (1267425 / 32768) 0 cv4
      (roundBinary32_eval _ _ 6 (by norm_num) (by norm_num [abs_of_pos, quantize])
        (by norm_num [abs_of_pos, quantize]) (by norm_num [cvRound, quantize]))
      (roundBinary32_eval _ _ 9 (by norm_num) (by norm_num [abs_of_pos, quantize])
        (by norm_num [abs_of_pos, quantize]) (by norm_num [cvRound, quantize]))
      (roundBinary32_eval _ _ 5 (by norm_num) (by norm_num [abs_of_pos, quantize])
        (by norm_num [abs_of_pos, quantize]) (by norm_num [cvRound, quantize]))
      (by decide)
      (roundBinary32_eval _ _ 5 (by norm_num) (by norm_num [abs_of_pos, quantize])
        (by norm_num [abs_of_pos, quantize]) (by norm_num [cvRound, quantize]))
  have ce4 := cs4.1
  have cv5 := cs4.2
  exact ce4

/-- The four shares of the error of cell `(0, 4)` of `roundingGrid` in binary32. -/
theorem roundingGrid_shares :
    shareOf roundBinary32 (5793943 / 65536) 7 = 1267425 / 32768 ∧ shareOf roundBinary32 (5793943 / 65536) 3 = 4345457 / 262144 ∧
    shareOf roundBinary32 (5793943 / 65536) 5 = 7242429 / 262144 ∧ shareOf roundBinary32 (5793943 / 65536) 1 = 5793943 / 1048576 := by
  have sh7 : shareOf roundBinary32 (5793943 / 65536) 7 = 1267425 / 32768 :=
    @shareOf_eval roundBinary32 (5793943 / 65536) 7 (1267425 / 2048) (1267425 / 32768)
      (roundBinary32_eval _ _ 9 (by norm_num) (by norm_num [abs_of_pos, quantize])
        (by norm_num [abs_of_pos, quantize]) (by norm_num [cvRound, quantize]))
      (roundBinary32_eval _ _ 5 (by norm_num) (by norm_num [abs_of_pos, quantize])
        (by norm_num [abs_of_pos, quantize]) (by norm_num [cvRound, quantize]))
  have sh3 : shareOf roundBinary32 (5793943 / 65536) 3 = 4345457 / 262144 :=
    @shareOf_eval roundBinary32 (5793943 / 65536) 3 (4345457 / 16384) (4345457 / 262144)
      (roundBinary32_eval _ _ 8 (by norm_num) (by norm_num [abs_of_pos, quantize])
        (by norm_num [abs_of_pos, quantize]) (by norm_num [cvRound, quantize]))
      (roundBinary32_eval _ _ 4 (by norm_num) (by norm_num [abs_of_pos, quantize])
        (by norm_num [abs_of_pos, quantize]) (by norm_num [cvRound, quantize]))
  have sh5 : shareOf roundBinary32 (5793943 / 65536) 5 = 7242429 / 262144 :=
    @shareOf_eval roundBinary32 (5793943 / 65536) 5 (7242429 / 16384) (7242429 / 262144)
      (roundBinary32_eval _ _ 8 (by norm_num) (by norm_num [abs_of_pos, quantize])
        (by norm_num [abs_of_pos, quantize]) (by norm_num [cvRound, quantize]))
      (roundBinary32_eval _ _ 4 (by norm_num) (by norm_num [abs_of_pos, quantize])
        (by norm_num [abs_of_pos, quantize]) (by norm_num [cvRound, quantize]))
  have sh1 : shareOf roundBinary32 (5793943 / 65536) 1 = 5793943 / 1048576 :=
    @shareOf_eval roundBinary32 (5793943 / 65536) 1 (5793943 / 65536) (5793943 / 1048576)
      (roundBinary32_eval _ _ 6 (by norm_num) (by norm_num [abs_of_pos, quantize])
        (by norm_num [abs_of_pos, quantize]) (by norm_num [cvRound, quantize]))
      (roundBinary32_eval _ _ 2 (by norm_num) (by norm_num [abs_of_pos, quantize])
        (by norm_num [abs_of_pos, quantize]) (by norm_num [cvRound, quantize]))
  exact ⟨sh7, sh3, sh5, sh1⟩

/-- The binary32 run on `cornerGrid` at its first cell. -/
theorem cornerGrid_binary32 :
    quantErrorAtWith roundBinary32 cornerGrid 0 0 = 16 ∧
    shareOf roundBinary32 16 7 = 7 ∧ shareOf roundBinary32 16 5 = 5 ∧
    shareOf roundBinary32 16 1 = 1 := by
  have v0 : oldPixelAtWith roundBinary32 cornerGrid 0 0 = 16 := by
    rw [firstRow_start roundBinary32 cornerGrid (by decide) (by decide)]
    norm_num [cornerGrid, Mat.ofRows]
  have e0 : quantErrorAtWith roundBinary32 cornerGrid 0 0 = 16 := by
    unfold quantErrorAtWith
    rw [v0]
    exact (roundBinary32_eval _ _ 4 (by norm_num) (by norm_num [abs_of_pos, quantize])
        (by norm_num [abs_of_pos, quantize]) (by norm_num [cvRound, quantize]))
  have cs7 : shareOf roundBinary32 (16) 7 = 7 :=
    @shareOf_eval roundBinary32 (16) 7 (112) (7)
      (roundBinary32_eval _ _ 6 (by norm_num) (by norm_num [abs_of_pos, quantize])
        (by norm_num [abs_of_pos, quantize]) (by norm_num [cvRound, quantize]))
      (roundBinary32_eval _ _ 2 (by norm_num) (by norm_num [abs_of_pos, quantize])
        (by norm_num [abs_of_pos, quantize]) (by norm_num [cvRound, quantize]))
  have cs5 : shareOf roundBinary32 (16) 5 = 5 :=
    @shareOf_eval roundBinary32 (16) 5 (80) (5)
      (roundBinary32_eval _ _ 6 (by norm_num) (by norm_num [abs_of_pos, quantize])
        (by norm_num [abs_of_pos, quantize]) (by norm_num [cvRound, quantize]))
      (roundBinary32_eval _ _ 2 (by norm_num) (by norm_num [abs_of_pos, quantize])
        (by norm_num [abs_of_pos, quantize]) (by norm_num [cvRound, quantize]))
  have cs1 : shareOf roundBinary32 (16) 1 = 1 :=
    @shareOf_eval roundBinary32 (16) 1 (16) (1)
      (roundBinary32_eval _ _ 4 (by norm_num) (by norm_num [abs_of_pos, quantize])
        (by norm_num [abs_of_pos, quantize]) (by norm_num [cvRound, quantize]))
      (roundBinary32_eval _ _ 0 (by norm_num) (by norm_num [abs_of_pos, quantize])
        (by norm_num [abs_of_pos, quantize]) (by norm_num [cvRound, quantize]))
  exact ⟨e0, cs7, cs5, cs1⟩

/-! ## Monotonicity of the rounding -/

theorem cvRound_int (n : Int) : cvRound (n : ℚ) = n := by
  unfold cvRound
  simp

theorem cvRound_mono {x y : ℚ} (h : x ≤ y) : cvRound x ≤ cvRound y := by
  by_contra hc
  push_neg at hc
  have h1 := abs_le.1 (cvRound_abs_sub_le x)
  have h2 := abs_le.1 (cvRound_abs_sub_le y)
  have h3 : (cvRound y : ℚ) + 1 ≤ cvRound x := by exact_mod_cast hc
  have hxy : x = y := le_antisymm h (by linarith [h1.2, h2.1])
  rw [hxy] at hc
  exact lt_irrefl _ hc

theorem cvRound_neg (x : ℚ) : cvRound (-x) = -cvRound x := by
  unfold cvRound
  simp only
  by_cases hx : (⌊x⌋ : ℚ) = x
  · have h1 : ⌊-x⌋ = -⌊x⌋ := by
      rw [← hx, ← Int.cast_neg, Int.floor_intCast, Int.floor_intCast]
    rw [h1]
    have d1 : -x - ((-⌊x⌋ : Int) : ℚ) = 0 := by push_cast; linarith
    have d2 : x - (⌊x⌋ : ℚ) = 0 := by linarith
    rw [d1, d2]
    norm_num
  · have hlt : (⌊x⌋ : ℚ) < x := lt_of_le_of_ne (Int.floor_le x) hx
    have h1 : ⌊-x⌋ = -⌊x⌋ - 1 := by
      rw [Int.floor_eq_iff]
      have := Int.lt_floor_add_one x
      push_cast
      constructor <;> linarith
    rw [h1]
    have d1 : -x - ((-⌊x⌋ - 1 : Int) : ℚ) = 1 - (x - (⌊x⌋ : ℚ)) := by push_cast; ring
    rw [d1]
    have hd0 : 0 < x - (⌊x⌋ : ℚ) := by linarith
    split_ifs <;> first | omega | (exfalso; linarith)

/-- The spacing of binary32 numbers around `x`. -/
theorem roundBinary32_eq (x : ℚ) (hx : x ≠ 0) :
    roundBinary32 x = (cvRound (x / (2 : ℚ) ^ (max (Int.log 2 |x|) (-126) - 23)) : ℚ) *
      (2 : ℚ) ^ (max (Int.log 2 |x|) (-126) - 23) := by
  unfold roundBinary32
  rw [if_neg hx]

theorem roundBinary32_neg (x : ℚ) : roundBinary32 (-x) = -roundBinary32 x := by
  by_cases hx : x = 0
  · subst hx
    simp [roundBinary32]
  · rw [roundBinary32_eq x hx, roundBinary32_eq (-x) (neg_ne_zero.2 hx), abs_neg, neg_div,
      cvRound_neg]
    push_cast
    ring

theorem roundBinary32_nonneg {x : ℚ} (hx : 0 ≤ x) : 0 ≤ roundBinary32 x := by
  by_cases h0 : x = 0
  · subst h0
    simp [roundBinary32]
  · rw [roundBinary32_eq x h0]
    have hQ : (0 : ℚ) < (2 : ℚ) ^ (max (Int.log 2 |x|) (-126) - 23) := by positivity
    have h1 : cvRound ((0 : Int) : ℚ) ≤ cvRound (x / (2 : ℚ) ^ (max (Int.log 2 |x|) (-126) - 23)) :=
      cvRound_mono (by push_cast; positivity)
    rw [cvRound_int] at h1
    have h2 : (0 : ℚ) ≤ (cvRound (x / (2 : ℚ) ^ (max (Int.log 2 |x|) (-126) - 23)) : ℚ) := by
      exact_mod_cast h1
    positivity

/-- A positive value below `2 ^ (e + 1)`, `e` its rounding exponent, rounds to at most
`2 ^ (e + 1)`. -/
theorem roundBinary32_le_pow {x : ℚ} (hx : 0 < x) :
    roundBinary32 x ≤ (2 : ℚ) ^ (max (Int.log 2 |x|) (-126) + 1) := by
  rw [roundBinary32_eq x hx.ne.symm]
  have hQ : (0 : ℚ) < (2 : ℚ) ^ (max (Int.log 2 |x|) (-126) - 23) := by positivity
  have hax : |x| = x := abs_of_pos hx
  have hlt : x < (2 : ℚ) ^ (Int.log 2 |x| + 1) := by
    have := Int.lt_zpow_succ_log_self (b := 2) (by norm_num) |x|
    rw [hax] at this ⊢
    exact_mod_cast this
  have hle : (2 : ℚ) ^ (Int.log 2 |x| + 1) ≤ (2 : ℚ) ^ (max (Int.log 2 |x|) (-126) + 1) :=
    zpow_le_zpow_right₀ (by norm_num) (by have := le_max_left (Int.log 2 |x|) (-126); omega)
  have e1 : (2 : ℚ) ^ (max (Int.log 2 |x|) (-126) + 1) =
      (((2 : Int) ^ 24 : Int) : ℚ) * (2 : ℚ) ^ (max (Int.log 2 |x|) (-126) - 23) := by
    have : max (Int.log 2 |x|) (-126) + 1 = 24 + (max (Int.log 2 |x|) (-126) - 23) := by ring
    rw [this, zpow_add₀ (by norm_num : (2 : ℚ) ≠ 0)]
    norm_num
  have h1 : x / (2 : ℚ) ^ (max (Int.log 2 |x|) (-126) - 23) ≤ (((2 : Int) ^ 24 : Int) : ℚ) := by
    rw [div_le_iff₀ hQ, ← e1]
    linarith
  have h2 := cvRound_mono h1
  rw [cvRound_int] at h2
  have h3 : (cvRound (x / (2 : ℚ) ^ (max (Int.log 2 |x|) (-126) - 23)) : ℚ) ≤
      (((2 : Int) ^ 24 : Int) : ℚ) := by exact_mod_cast h2
  rw [e1]
  exact mul_le_mul_of_nonneg_right h3 hQ.le

/-- A positive normal value rounds to at least the power of two below it. -/
theorem pow_le_roundBinary32 {x : ℚ} (hx : 0 < x) (hn : -126 ≤ Int.log 2 |x|) :
    (2 : ℚ) ^ (Int.log 2 |x|) ≤ roundBinary32 x := by
  rw [roundBinary32_eq x hx.ne.symm, max_eq_left hn]
  have hQ : (0 : ℚ) < (2 : ℚ) ^ (Int.log 2 |x| - 23) := by positivity
  have hax : |x| = x := abs_of_pos hx
  have hge : (2 : ℚ) ^ (Int.log 2 |x|) ≤ x := by
    have := Int.zpow_log_le_self (b := 2) (r := |x|) (by norm_num) (by rw [hax]; exact hx)
    rw [hax] at this ⊢
    exact_mod_cast this
  have e1 : (2 : ℚ) ^ (Int.log 2 |x|) =
      (((2 : Int) ^ 23 : Int) : ℚ) * (2 : ℚ) ^ (Int.log 2 |x| - 23) := by
    have : Int.log 2 |x| = 23 + (Int.log 2 |x| - 23) := by ring
    nth_rewrite 1 [this]
    rw [zpow_add₀ (by norm_num : (2 : ℚ) ≠ 0)]
    norm_num
  have h1 : (((2 : Int) ^ 23 : Int) : ℚ) ≤ x / (2 : ℚ) ^ (Int.log 2 |x| - 23) := by
    rw [le_div_iff₀ hQ, ← e1]
    exact hge
  have h2 := cvRound_mono h1
  rw [cvRound_int] at h2
  have h3 : (((2 : Int) ^ 23 : Int) : ℚ) ≤
      (cvRound (x / (2 : ℚ) ^ (Int.log 2 |x| - 23)) : ℚ) := by exact_mod_cast h2
  rw [e1]
  exact mul_le_mul_of_nonneg_right h3 hQ.le

theorem roundBinary32_mono_pos {x y : ℚ} (hx : 0 < x) (hxy : x ≤ y) :
    roundBinary32 x ≤ roundBinary32 y := by
  have hy : 0 < y := lt_of_lt_of_le hx hxy
  have hlog : Int.log 2 |x| ≤ Int.log 2 |y| := by
    rw [abs_of_pos hx, abs_of_pos hy]
    exact Int.log_mono_right hx hxy
  rcases lt_or_eq_of_le (max_le_max hlog (le_refl (-126 : Int))) with h | h
  · have hn : -126 < Int.log 2 |y| := by
      by_contra hc
      push_neg at hc
      rw [max_eq_right hc] at h
      have := le_max_right (Int.log 2 |x|) (-126)
      omega
    have hmy : max (Int.log 2 |y|) (-126) = Int.log 2 |y| := max_eq_left hn.le
    rw [hmy] at h
    calc roundBinary32 x ≤ (2 : ℚ) ^ (max (Int.log 2 |x|) (-126) + 1) := roundBinary32_le_pow hx
      _ ≤ (2 : ℚ) ^ (Int.log 2 |y|) := zpow_le_zpow_right₀ (by norm_num) (by omega)
      _ ≤ roundBinary32 y := pow_le_roundBinary32 hy hn.le
  · rw [roundBinary32_eq x hx.ne.symm, roundBinary32_eq y hy.ne.symm, h]
    have hQ : (0 : ℚ) < (2 : ℚ) ^ (max (Int.log 2 |y|) (-126) - 23) := by positivity
    have h1 : x / (2 : ℚ) ^ (max (Int.log 2 |y|) (-126) - 23) ≤
        y / (2 : ℚ) ^ (max (Int.log 2 |y|) (-126) - 23) :=
      div_le_div_of_nonneg_right hxy hQ.le
    have h2 : (cvRound (x / (2 : ℚ) ^ (max (Int.log 2 |y|) (-126) - 23)) : ℚ) ≤
        (cvRound (y / (2 : ℚ) ^ (max (Int.log 2 |y|) (-126) - 23)) : ℚ) := by
      exact_mod_cast cvRound_mono h1
    exact mul_le_mul_of_nonneg_right h2 hQ.le

/-- Rounding to binary32 is monotone. -/
theorem roundBinary32_mono {x y : ℚ} (hxy : x ≤ y) : roundBinary32 x ≤ roundBinary32 y := by
  rcases lt_trichotomy 0 x with hx | hx | hx
  · exact roundBinary32_mono_pos hx hxy
  · subst hx
    have : roundBinary32 0 = 0 := by simp [roundBinary32]
    rw [this]
    exact roundBinary32_nonneg hxy
  · rcases le_or_lt 0 y with hy | hy
    · have h1 := roundBinary32_nonneg (x := -x) (by linarith)
      rw [roundBinary32_neg] at h1
      have h2 := roundBinary32_nonneg hy
      linarith
    · have h1 := roundBinary32_mono_pos (x := -y) (y := -x) (by linarith) (by linarith)
      rw [roundBinary32_neg, roundBinary32_neg] at h1
      linarith

/-- A multiple of 1/16 with fewer than 24 significant bits is a binary32 number. -/
theorem roundBinary32_sixteenth (n : Int) (hn : |n| < 2 ^ 24) :
    roundBinary32 ((n : ℚ) / 16) = (n : ℚ) / 16 := by
  by_cases h0 : n = 0
  · subst h0
    simp [roundBinary32]
  · have hx : (n : ℚ) / 16 ≠ 0 := by
      have : (n : ℚ) ≠ 0 := by exact_mod_cast h0
      positivity
    have habs : |(n : ℚ) / 16| = (|n| : ℚ) / 16 := by
      rw [abs_div]; norm_num
    have h1 : (1 : ℚ) ≤ (|n| : ℚ) := by
      have : 1 ≤ |n| := Int.one_le_abs h0
      exact_mod_cast this
    have h2 : (|n| : ℚ) < 2 ^ 24 := by exact_mod_cast hn
    have hpos : 0 < |(n : ℚ) / 16| := abs_pos.2 hx
    have hlo : (-4 : Int) ≤ Int.log 2 |(n : ℚ) / 16| := by
      apply (Int.zpow_le_iff_le_log (by norm_num) hpos).1
      rw [habs]
      norm_num
      linarith
    have hhi : Int.log 2 |(n : ℚ) / 16| < 20 := by
      apply (Int.lt_zpow_iff_log_lt (by norm_num) hpos).1
      rw [habs]
      norm_num
      linarith
    obtain ⟨k, hk⟩ := Int.eq_ofNat_of_zero_le (a := 19 - Int.log 2 |(n : ℚ) / 16|) (by omega)
    have he : Int.log 2 |(n : ℚ) / 16| = 19 - (k : Int) := by omega
    rw [roundBinary32_eq _ hx, he, max_eq_left (by omega)]
    have hQ : (2 : ℚ) ^ ((19 : Int) - (k : Int) - 23) = 1 / (16 * 2 ^ k) := by
      have : (19 : Int) - (k : Int) - 23 = -(((4 + k : Nat)) : Int) := by push_cast; ring
      rw [this, zpow_neg, zpow_natCast, pow_add]
      norm_num
    rw [hQ]
    have hq : (n : ℚ) / 16 / (1 / (16 * 2 ^ k)) = ((n * 2 ^ k : Int) : ℚ) := by
      push_cast
      field_simp
      ring
    rw [hq, cvRound_int]
    push_cast
    field_simp
    ring

/-- Rounding keeps a value above a binary32 number below it. -/
theorem le_roundBinary32 {a x : ℚ} (ha : roundBinary32 a = a) (h : a ≤ x) :
    a ≤ roundBinary32 x := by
  rw [← ha]
  exact roundBinary32_mono h

/-- Rounding keeps a value below a binary32 number above it. -/
theorem roundBinary32_le {b x : ℚ} (hb : roundBinary32 b = b) (h : x ≤ b) :
    roundBinary32 x ≤ b := by
  rw [← hb]
  exact roundBinary32_mono h

/-- An integer below `2 ^ 20` in size is a binary32 number. -/
theorem roundBinary32_intCast (n : Int) (hn : |n| < 2 ^ 20) :
    roundBinary32 (n : ℚ) = (n : ℚ) := by
  have h := roundBinary32_sixteenth (n * 16) (by
    rw [abs_mul]
    have : |(16 : Int)| = 16 := by norm_num
    rw [this]
    omega)
  have e : (((n * 16 : Int)) : ℚ) / 16 = (n : ℚ) := by push_cast; field_simp
  rw [e] at h
  exact h

/-! ## Values of the binary32 run on 8-bit grids -/

/-- The error computed in binary32 from a value in [-128, 382] lies in [-128, 127]. -/
theorem quantError_binary32_bounds {v : ℚ} (h1 : -128 ≤ v) (h2 : v ≤ 382) :
    -128 ≤ roundBinary32 (v - quantize v) ∧ roundBinary32 (v - quantize v) ≤ 127 := by
  have rl : roundBinary32 (-128) = -128 := by
    have h := roundBinary32_intCast (-128) (by norm_num)
    push_cast at h
    exact h
  have ru : roundBinary32 127 = 127 := by
    have h := roundBinary32_intCast 127 (by norm_num)
    push_cast at h
    exact h
  unfold quantize
  split_ifs with h
  · exact ⟨le_roundBinary32 rl (by linarith), roundBinary32_le ru (by linarith)⟩
  · push_neg at h
    exact ⟨le_roundBinary32 rl (by linarith), roundBinary32_le ru (by linarith)⟩

/-- The share `k / 16` computed in binary32 of an error in [-128, 127]. -/
theorem shareOf_binary32_bounds {e : ℚ} (h1 : -128 ≤ e) (h2 : e ≤ 127) (k : Nat) (hk : k ≤ 16) :
    -(8 * k : ℚ) ≤ shareOf roundBinary32 e k ∧ shareOf roundBinary32 e k ≤ 127 * k / 16 := by
  have hk0 : (0 : ℚ) ≤ k := Nat.cast_nonneg k
  have r1 : roundBinary32 (-(128 * k : ℚ)) = -(128 * k : ℚ) := by
    have h := roundBinary32_intCast (-(128 * (k : Int))) (by rw [abs_neg, abs_of_nonneg] <;> omega)
    push_cast at h
    exact h
  have r2 : roundBinary32 (127 * k : ℚ) = (127 * k : ℚ) := by
    have h := roundBinary32_intCast (127 * (k : Int)) (by rw [abs_of_nonneg] <;> omega)
    push_cast at h
    exact h
  have r3 : roundBinary32 (-(8 * k : ℚ)) = -(8 * k : ℚ) := by
    have h := roundBinary32_intCast (-(8 * (k : Int))) (by rw [abs_neg, abs_of_nonneg] <;> omega)
    push_cast at h
    exact h
  have r4 : roundBinary32 (127 * k / 16 : ℚ) = (127 * k / 16 : ℚ) := by
    have h := roundBinary32_sixteenth (127 * (k : Int)) (by rw [abs_of_nonneg] <;> omega)
    push_cast at h
    exact h
  have a1 : -(128 * k : ℚ) ≤ roundBinary32 (e * k) :=
    le_roundBinary32 r1 (by nlinarith)
  have a2 : roundBinary32 (e * k) ≤ (127 * k : ℚ) :=
    roundBinary32_le r2 (by nlinarith)
  unfold shareOf
  exact ⟨le_roundBinary32 r3 (by linarith), roundBinary32_le r4 (by linarith)⟩

/-- One term of the gather form keeps the value between two binary32 bounds. -/
theorem gatherStep_binary32_bounds (present : Prop) [Decidable present] {e x L U a b : ℚ}
    (k : Nat) (hk : k ≤ 16) (he : present → -128 ≤ e ∧ e ≤ 127) (hL : L ≤ x) (hU : x ≤ U)
    (hL2 : a ≤ L - 8 * k) (hU2 : U + 127 * k / 16 ≤ b)
    (rL : roundBinary32 a = a) (rU : roundBinary32 b = b) :
    a ≤ gatherStep roundBinary32 present e k x ∧ gatherStep roundBinary32 present e k x ≤ b := by
  have hk0 : (0 : ℚ) ≤ k := Nat.cast_nonneg k
  unfold gatherStep
  split_ifs with hp
  · obtain ⟨s1, s2⟩ := shareOf_binary32_bounds (he hp).1 (he hp).2 k hk
    exact ⟨le_roundBinary32 rL (by linarith), roundBinary32_le rU (by linarith)⟩
  · constructor
    · linarith
    · have : (0 : ℚ) ≤ 127 * k / 16 := by positivity
      linarith

/-- On a grid of 8-bit values, whatever its dimensions, every value `oldPixel` read by the
binary32 run of `applyErrorDiffusionDithering` lies in [-128, 382] and every `quantError`
computed lies in [-128, 127]: the rounding never meets a value near the overflow threshold. -/
theorem binary32_values_bounded (g : Mat Nat) (hg : EightBit g) (i j : Nat) (hi : i < g.rows)
    (hj : j < g.cols) :
    (-128 ≤ oldPixelAtWith roundBinary32 g i j ∧ oldPixelAtWith roundBinary32 g i j ≤ 382) ∧
    (-128 ≤ quantErrorAtWith roundBinary32 g i j ∧ quantErrorAtWith roundBinary32 g i j ≤ 127) := by
  have rep : ∀ n : Int, |n| < 2 ^ 24 → roundBinary32 ((n : ℚ) / 16) = (n : ℚ) / 16 :=
    roundBinary32_sixteenth
  have step : ∀ i j, i < g.rows → j < g.cols →
      (0 < i → ∀ c, c < g.cols → -128 ≤ quantErrorAtWith roundBinary32 g (i - 1) c ∧
        quantErrorAtWith roundBinary32 g (i - 1) c ≤ 127) →
      (0 < j → -128 ≤ quantErrorAtWith roundBinary32 g i (j - 1) ∧
        quantErrorAtWith roundBinary32 g i (j - 1) ≤ 127) →
      ((-128 ≤ oldPixelAtWith roundBinary32 g i j ∧ oldPixelAtWith roundBinary32 g i j ≤ 382) ∧
       (-128 ≤ quantErrorAtWith roundBinary32 g i j ∧
        quantErrorAtWith roundBinary32 g i j ≤ 127)) := by
    intro i j hi hj habove hleft
    have hv : -128 ≤ oldPixelAtWith roundBinary32 g i j ∧
        oldPixelAtWith roundBinary32 g i j ≤ 382 := by
      rw [oldPixelAtWith_gather roundBinary32 g hi hj]
      have g0 : (0 : ℚ) ≤ (g.data i j : ℚ) := Nat.cast_nonneg _
      have g1 : (g.data i j : ℚ) ≤ 255 := by exact_mod_cast hg i hi j hj
      have b1 := gatherStep_binary32_bounds (0 < i ∧ 0 < j)
        (e := quantErrorAtWith roundBinary32 g (i - 1) (j - 1)) (a := -128 / 16)
        (b := 4207 / 16) 1 (by norm_num)
        (fun h => habove h.1 (j - 1) (by omega)) g0 g1 (by norm_num) (by norm_num)
        (by have h := rep (-128) (by norm_num); push_cast at h; exact h)
        (by have h := rep 4207 (by norm_num); push_cast at h; exact h)
      have b5 := gatherStep_binary32_bounds (0 < i)
        (e := quantErrorAtWith roundBinary32 g (i - 1) j) (a := -768 / 16)
        (b := 4842 / 16) 5 (by norm_num)
        (fun h => habove h j hj) b1.1 b1.2 (by norm_num) (by norm_num)
        (by have h := rep (-768) (by norm_num); push_cast at h; exact h)
        (by have h := rep 4842 (by norm_num); push_cast at h; exact h)
      have b3 := gatherStep_binary32_bounds (0 < i ∧ j + 1 < g.cols)
        (e := quantErrorAtWith roundBinary32 g (i - 1) (j + 1)) (a := -1152 / 16)
        (b := 5223 / 16) 3 (by norm_num)
        (fun h => habove h.1 (j + 1) h.2) b5.1 b5.2 (by norm_num) (by norm_num)
        (by have h := rep (-1152) (by norm_num); push_cast at h; exact h)
        (by have h := rep 5223 (by norm_num); push_cast at h; exact h)
      have b7 := gatherStep_binary32_bounds (0 < j)
        (e := quantErrorAtWith roundBinary32 g i (j - 1)) (a := -2048 / 16)
        (b := 6112 / 16) 7 (by norm_num)
        hleft b3.1 b3.2 (by norm_num) (by norm_num)
        (by have h := rep (-2048) (by norm_num); push_cast at h; exact h)
        (by have h := rep 6112 (by norm_num); push_cast at h; exact h)
      norm_num at b7
      exact b7
    exact ⟨hv, quantError_binary32_bounds hv.1 hv.2⟩
  have row : ∀ i, i < g.rows →
      (∀ i2, i2 < i → ∀ c, c < g.cols →
        -128 ≤ quantErrorAtWith roundBinary32 g i2 c ∧ quantErrorAtWith roundBinary32 g i2 c ≤ 127) →
      ∀ j, j < g.cols →
        ((-128 ≤ oldPixelAtWith roundBinary32 g i j ∧ oldPixelAtWith roundBinary32 g i j ≤ 382) ∧
         (-128 ≤ quantErrorAtWith roundBinary32 g i j ∧
          quantErrorAtWith roundBinary32 g i j ≤ 127)) := by
    intro i hi hprev j
    induction j with
    | zero =>
      intro hj
      exact step i 0 hi hj (fun h c hc => hprev (i - 1) (by omega) c hc)
        (fun h => absurd h (lt_irrefl 0))
    | succ j ih =>
      intro hj
      exact step i (j + 1) hi hj (fun h c hc => hprev (i - 1) (by omega) c hc)
        (fun _ => (ih (by omega)).2)
  have all : ∀ i, i < g.rows → ∀ j, j < g.cols →
      ((-128 ≤ oldPixelAtWith roundBinary32 g i j ∧ oldPixelAtWith roundBinary32 g i j ≤ 382) ∧
       (-128 ≤ quantErrorAtWith roundBinary32 g i j ∧
        quantErrorAtWith roundBinary32 g i j ≤ 127)) := by
    intro i
    induction i using Nat.strong_induction_on with
    | _ i ih =>
      intro hi
      exact row i hi (fun i2 h2 c hc => (ih i2 h2 (by omega) c hc).2)
  exact all i hi j hj

/-! ## The binary32 run on grids of 0 and 255 -/

theorem diffuseCellWith_rows (fl : ℚ → ℚ) (rows cols : Nat) (m : Mat ℚ) (i j : Nat) :
    (diffuseCellWith fl rows cols m i j).rows = m.rows := by
  unfold diffuseCellWith Mat.addAtWith
  simp only
  split_ifs <;> rfl

theorem diffuseCellWith_cols (fl : ℚ → ℚ) (rows cols : Nat) (m : Mat ℚ) (i j : Nat) :
    (diffuseCellWith fl rows cols m i j).cols = m.cols := by
  unfold diffuseCellWith Mat.addAtWith
  simp only
  split_ifs <;> rfl

theorem diffuseListWith_rows (fl : ℚ → ℚ) (rows cols : Nat) (l : List (Nat × Nat)) (m : Mat ℚ) :
    (diffuseListWith fl rows cols l m).rows = m.rows := by
  unfold diffuseListWith
  induction l generalizing m with
  | nil => rfl
  | cons p l ih => rw [List.foldl_cons, ih, diffuseCellWith_rows]

theorem diffuseListWith_cols (fl : ℚ → ℚ) (rows cols : Nat) (l : List (Nat × Nat)) (m : Mat ℚ) :
    (diffuseListWith fl rows cols l m).cols = m.cols := by
  unfold diffuseListWith
  induction l generalizing m with
  | nil => rfl
  | cons p l ih => rw [List.foldl_cons, ih, diffuseCellWith_cols]

/-- The binary32 run keeps the dimensions of the grid. -/
theorem applyErrorDiffusionDitheringF32_dims (g : Mat Nat) :
    (applyErrorDiffusionDitheringF32 g).rows = g.rows ∧
    (applyErrorDiffusionDitheringF32 g).cols = g.cols := by
  unfold applyErrorDiffusionDitheringF32
  simp only [Mat.convertTo, diffuseAllWith_eq_diffuseListWith, diffuseListWith_rows,
    diffuseListWith_cols, and_self]

/-- The binary32 run writes only 0 and 255. -/
theorem applyErrorDiffusionDitheringF32_binarized (g : Mat Nat) :
    Binarized (applyErrorDiffusionDitheringF32 g) := by
  intro r hr c hc
  rw [(applyErrorDiffusionDitheringF32_dims g).1] at hr
  rw [(applyErrorDiffusionDitheringF32_dims g).2] at hc
  rw [applyErrorDiffusionDitheringF32_data g hr hc]
  split_ifs
  · exact Or.inr rfl
  · exact Or.inl rfl

theorem roundBinary32_zero : roundBinary32 0 = 0 := by
  simp [roundBinary32]

/-- A term of the gather form whose source has no error leaves a binary32 value as it is. -/
theorem gatherStep_of_zero (present : Prop) [Decidable present] {e k x : ℚ}
    (he : present → e = 0) (hx : roundBinary32 x = x) :
    gatherStep roundBinary32 present e k x = x := by
  unfold gatherStep
  split_ifs with hp
  · rw [he hp]
    unfold shareOf
    rw [zero_mul, roundBinary32_zero, zero_div, roundBinary32_zero, add_zero, hx]
  · rfl

/-- On a grid whose cells are all 0 or 255 the binary32 run reads the input values and every
`quantError` is 0. -/
theorem binary32_of_binarized (g : Mat Nat) (hg : Binarized g) (i j : Nat) (hi : i < g.rows)
    (hj : j < g.cols) :
    oldPixelAtWith roundBinary32 g i j = (g.data i j : ℚ) ∧
    quantErrorAtWith roundBinary32 g i j = 0 := by
  have r255 : roundBinary32 255 = 255 := by
    have h := roundBinary32_intCast 255 (by norm_num)
    push_cast at h
    exact h
  have step : ∀ i j, i < g.rows → j < g.cols →
      (0 < i → ∀ c, c < g.cols → quantErrorAtWith roundBinary32 g (i - 1) c = 0) →
      (0 < j → quantErrorAtWith roundBinary32 g i (j - 1) = 0) →
      (oldPixelAtWith roundBinary32 g i j = (g.data i j : ℚ) ∧
        quantErrorAtWith roundBinary32 g i j = 0) := by
    intro i j hi hj habove hleft
    have hx : roundBinary32 (g.data i j : ℚ) = (g.data i j : ℚ) := by
      rcases hg i hi j hj with h | h <;> rw [h]
      · simpa using roundBinary32_zero
      · simpa using r255
    have hv : oldPixelAtWith roundBinary32 g i j = (g.data i j : ℚ) := by
      rw [oldPixelAtWith_gather roundBinary32 g hi hj,
        gatherStep_of_zero (0 < i ∧ 0 < j) (fun h => habove h.1 (j - 1) (by omega)) hx,
        gatherStep_of_zero (0 < i) (fun h => habove h j hj) hx,
        gatherStep_of_zero (0 < i ∧ j + 1 < g.cols) (fun h => habove h.1 (j + 1) h.2) hx,
        gatherStep_of_zero (0 < j) hleft hx]
    refine ⟨hv, ?_⟩
    unfold quantErrorAtWith
    rw [hv]
    rcases hg i hi j hj with h | h <;> rw [h] <;> norm_num [quantize, roundBinary32_zero]
  have row : ∀ i, i < g.rows →
      (∀ i2, i2 < i → ∀ c, c < g.cols → quantErrorAtWith roundBinary32 g i2 c = 0) →
      ∀ j, j < g.cols →
        (oldPixelAtWith roundBinary32 g i j = (g.data i j : ℚ) ∧
          quantErrorAtWith roundBinary32 g i j = 0) := by
    intro i hi hprev j
    induction j with
    | zero =>
      intro hj
      exact step i 0 hi hj (fun h c hc => hprev (i - 1) (by omega) c hc)
        (fun h => absurd h (lt_irrefl 0))
    | succ j ih =>
      intro hj
      exact step i (j + 1) hi hj (fun h c hc => hprev (i - 1) (by omega) c hc)
        (fun _ => (ih (by omega)).2)
  have all : ∀ i, i < g.rows → ∀ j, j < g.cols →
      (oldPixelAtWith roundBinary32 g i j = (g.data i j : ℚ) ∧
        quantErrorAtWith roundBinary32 g i j = 0) := by
    intro i
    induction i using Nat.strong_induction_on with
    | _ i ih =>
      intro hi
      exact row i hi (fun i2 h2 c hc => (ih i2 h2 (by omega) c hc).2)
  exact all i hi j hj

/-- On a grid whose cells are all 0 or 255 the binary32 run returns the grid; hence running it
twice gives what running it once gives. -/
theorem applyErrorDiffusionDitheringF32_of_binarized {g : Mat Nat} (hg : Binarized g) :
    SameGrid (applyErrorDiffusionDitheringF32 g) g := by
  refine ⟨(applyErrorDiffusionDitheringF32_dims g).1, (applyErrorDiffusionDitheringF32_dims g).2,
    ?_⟩
  intro r hr c hc
  rw [(applyErrorDiffusionDitheringF32_dims g).1] at hr
  rw [(applyErrorDiffusionDitheringF32_dims g).2] at hc
  rw [applyErrorDiffusionDitheringF32_data g hr hc, (binary32_of_binarized g hg r c hr hc).1]
  rcases hg r hr c hc with h | h <;> rw [h] <;> norm_num

/-- On a grid whose cells are all 0 or 255 the binary32 run and the run in exact arithmetic
return the same grid. -/
theorem binary32_agrees_on_binarized {g : Mat Nat} (hg : Binarized g) :
    SameGrid (applyErrorDiffusionDitheringF32 g) (applyErrorDiffusionDithering g) := by
  obtain ⟨a1, a2, a3⟩ := applyErrorDiffusionDitheringF32_of_binarized hg
  obtain ⟨b1, b2, b3⟩ := applyErrorDiffusionDithering_of_binarized hg
  refine ⟨a1.trans b1.symm, a2.trans b2.symm, ?_⟩
  intro r hr c hc
  rw [a3 r hr c hc]
  rw [a1] at hr
  rw [a2] at hc
  rw [b3 r (by rw [b1]; exact hr) c (by rw [b2]; exact hc)]

/-! ## Direction of the error propagation in the rounded run -/

theorem before_upTo {a b c : Nat × Nat} (h1 : Before a b) (h2 : UpTo b c) : Before a c := by
  rcases h2 with h | h
  · rw [← h]; exact h1
  · exact before_trans h1 h

/-- Forward-only propagation with rounding, for any rounding `fl`: two grids of the same size
that agree on all cells up to and including `(i, j)` make the loops read the same value at each
of those cells. -/
theorem oldPixelAtWith_forward_only (fl : ℚ → ℚ) (g g2 : Mat Nat) (hrows : g2.rows = g.rows)
    (hcols : g2.cols = g.cols) (i j : Nat)
    (hagree : ∀ r, r < g.rows → ∀ c, c < g.cols → UpTo (r, c) (i, j) →
      g2.data r c = g.data r c) :
    ∀ r c, r < g.rows → c < g.cols → UpTo (r, c) (i, j) →
      oldPixelAtWith fl g2 r c = oldPixelAtWith fl g r c := by
  have herr : ∀ r c, oldPixelAtWith fl g2 r c = oldPixelAtWith fl g r c →
      quantErrorAtWith fl g2 r c = quantErrorAtWith fl g r c := by
    intro r c h
    unfold quantErrorAtWith
    rw [h]
  have step : ∀ r c, r < g.rows → c < g.cols → UpTo (r, c) (i, j) →
      (0 < r → ∀ d, d < g.cols →
        quantErrorAtWith fl g2 (r - 1) d = quantErrorAtWith fl g (r - 1) d) →
      (0 < c → quantErrorAtWith fl g2 r (c - 1) = quantErrorAtWith fl g r (c - 1)) →
      oldPixelAtWith fl g2 r c = oldPixelAtWith fl g r c := by
    intro r c hr hc hu habove hleft
    rw [oldPixelAtWith_gather fl g hr hc,
      oldPixelAtWith_gather fl g2 (by rw [hrows]; exact hr) (by rw [hcols]; exact hc),
      hcols, hagree r hr c hc hu]
    unfold gatherStep
    by_cases h1 : 0 < r <;> by_cases h2 : 0 < c <;> by_cases h3 : c + 1 < g.cols <;>
      simp only [h1, h2, h3, and_self, and_true, and_false, true_and, false_and, if_true,
        if_false] <;>
      (try rw [habove h1 (c - 1) (by omega)]) <;>
      (try rw [habove h1 c hc]) <;>
      (try rw [habove h1 (c + 1) h3]) <;>
      (try rw [hleft h2])
  have row : ∀ r, r < g.rows →
      (∀ r2, r2 < r → ∀ d, d < g.cols → UpTo (r2, d) (i, j) →
        oldPixelAtWith fl g2 r2 d = oldPixelAtWith fl g r2 d) →
      ∀ c, c < g.cols → UpTo (r, c) (i, j) →
        oldPixelAtWith fl g2 r c = oldPixelAtWith fl g r c := by
    intro r hr hprev c
    induction c with
    | zero =>
      intro hc hu
      refine step r 0 hr hc hu (fun h d hd => herr _ _ (hprev (r - 1) (by omega) d hd ?_))
        (fun h => absurd h (lt_irrefl 0))
      exact Or.inr (before_upTo (a := (r - 1, d)) (b := (r, 0))
        (Or.inl (by show r - 1 < r; omega)) hu)
    | succ c ih =>
      intro hc hu
      refine step r (c + 1) hr hc hu
        (fun h d hd => herr _ _ (hprev (r - 1) (by omega) d hd ?_))
        (fun _ => herr _ _ (ih (by omega) ?_))
      · exact Or.inr (before_upTo (a := (r - 1, d)) (b := (r, c + 1))
          (Or.inl (by show r - 1 < r; omega)) hu)
      · exact Or.inr (before_upTo (a := (r, c)) (b := (r, c + 1))
          (Or.inr ⟨rfl, by show c < c + 1; omega⟩) hu)
  intro r
  induction r using Nat.strong_induction_on with
  | _ r ih =>
    intro c hr hc hu
    exact row r hr (fun r2 h2 d hd hu2 => ih r2 h2 d (by omega) hd hu2) c hc hu

/-- Forward-only propagation of the binary32 run: two grids of the same size that agree on all
cells up to and including `(i, j)` give outputs that agree on all those cells. -/
theorem applyErrorDiffusionDitheringF32_forward_only (g g2 : Mat Nat) (hrows : g2.rows = g.rows)
    (hcols : g2.cols = g.cols) (i j : Nat)
    (hagree : ∀ r, r < g.rows → ∀ c, c < g.cols → UpTo (r, c) (i, j) →
      g2.data r c = g.data r c) :
    ∀ r c, r < g.rows → c < g.cols → UpTo (r, c) (i, j) →
      (applyErrorDiffusionDitheringF32 g2).data r c =
        (applyErrorDiffusionDitheringF32 g).data r c := by
  intro r c hr hc hu
  rw [applyErrorDiffusionDitheringF32_data g hr hc,
    applyErrorDiffusionDitheringF32_data g2 (by rw [hrows]; exact hr) (by rw [hcols]; exact hc),
    oldPixelAtWith_forward_only roundBinary32 g g2 hrows hcols i j hagree r c hr hc hu]

/-! ## Claims on the rounded error diffusion -/

/-- C3 (as amended): when the loops of `applyErrorDiffusionDithering` process a cell `(i, j)`
with `i + 1 < rows` and `j + 1 < cols`, no cell other than `(i, j)` and its right, below-left,
below and below-right neighbours changes. In the binary32 arithmetic of the code, for `j ≥ 1`
the four neighbours receive the shares `fl (fl (quantError * k) / 16)` for `k` = 7, 3, 5, 1,
each by a rounded `+=`, and the sum of the four shares differs from `quantError` by at most
`|quantError| / 2 ^ 22 + 2 ^ (-146)`; for `j = 0` there is no below-left neighbour, three shares
are handed on and their sum is within the same distance of 13/16 of `quantError`; on a grid
of 8-bit values `quantError` lies in [-128, 127]. In exact rational arithmetic the amounts
added sum to `quantError` exactly for `j ≥ 1` and to 13/16 of it for `j = 0`. -/
theorem propagatedError_interior (g : Mat Nat) (i j : Nat) (hi : i + 1 < g.rows)
    (hj : j + 1 < g.cols) :
    (∀ r c, (r, c) ∉ [(i, j), (i, j + 1), (i + 1, j - 1), (i + 1, j), (i + 1, j + 1)] →
      (stateAfterWith roundBinary32 g i j).data r c =
        (stateBeforeWith roundBinary32 g i j).data r c) ∧
    (0 < j →
      (stateAfterWith roundBinary32 g i j).data i (j + 1) =
        roundBinary32 ((stateBeforeWith roundBinary32 g i j).data i (j + 1) +
          shareOf roundBinary32 (quantErrorAtWith roundBinary32 g i j) 7) ∧
      (stateAfterWith roundBinary32 g i j).data (i + 1) (j - 1) =
        roundBinary32 ((stateBeforeWith roundBinary32 g i j).data (i + 1) (j - 1) +
          shareOf roundBinary32 (quantErrorAtWith roundBinary32 g i j) 3) ∧
      (stateAfterWith roundBinary32 g i j).data (i + 1) j =
        roundBinary32 ((stateBeforeWith roundBinary32 g i j).data (i + 1) j +
          shareOf roundBinary32 (quantErrorAtWith roundBinary32 g i j) 5) ∧
      (stateAfterWith roundBinary32 g i j).data (i + 1) (j + 1) =
        roundBinary32 ((stateBeforeWith roundBinary32 g i j).data (i + 1) (j + 1) +
          shareOf roundBinary32 (quantErrorAtWith roundBinary32 g i j) 1) ∧
      |shareOf roundBinary32 (quantErrorAtWith roundBinary32 g i j) 7 +
          shareOf roundBinary32 (quantErrorAtWith roundBinary32 g i j) 3 +
          shareOf roundBinary32 (quantErrorAtWith roundBinary32 g i j) 5 +
          shareOf roundBinary32 (quantErrorAtWith roundBinary32 g i j) 1 -
          quantErrorAtWith roundBinary32 g i j| ≤
        |quantErrorAtWith roundBinary32 g i j| / 2 ^ 22 + 1 / 2 ^ 146) ∧
    (j = 0 →
      (stateAfterWith roundBinary32 g i 0).data i 1 =
        roundBinary32 ((stateBeforeWith roundBinary32 g i 0).data i 1 +
          shareOf roundBinary32 (quantErrorAtWith roundBinary32 g i 0) 7) ∧
      (stateAfterWith roundBinary32 g i 0).data (i + 1) 0 =
        roundBinary32 ((stateBeforeWith roundBinary32 g i 0).data (i + 1) 0 +
          shareOf roundBinary32 (quantErrorAtWith roundBinary32 g i 0) 5) ∧
      (stateAfterWith roundBinary32 g i 0).data (i + 1) 1 =
        roundBinary32 ((stateBeforeWith roundBinary32 g i 0).data (i + 1) 1 +
          shareOf roundBinary32 (quantErrorAtWith roundBinary32 g i 0) 1) ∧
      |shareOf roundBinary32 (quantErrorAtWith roundBinary32 g i 0) 7 +
          shareOf roundBinary32 (quantErrorAtWith roundBinary32 g i 0) 5 +
          shareOf roundBinary32 (quantErrorAtWith roundBinary32 g i 0) 1 -
          13 / 16 * quantErrorAtWith roundBinary32 g i 0| ≤
        |quantErrorAtWith roundBinary32 g i 0| / 2 ^ 22 + 1 / 2 ^ 146) ∧
    (EightBit g → -128 ≤ quantErrorAtWith roundBinary32 g i j ∧
      quantErrorAtWith roundBinary32 g i j ≤ 127) ∧
    (0 < j →
      ((diffuseCell g.rows g.cols (stateBefore g i j) i j).data i (j + 1) -
          (stateBefore g i j).data i (j + 1)) +
        ((diffuseCell g.rows g.cols (stateBefore g i j) i j).data (i + 1) (j - 1) -
          (stateBefore g i j).data (i + 1) (j - 1)) +
        ((diffuseCell g.rows g.cols (stateBefore g i j) i j).data (i + 1) j -
          (stateBefore g i j).data (i + 1) j) +
        ((diffuseCell g.rows g.cols (stateBefore g i j) i j).data (i + 1) (j + 1) -
          (stateBefore g i j).data (i + 1) (j + 1)) = quantErrorAt g i j ∧
      propagatedError g.rows g.cols (stateBefore g i j) i j = quantErrorAt g i j) ∧
    (j = 0 → propagatedError g.rows g.cols (stateBefore g i j) i j =
      13 / 16 * quantErrorAt g i j) := by
  refine ⟨fun r c h => stateAfterWith_other roundBinary32 g h, ?_, ?_,
    fun hg => (binary32_values_bounded g hg i j (by omega) (by omega)).2, ?_⟩
  · intro h0
    obtain ⟨w1, w2, w3, w4⟩ := @weight_neighbours g.rows g.cols i j hi hj h0
    exact ⟨stateAfterWith_neighbour roundBinary32 g (by norm_num) w1,
      stateAfterWith_neighbour roundBinary32 g (by norm_num) w2,
      stateAfterWith_neighbour roundBinary32 g (by norm_num) w3,
      stateAfterWith_neighbour roundBinary32 g (by norm_num) w4,
      shares_sum_error _⟩
  · intro h0
    subst h0
    obtain ⟨w1, w3, w4⟩ := @weight_neighbours_first_column g.rows g.cols i hi hj
    exact ⟨stateAfterWith_neighbour roundBinary32 g (by norm_num) w1,
      stateAfterWith_neighbour roundBinary32 g (by norm_num) w3,
      stateAfterWith_neighbour roundBinary32 g (by norm_num) w4,
      shares_sum_error_first_column _⟩
  · have h := @propagatedError_eq g.rows g.cols (stateBefore g i j) i j (by omega) (by omega)
    simp only [hi, hj, if_true, true_and, and_true] at h
    unfold quantErrorAt oldPixelAt
    constructor
    · intro h0
      obtain ⟨w1, w2, w3, w4⟩ := @weight_neighbours g.rows g.cols i j hi hj h0
      constructor
      · rw [diffuseCell_sub _ _ _ (by omega), diffuseCell_sub _ _ _ (by omega),
          diffuseCell_sub _ _ _ (by omega), diffuseCell_sub _ _ _ (by omega), w1, w2, w3, w4]
        ring
      · rw [h, if_pos h0]; ring
    · intro h0
      rw [h, if_neg (by omega)]; ring

theorem propagatedError_interior_witness :
    0 + 1 < roundingGrid.rows ∧ 4 + 1 < roundingGrid.cols ∧
    |shareOf roundBinary32 (quantErrorAtWith roundBinary32 roundingGrid 0 4) 7 +
        shareOf roundBinary32 (quantErrorAtWith roundBinary32 roundingGrid 0 4) 3 +
        shareOf roundBinary32 (quantErrorAtWith roundBinary32 roundingGrid 0 4) 5 +
        shareOf roundBinary32 (quantErrorAtWith roundBinary32 roundingGrid 0 4) 1 -
        quantErrorAtWith roundBinary32 roundingGrid 0 4| ≤
      |quantErrorAtWith roundBinary32 roundingGrid 0 4| / 2 ^ 22 + 1 / 2 ^ 146 ∧
    propagatedError sampleGrid.rows sampleGrid.cols (stateBefore sampleGrid 0 1) 0 1 =
      quantErrorAt sampleGrid 0 1 :=
  ⟨by decide, by decide,
    ((propagatedError_interior roundingGrid 0 4 (by decide) (by decide)).2.1
      (by decide)).2.2.2.2,
    ((propagatedError_interior sampleGrid 0 1 (by decide) (by decide)).2.2.2.2.1
      (by decide)).2⟩

/-- C3 (as stated) fails: in the 2 x 2 grid `[[16, 0], [0, 0]]` the cell `(0, 0)` is neither on
the last row nor on the last column, its `quantError` is 16, and the amounts added to the other
cells sum to 13, in exact arithmetic and in the binary32 arithmetic of the code alike (the
shares 7, 5 and 1 are handed on, the share 3 is not). In binary32 the sum is not exact for
`j ≥ 1` either: in the 2 x 6 grid `roundingGrid` the cell `(0, 4)` has
`quantError = 5793943 / 65536` and its four shares sum to `quantError - 1 / 1048576`. -/
theorem propagatedError_first_column_counterexample :
    0 + 1 < cornerGrid.rows ∧ 0 + 1 < cornerGrid.cols ∧
    quantErrorAt cornerGrid 0 0 = 16 ∧
    propagatedError cornerGrid.rows cornerGrid.cols (stateBefore cornerGrid 0 0) 0 0 = 13 ∧
    propagatedError cornerGrid.rows cornerGrid.cols (stateBefore cornerGrid 0 0) 0 0 ≠
      quantErrorAt cornerGrid 0 0 ∧
    quantErrorAtWith roundBinary32 cornerGrid 0 0 = 16 ∧
    (stateAfterWith roundBinary32 cornerGrid 0 0).data 0 1 -
      (stateBeforeWith roundBinary32 cornerGrid 0 0).data 0 1 = 7 ∧
    (stateAfterWith roundBinary32 cornerGrid 0 0).data 1 0 -
      (stateBeforeWith roundBinary32 cornerGrid 0 0).data 1 0 = 5 ∧
    (stateAfterWith roundBinary32 cornerGrid 0 0).data 1 1 -
      (stateBeforeWith roundBinary32 cornerGrid 0 0).data 1 1 = 1 ∧
    0 + 1 < roundingGrid.rows ∧ 4 + 1 < roundingGrid.cols ∧
    quantErrorAtWith roundBinary32 roundingGrid 0 4 = 5793943 / 65536 ∧
    shareOf roundBinary32 (quantErrorAtWith roundBinary32 roundingGrid 0 4) 7 +
      shareOf roundBinary32 (quantErrorAtWith roundBinary32 roundingGrid 0 4) 3 +
      shareOf roundBinary32 (quantErrorAtWith roundBinary32 roundingGrid 0 4) 5 +
      shareOf roundBinary32 (quantErrorAtWith roundBinary32 roundingGrid 0 4) 1 =
      quantErrorAtWith roundBinary32 roundingGrid 0 4 - 1 / 1048576 := by
  have hs : stateBefore cornerGrid 0 0 = cornerGrid.convertTo (fun v : Nat => (v : ℚ)) := rfl
  have hq : quantErrorAt cornerGrid 0 0 = 16 := by
    unfold quantErrorAt oldPixelAt
    rw [hs]
    norm_num [Mat.convertTo, cornerGrid, Mat.ofRows, quantErrorOf, quantize]
  have hp : propagatedError cornerGrid.rows cornerGrid.cols (stateBefore cornerGrid 0 0) 0 0 = 13 := by
    have h := @propagatedError_eq cornerGrid.rows cornerGrid.cols
      (stateBefore cornerGrid 0 0) 0 0 (by decide) (by decide)
    have e : quantErrorOf ((stateBefore cornerGrid 0 0).data 0 0) = 16 := hq
    rw [h, e]
    norm_num [cornerGrid, Mat.ofRows]
  obtain ⟨fq, f7, f5, f1⟩ := cornerGrid_binary32
  obtain ⟨w7, w5, w1⟩ := @weight_neighbours_first_column cornerGrid.rows cornerGrid.cols 0
    (by decide) (by decide)
  have hsb : stateBeforeWith roundBinary32 cornerGrid 0 0 =
      cornerGrid.convertTo (fun v : Nat => (v : ℚ)) := rfl
  have r7 : roundBinary32 (0 + 7) = 7 :=
    roundBinary32_eval _ _ 2 (by norm_num) (by norm_num [abs_of_pos])
      (by norm_num [abs_of_pos]) (by norm_num [cvRound])
  have r5 : roundBinary32 (0 + 5) = 5 :=
    roundBinary32_eval _ _ 2 (by norm_num) (by norm_num [abs_of_pos])
      (by norm_num [abs_of_pos]) (by norm_num [cvRound])
  have r1 : roundBinary32 (0 + 1) = 1 :=
    roundBinary32_eval _ _ 0 (by norm_num) (by norm_num [abs_of_pos])
      (by norm_num [abs_of_pos]) (by norm_num [cvRound])
  have d01 : (stateBeforeWith roundBinary32 cornerGrid 0 0).data 0 1 = 0 := by
    rw [hsb]; norm_num [Mat.convertTo, cornerGrid, Mat.ofRows]
  have d10 : (stateBeforeWith roundBinary32 cornerGrid 0 0).data 1 0 = 0 := by
    rw [hsb]; norm_num [Mat.convertTo, cornerGrid, Mat.ofRows]
  have d11 : (stateBeforeWith roundBinary32 cornerGrid 0 0).data 1 1 = 0 := by
    rw [hsb]; norm_num [Mat.convertTo, cornerGrid, Mat.ofRows]
  have gq := roundingGrid_binary32
  obtain ⟨s7, s3, s5, s1⟩ := roundingGrid_shares
  refine ⟨by decide, by decide, hq, hp, ?_, fq, ?_, ?_, ?_, by decide, by decide, gq, ?_⟩
  · rw [hp, hq]
    norm_num
  · rw [stateAfterWith_neighbour roundBinary32 cornerGrid (by norm_num) w7, fq, f7, d01, r7]
    norm_num
  · rw [stateAfterWith_neighbour roundBinary32 cornerGrid (by norm_num) w5, fq, f5, d10, r5]
    norm_num
  · rw [stateAfterWith_neighbour roundBinary32 cornerGrid (by norm_num) w1, fq, f1, d11, r1]
    norm_num
  · rw [gq, s7, s3, s5, s1]
    norm_num

/-- C16 (as amended): in the binary32 arithmetic of the code the value `v(i, j)` that the loops
of `applyErrorDiffusionDithering` read at cell `(i, j)` is the input `g(i, j)` to which the
shares of the errors of the cells `(i-1, j-1)`, `(i-1, j)`, `(i-1, j+1)` and `(i, j-1)` have
been added in this order, with weights 1, 5, 3 and 7 sixteenths, every product, quotient and
sum rounded: `x` becomes `fl (x + fl (fl (e * k) / 16))`, a source outside the grid is skipped,
`e(a, b) = fl (v(a, b) - q(v(a, b)))`, and the output at `(i, j)` is `q(v(i, j))`. In exact
rational arithmetic the values read satisfy
`v(i, j) = g(i, j) + 7/16 e(i, j-1) + 1/16 e(i-1, j-1) + 5/16 e(i-1, j) + 3/16 e(i-1, j+1)`
with `e(a, b) = v(a, b) - q(v(a, b))` inside the grid and 0 outside, and equal the value
computed row by row by the gather form. -/
theorem errorDiffusion_gather_form (g : Mat Nat) (i j : Nat) (hi : i < g.rows)
    (hj : j < g.cols) :
    oldPixelAtWith roundBinary32 g i j =
      gatherStep roundBinary32 (0 < j) (quantErrorAtWith roundBinary32 g i (j - 1)) 7
        (gatherStep roundBinary32 (0 < i ∧ j + 1 < g.cols)
          (quantErrorAtWith roundBinary32 g (i - 1) (j + 1)) 3
          (gatherStep roundBinary32 (0 < i) (quantErrorAtWith roundBinary32 g (i - 1) j) 5
            (gatherStep roundBinary32 (0 < i ∧ 0 < j)
              (quantErrorAtWith roundBinary32 g (i - 1) (j - 1)) 1 (g.data i j : ℚ)))) ∧
    quantErrorAtWith roundBinary32 g i j =
      roundBinary32 (oldPixelAtWith roundBinary32 g i j -
        (if oldPixelAtWith roundBinary32 g i j > 127 then 255 else 0)) ∧
    (applyErrorDiffusionDitheringF32 g).data i j =
      (if oldPixelAtWith roundBinary32 g i j > 127 then 255 else 0) ∧
    oldPixelAt g i j = (g.data i j : ℚ) + 7 / 16 * errorAt g (i : Int) ((j : Int) - 1) +
      1 / 16 * errorAt g ((i : Int) - 1) ((j : Int) - 1) +
      5 / 16 * errorAt g ((i : Int) - 1) (j : Int) +
      3 / 16 * errorAt g ((i : Int) - 1) ((j : Int) + 1) ∧
    errorAt g (i : Int) (j : Int) =
      oldPixelAt g i j - (if oldPixelAt g i j > 127 then 255 else 0) ∧
    (∀ a b : Int, ¬ (0 ≤ a ∧ a < g.rows ∧ 0 ≤ b ∧ b < g.cols) → errorAt g a b = 0) ∧
    oldPixelAt g i j = gatherValue g i j := by
  refine ⟨oldPixelAtWith_gather roundBinary32 g hi hj, rfl,
    applyErrorDiffusionDitheringF32_data g hi hj, oldPixelAt_gather g hi hj, ?_,
    fun a b h => errorAt_out g h, oldPixelAt_eq_gatherValue g i hi j hj⟩
  rw [errorAt_in g hi hj]
  rfl

theorem errorDiffusion_gather_form_witness :
    0 < roundingRow.rows ∧ 5 < roundingRow.cols ∧
    oldPixelAtWith roundBinary32 roundingRow 0 5 =
      roundBinary32 (82 + shareOf roundBinary32 (quantErrorAtWith roundBinary32 roundingRow 0 4) 7) ∧
    (applyErrorDiffusionDitheringF32 sampleGrid).data 1 1 =
      (if oldPixelAtWith roundBinary32 sampleGrid 1 1 > 127 then 255 else 0) ∧
    oldPixelAt sampleGrid 1 1 = gatherValue sampleGrid 1 1 := by
  have h := (errorDiffusion_gather_form roundingRow 0 5 (by decide) (by decide)).1
  have hd : roundingRow.data 0 5 = 82 := by decide
  simp only [gatherStep, Nat.lt_irrefl, false_and, if_false, hd] at h
  exact ⟨by decide, by decide, by simpa using h,
    (errorDiffusion_gather_form sampleGrid 1 1 (by decide) (by decide)).2.2.1,
    (errorDiffusion_gather_form sampleGrid 1 1 (by decide) (by decide)).2.2.2.2.2.2⟩

/-- C16 (as stated) fails for the code: on the one-row grid `[[14, 94, 88, 113, 77, 82]]` the
binary32 run computes `e(0, 4) = 3370423 / 32768` and reads `v(0, 5) = 127`, which is not
`82 + 7/16 * e(0, 4) = 127 + 1 / 524288` (the product `e(0, 4) * 7` is rounded to 720), and
writes 0 at `(0, 5)`; the recurrence of the claim in exact rationals gives
`v(0, 5) = 66584577 / 524288 > 127`, hence the output 255. -/
theorem errorDiffusion_gather_form_counterexample :
    quantErrorAtWith roundBinary32 roundingRow 0 4 = 3370423 / 32768 ∧
    oldPixelAtWith roundBinary32 roundingRow 0 5 = 127 ∧
    oldPixelAtWith roundBinary32 roundingRow 0 5 ≠
      (roundingRow.data 0 5 : ℚ) + 7 / 16 * quantErrorAtWith roundBinary32 roundingRow 0 4 ∧
    (applyErrorDiffusionDitheringF32 roundingRow).data 0 5 = 0 ∧
    gatherValue roundingRow 0 5 = 66584577 / 524288 ∧
    (if gatherValue roundingRow 0 5 > 127 then 255 else 0) = 255 ∧
    (applyErrorDiffusionDithering roundingRow).data 0 5 = 255 := by
  obtain ⟨he, hv⟩ := roundingRow_binary32
  obtain ⟨-, hx⟩ := roundingRow_exact
  have hd : roundingRow.data 0 5 = 82 := by decide
  have hg : gatherValue roundingRow 0 5 = 66584577 / 524288 := by
    rw [← oldPixelAt_eq_gatherValue roundingRow 0 (by decide) 5 (by decide),
      ← oldPixelAtWith_id, hx]
  have hx2 : oldPixelAt roundingRow 0 5 = 66584577 / 524288 := by
    rw [← oldPixelAtWith_id, hx]
  refine ⟨he, hv, ?_, ?_, hg, ?_, ?_⟩
  · rw [hv, he, hd]
    norm_num
  · rw [applyErrorDiffusionDitheringF32_data roundingRow (by decide) (by decide), hv]
    norm_num
  · rw [hg]
    norm_num
  · rw [applyErrorDiffusionDithering_data,
      diffuseAll_data_eq_quantize roundingRow (by decide) (by decide), saturate_quantize]
    have : oldPixelAt roundingRow 0 5 > 127 := by rw [hx2]; norm_num
    exact if_pos this

end Mikunyan
